import Mathlib

/-!
# FileConfig: the line decoder of `src/FileConfig.cpp`

A shallow embedding of `FileConfig::begin`, `FileConfig::readNextSetting` and the
accessors `getSection`, `getName`, `getValue(bool)`.

* A byte (`char`, the value returned by `_file.read()`) is a `Nat`; the stream
  `_file` is the list of bytes that are still unread.
* `_line` and `_section` are the lists of the bytes of the two allocated blocks.
  A store `buffer[i] = x` is `List.set`; a store outside the block leaves the block
  as it is and raises the ghost flag `outOfBounds`.
* `uint8_t`, `uint16_t` and `int8_t` fields are `Nat`/`Int` with explicit wrap-around.
-/

/-- The states of the per-line state machine, `enum ReadStep` of `FileConfig.h`. -/
inductive ReadStep where
  | FirstANChar
  | Comment
  | SectionName
  | SectionEnd
  | KeyName
  | Equal
  | Value
  | BadFormat
  deriving DecidableEq, Repr

/-- The integer value of an enumerator (C numbers them from 0 in declaration order). -/
def ReadStep.toNat : ReadStep → Nat
  | .FirstANChar => 0
  | .Comment => 1
  | .SectionName => 2
  | .SectionEnd => 3
  | .KeyName => 4
  | .Equal => 5
  | .Value => 6
  | .BadFormat => 7

/-- The block the local pointer `char *buffer` points to: `NULL`, `_section` or `_line`. -/
inductive Buffer where
  | null
  | section_
  | line
  deriving DecidableEq, Repr

/-- The member variables of `class FileConfig` (`FileConfig.h`), plus the ghost flag
`outOfBounds` that records a store outside an allocated block. -/
structure FileConfig where
  /-- `_file`: the bytes not yet read. -/
  file : List Nat
  /-- `_atEnd`. -/
  atEnd : Bool
  /-- `_line`: the bytes of the block allocated for the current line. -/
  line : List Nat
  /-- `_lineCounter` (`uint16_t`). -/
  lineCounter : Nat
  /-- `_lineSize` (`uint8_t`). -/
  lineSize : Nat
  /-- `_lineLength` (`uint8_t`). -/
  lineLength : Nat
  /-- `_valueIndex` (`int8_t`). -/
  valueIndex : Int
  /-- `_section` (`section` is reserved in Lean): the bytes of the block allocated for the section name. -/
  section_ : List Nat
  /-- `_sectionChanged`. -/
  sectionChanged : Bool
  /-- `_sectionSize` (`uint8_t`). -/
  sectionSize : Nat
  /-- `ignoreCase`, which selects `_strcmp`. -/
  ignoreCase : Bool
  /-- `_ignoreError`. -/
  ignoreError : Bool
  /-- Ghost: some store so far fell outside its block. -/
  outOfBounds : Bool
  deriving DecidableEq, Repr

/-- The variables local to one iteration of the outer loop of `readNextSetting`
(`buffer`, `bufferSize`, `isSection`, `readStep`). -/
structure Locals where
  buffer : Buffer
  bufferSize : Nat
  isSection : Bool
  readStep : ReadStep
  deriving DecidableEq, Repr

namespace FileConfig

/-- Carriage return. -/
abbrev CR : Nat := 13
/-- Line feed. -/
abbrev LF : Nat := 10
/-- The space character. -/
abbrev SP : Nat := 32
/-- The horizontal tab. -/
abbrev TAB : Nat := 9
/-- The character `#`. -/
abbrev HASH : Nat := 35
/-- The character `[`. -/
abbrev LBRACK : Nat := 91
/-- The character `]`. -/
abbrev RBRACK : Nat := 93
/-- The character `=`. -/
abbrev EQ : Nat := 61

/-- Conversion of a `uint8_t` to `int8_t` (`_valueIndex = _lineLength`). -/
def toInt8 (n : Nat) : Int :=
  if n % 256 < 128 then ((n % 256 : Nat) : Int) else ((n % 256 : Nat) : Int) - 256

/-- The string a `char *` into block `buf` at offset `i` denotes: the bytes from `i`
up to the first null byte (or to the end of the block when there is none). -/
def cstr (buf : List Nat) (i : Nat) : List Nat :=
  (buf.drop i).takeWhile (fun c => c != 0)

/-- Lines 19-73, `begin`, on the path where both allocations and the open succeed
(the other paths return false with `_atEnd` set and decode nothing). `lineMem` and
`sectionMem` are the indeterminate contents of the two fresh blocks. -/
def begin (file : List Nat) (maxLineLength maxSectionLength : Nat)
    (ignoreCase ignoreError : Bool) (lineMem sectionMem : Nat → Nat) : FileConfig :=
  let lineSize := (maxLineLength + 1) % 256
  let sectionSize := (maxSectionLength + 1) % 256
  { file := file
    atEnd := false
    line := (List.range lineSize).map lineMem
    lineCounter := 1
    lineSize := lineSize
    lineLength := 0
    valueIndex := -1
    section_ := ((List.range sectionSize).map sectionMem).set 0 0
    sectionChanged := false
    sectionSize := sectionSize
    ignoreCase := ignoreCase
    ignoreError := ignoreError
    outOfBounds := decide (sectionSize = 0) }

/-- The store `buffer[i] = x`. -/
def store (st : FileConfig) (buffer : Buffer) (i x : Nat) : FileConfig :=
  match buffer with
  | .null => { st with outOfBounds := true }
  | .section_ =>
      { st with section_ := st.section_.set i x,
                outOfBounds := st.outOfBounds || decide (st.section_.length ≤ i) }
  | .line =>
      { st with line := st.line.set i x,
                outOfBounds := st.outOfBounds || decide (st.line.length ≤ i) }

/-- The store with post-increment `buffer[_lineLength++] = x`. -/
def push (st : FileConfig) (buffer : Buffer) (x : Nat) : FileConfig :=
  { store st buffer st.lineLength x with lineLength := (st.lineLength + 1) % 256 }

/-- What one pass through the body of the inner loop does after a character that is
no line terminator was read: go round again, or leave `readNextSetting`. -/
inductive CharResult where
  | next (st : FileConfig) (loc : Locals)
  | ret (b : Bool) (st : FileConfig)
  deriving DecidableEq, Repr

/-- Lines 152-261: the body of the inner loop for a character `c` other than CR and LF. -/
def charStep (c : Nat) (st : FileConfig) (loc : Locals) : CharResult :=
  if loc.readStep = .KeyName ∨ loc.readStep = .SectionName ∨ loc.readStep = .Equal
      ∨ loc.readStep = .Value then
    if (st.lineLength : Int) ≥ (loc.bufferSize : Int) - 1 then
      .ret false { store st loc.buffer st.lineLength 0 with atEnd := true }
    else if loc.readStep = .KeyName then
      if c = SP ∨ c = TAB then
        .next (push st loc.buffer 0) { loc with readStep := .Equal }
      else if c = EQ then
        let st1 := push st loc.buffer 0
        .next { st1 with valueIndex := toInt8 st1.lineLength } { loc with readStep := .Value }
      else
        .next (push st loc.buffer c) loc
    else if loc.readStep = .SectionName ∧ c = RBRACK then
      .next (push st loc.buffer 0) { loc with readStep := .SectionEnd }
    else if loc.readStep = .Equal then
      if c = EQ then
        .next { st with valueIndex := toInt8 st.lineLength } { loc with readStep := .Value }
      else if c ≠ SP ∧ c ≠ TAB then
        .next st { loc with readStep := .BadFormat }
      else
        .next st loc
    else
      .next (push st loc.buffer c) loc
  else if loc.readStep = .SectionEnd then
    if loc.readStep.toNat ≠ SP ∧ loc.readStep.toNat ≠ TAB then
      .next st { loc with readStep := .BadFormat }
    else
      .next st loc
  else if loc.readStep = .FirstANChar then
    if c = HASH then
      .next st { loc with readStep := .Comment }
    else if c = SP ∨ c = TAB then
      .next st loc
    else if c = LBRACK then
      .next st { loc with isSection := true }
    else if loc.isSection then
      .next (push st .section_ c)
        { loc with readStep := .SectionName, buffer := .section_, bufferSize := st.sectionSize }
    else
      .next (push st .line c)
        { loc with readStep := .KeyName, buffer := .line, bufferSize := st.lineSize }
  else
    .next st loc

/-- What the `switch` after the inner loop does: `return false`, or fall out of the
`switch` with the value of `settingFound`. -/
inductive LineResult where
  | ret (b : Bool) (st : FileConfig)
  | done (settingFound : Bool) (st : FileConfig)
  deriving DecidableEq, Repr

/-- Lines 264-290: the `switch (readStep)` that follows the inner loop. -/
def lineSwitch (st : FileConfig) (loc : Locals) : LineResult :=
  match loc.readStep with
  | .Value => .done true (store st loc.buffer st.lineLength 0)
  | .Equal | .BadFormat | .SectionName | .KeyName =>
      if !st.ignoreError then .ret false { st with atEnd := true } else .done false st
  | .SectionEnd =>
      .done false { store st loc.buffer st.lineLength 0 with sectionChanged := true }
  | .FirstANChar | .Comment => .done false st

/-- Lines 117-120: the member variables reset at the top of each outer iteration. -/
def resetLine (st : FileConfig) : FileConfig :=
  { st with valueIndex := -1, lineLength := 0, sectionChanged := false }

/-- Lines 121-124: the initial values of the locals of an outer iteration. -/
def initLocals : Locals :=
  { buffer := .null, bufferSize := 0, isSection := false, readStep := .FirstANChar }

/-- Lines 115-293: the two nested loops, entered in the inner loop with the unread
bytes as first argument. Each recursive call has read one byte. The position in the
stream is the first argument; it is stored into `file` where the call returns. At the
end of a line the `switch` runs and, when the outer loop goes round again, the next
line starts from `resetLine` and `initLocals`. -/
def lineLoop : List Nat → FileConfig → Locals → Bool × FileConfig
  | [], st, loc =>
      match lineSwitch { st with atEnd := true } loc with
      | .ret b st1 => (b, { st1 with file := [] })
      | .done settingFound st1 => (settingFound, { st1 with file := [] })
  | c :: rest, st, loc =>
      if c = CR then
        match lineSwitch st loc with
        | .ret b st1 => (b, { st1 with file := rest })
        | .done settingFound st1 =>
            if st1.atEnd || settingFound then (settingFound, { st1 with file := rest })
            else lineLoop rest (resetLine st1) initLocals
      else if c = LF then
        match lineSwitch { st with lineCounter := (st.lineCounter + 1) % 65536 } loc with
        | .ret b st1 => (b, { st1 with file := rest })
        | .done settingFound st1 =>
            if st1.atEnd || settingFound then (settingFound, { st1 with file := rest })
            else lineLoop rest (resetLine st1) initLocals
      else
        match charStep c st loc with
        | .ret b st1 => (b, { st1 with file := rest })
        | .next st1 loc1 => lineLoop rest st1 loc1

/-- The head of the outer loop (line 115) with `settingFound = false`, `_atEnd = false` and
the unread bytes `f`: where a call starts, and where `lineLoop` is again after each line
that produced no setting (its recursive calls at the end of a line are `loopHead rest st1`). -/
def loopHead (f : List Nat) (st : FileConfig) : Bool × FileConfig :=
  lineLoop f (resetLine st) initLocals

/-- The outer loop as a call enters it: at its head, with the bytes `_file` still holds. -/
def whileLoop (st : FileConfig) : Bool × FileConfig :=
  loopHead st.file st

/-- Lines 105-294, `readNextSetting`: the returned boolean and the state left behind. -/
def readNextSetting (st : FileConfig) : Bool × FileConfig :=
  if st.atEnd then (false, st) else whileLoop st

/-- Lines 300-303, `getSection`: the string `_section` points to. -/
def getSection (st : FileConfig) : List Nat :=
  cstr st.section_ 0

/-- Lines 328-335, `getName`: `none` is `NULL`, otherwise the string at `_line`. -/
def getName (st : FileConfig) : Option (List Nat) :=
  if (st.lineLength : Int) ≤ 0 ∨ st.valueIndex ≤ 1 then none
  else some (cstr st.line 0)

/-- The characters for which `isspace` is true in the C locale. -/
def isspace (c : Nat) : Bool :=
  c == 32 || (9 ≤ c && c ≤ 13)

/-- The loop `while (isspace(*s)) s++;` on the bytes from `s` on: how far `s` moves. -/
def skipSpaces : List Nat → Nat
  | [] => 0
  | c :: rest => if isspace c then skipSpaces rest + 1 else 0

/-- The loop `while (isspace(*--e));` started with `e = n`: the final `e`, or `none`
when the scan runs off the front of the block. -/
def scanBack (buf : List Nat) : Nat → Option Nat
  | 0 => none
  | n + 1 => if isspace (buf.getD n 0) then scanBack buf n else some n

/-- Lines 346-379, `getValue(bool trim)`: the returned string (`none` is `NULL`) and the
state left behind, since trimming writes a null byte into `_line`. -/
def getValue (st : FileConfig) (trim : Bool) : Option (List Nat) × FileConfig :=
  if (st.lineLength : Int) ≤ 0 ∨ st.valueIndex ≤ 1 then (none, st)
  else
    let s := st.valueIndex.toNat
    if st.line.getD s 0 = 0 then (some (cstr st.line s), st)
    else if !trim then (some (cstr st.line s), st)
    else
      let s1 := s + skipSpaces (st.line.drop s)
      let e := s1 + (cstr st.line s1).length
      match scanBack st.line e with
      | none => (none, { st with outOfBounds := true })
      | some e1 =>
          let st1 := store st .line (e1 + 1) 0
          (some (cstr st1.line s1), st1)

/-- The state after `n` successive calls of `readNextSetting`. -/
def afterCalls : Nat → FileConfig → FileConfig
  | 0, st => st
  | n + 1, st => afterCalls n (readNextSetting st).2

/-- What the caller sees after a call: the section, the name and the raw value. -/
def record (st : FileConfig) : List Nat × Option (List Nat) × Option (List Nat) :=
  (getSection st, getName st, (getValue st false).1)

/-- What the first `n` calls of `readNextSetting` show to their caller: the returned
boolean of each call, with the decoded record when it is true. -/
def trace : Nat → FileConfig → List (Bool × Option (List Nat × Option (List Nat) × Option (List Nat)))
  | 0, _ => []
  | n + 1, st =>
      let r := readNextSetting st
      (r.1, if r.1 then some (record r.2) else none) :: trace n r.2

/-- The stores `buffer[_lineLength++] = c` for the bytes `c` of `xs` in turn. -/
def pushAll (st : FileConfig) (buffer : Buffer) : List Nat → FileConfig
  | [] => st
  | c :: xs => pushAll (push st buffer c) buffer xs

/-- A byte that the inner loop appends to the buffer when it is in state `rs`. -/
def appendsIn (rs : ReadStep) (c : Nat) : Prop :=
  c ≠ CR ∧ c ≠ LF ∧
    ((rs = .KeyName ∧ c ≠ SP ∧ c ≠ TAB ∧ c ≠ EQ) ∨ (rs = .SectionName ∧ c ≠ RBRACK) ∨ rs = .Value)

/-- A string without a null byte, that is, the content of a C string. -/
def CString (s : List Nat) : Prop := ∀ c ∈ s, c ≠ 0

/-- A well formed section name: non-empty, no `]`, CR or LF, and its first character is
not a space, a tab, `#` or `[`. -/
def WellFormedSection : List Nat → Prop
  | [] => False
  | c :: s => (c ≠ SP ∧ c ≠ TAB ∧ c ≠ HASH ∧ c ≠ LBRACK) ∧
      ∀ x ∈ c :: s, x ≠ RBRACK ∧ x ≠ CR ∧ x ≠ LF

/-- A well formed key: non-empty, no space, tab, `=`, CR or LF, and its first character
is not `#` or `[`. -/
def WellFormedKey : List Nat → Prop
  | [] => False
  | c :: k => (c ≠ HASH ∧ c ≠ LBRACK) ∧
      ∀ x ∈ c :: k, x ≠ SP ∧ x ≠ TAB ∧ x ≠ EQ ∧ x ≠ CR ∧ x ≠ LF

/-- A well formed value: no CR or LF. -/
def WellFormedValue (v : List Nat) : Prop := ∀ c ∈ v, c ≠ CR ∧ c ≠ LF

/-- A run of spaces and tabs. -/
def Blanks (w : List Nat) : Prop := ∀ c ∈ w, c = SP ∨ c = TAB

/-- The locals while a key is read into `_line` of size `n`. -/
def keyLocals (n : Nat) : Locals :=
  { buffer := .line, bufferSize := n, isSection := false, readStep := .KeyName }

/-- The locals while the `=` after a key is awaited. -/
def equalLocals (n : Nat) : Locals :=
  { buffer := .line, bufferSize := n, isSection := false, readStep := .Equal }

/-- The locals while a value is read into `_line` of size `n`. -/
def valueLocals (n : Nat) : Locals :=
  { buffer := .line, bufferSize := n, isSection := false, readStep := .Value }

/-- The locals while a section name is read into `_section` of size `n`. -/
def sectionLocals (n : Nat) : Locals :=
  { buffer := .section_, bufferSize := n, isSection := true, readStep := .SectionName }

/-- The locals after the `]` of a section header. -/
def sectionEndLocals (n : Nat) : Locals :=
  { buffer := .section_, bufferSize := n, isSection := true, readStep := .SectionEnd }

/-- The state in which the inner loop is after it has read `k`, blanks, `=` and `v` on a
fresh line: `k`, a null byte and `v` are in `_line`, and `_valueIndex` is set. -/
def valueState (st : FileConfig) (k v : List Nat) : FileConfig :=
  pushAll { pushAll (resetLine st) .line (k ++ [0]) with valueIndex := toInt8 (k.length + 1) }
    .line v

/-- The state in which the inner loop is after it has read `[`, `s` and `]` on a fresh
line: `s` and a null byte are in `_section`. -/
def headerState (st : FileConfig) (s : List Nat) : FileConfig :=
  pushAll (resetLine st) .section_ (s ++ [0])

/-- What a call that has just decoded the setting `k`, `v` from a line leaves behind,
compared with the state `st` in which the line was started: `k`, a null byte, `v` and a
null byte at the start of `_line`, and everything but `_line`, `_lineLength`,
`_valueIndex`, `_sectionChanged`, `_lineCounter`, `_atEnd` and the stream as it was. -/
structure SettingRead (st st1 : FileConfig) (k v : List Nat) : Prop where
  lineLength : st1.lineLength = k.length + 1 + v.length
  valueIndex : st1.valueIndex = toInt8 (k.length + 1)
  lineTake : st1.line.take (k.length + 1 + v.length + 1) = k ++ 0 :: v ++ [0]
  lineLen : st1.line.length = st.line.length
  section_eq : st1.section_ = st.section_
  sectionChanged : st1.sectionChanged = false
  lineSize : st1.lineSize = st.lineSize
  sectionSize : st1.sectionSize = st.sectionSize
  ignoreCase : st1.ignoreCase = st.ignoreCase
  ignoreError : st1.ignoreError = st.ignoreError
  outOfBounds : st1.outOfBounds = st.outOfBounds

/-- The state the `switch` leaves after the header line `[s]` ended by a line feed. -/
def headerDone (st : FileConfig) (s : List Nat) : FileConfig :=
  { store { headerState st s with lineCounter := ((headerState st s).lineCounter + 1) % 65536 }
      .section_ (headerState st s).lineLength 0 with sectionChanged := true }

/-- What the header line `[s]` leaves behind, compared with the state `st` in which the
line was started: `s` and two null bytes at the start of `_section`. -/
structure HeaderRead (st st1 : FileConfig) (s : List Nat) : Prop where
  sectionTake : st1.section_.take (s.length + 2) = s ++ [0, 0]
  sectionLen : st1.section_.length = st.section_.length
  line_eq : st1.line = st.line
  atEnd : st1.atEnd = st.atEnd
  lineSize : st1.lineSize = st.lineSize
  sectionSize : st1.sectionSize = st.sectionSize
  ignoreCase : st1.ignoreCase = st.ignoreCase
  ignoreError : st1.ignoreError = st.ignoreError
  outOfBounds : st1.outOfBounds = st.outOfBounds
  lineCounter : st1.lineCounter = (st.lineCounter + 1) % 65536

/-- No line of the text starts a section header: in no line is `[` the first character
after the leading spaces and tabs. `seeking` tells whether the text starts among the
leading blanks of a line (true) or further inside a line (false). -/
def noHeader : Bool → List Nat → Bool
  | _, [] => true
  | seeking, c :: r =>
      if c = CR ∨ c = LF then noHeader true r
      else if seeking then
        if c = SP ∨ c = TAB then noHeader true r
        else decide (c ≠ LBRACK) && noHeader false r
      else noHeader false r

/-- The text of a setting line: key, blanks, `=`, value, line feed. -/
def settingLine (l : List Nat × List Nat × List Nat) : List Nat :=
  l.1 ++ l.2.1 ++ [EQ] ++ l.2.2 ++ [LF]

/-- The text of consecutive setting lines. -/
def settingLines : List (List Nat × List Nat × List Nat) → List Nat
  | [] => []
  | l :: ls => settingLine l ++ settingLines ls

/-- A setting line that is well formed and fits a line buffer configured with
`maxLineLength`: the key, the null byte after it and the value take at most
`maxLineLength` bytes, and when blanks stand before `=` one more byte is free after the
key's null byte. -/
def FitsLine (maxLineLength : Nat) (l : List Nat × List Nat × List Nat) : Prop :=
  WellFormedKey l.1 ∧ Blanks l.2.1 ∧ WellFormedValue l.2.2 ∧
    l.1.length + 1 + l.2.2.length ≤ maxLineLength ∧
    (l.2.1 ≠ [] → l.1.length + 2 ≤ maxLineLength)

/-- Two states that no caller can tell apart: they agree on everything except the stream,
the line counter, the ghost flag and the bytes of `_line`. -/
structure Sim (a b : FileConfig) : Prop where
  atEnd : a.atEnd = b.atEnd
  lineLen : a.line.length = b.line.length
  lineSize : a.lineSize = b.lineSize
  lineLength : a.lineLength = b.lineLength
  valueIndex : a.valueIndex = b.valueIndex
  section_eq : a.section_ = b.section_
  sectionChanged : a.sectionChanged = b.sectionChanged
  sectionSize : a.sectionSize = b.sectionSize
  ignoreCase : a.ignoreCase = b.ignoreCase
  ignoreError : a.ignoreError = b.ignoreError
  lineSizeLe : a.lineSize ≤ 256
  sectionSizeLe : a.sectionSize ≤ 256

/-- Two states inside the inner loop, with the same locals, that will decode the same:
they are `Sim`, the bytes of the current line stored so far are the same, and the locals
are consistent with the state of the machine. -/
structure SimAt (a b : FileConfig) (loc : Locals) : Prop where
  sim : Sim a b
  notEnd : a.atEnd = false
  keyOK : loc.readStep = .KeyName ∨ loc.readStep = .Equal ∨ loc.readStep = .Value →
    loc.buffer = .line
  take : loc.readStep = .KeyName ∨ loc.readStep = .Equal ∨ loc.readStep = .Value →
    a.line.take a.lineLength = b.line.take a.lineLength
  first : loc.readStep = .FirstANChar → a.lineLength = 0
  valOK : loc.readStep = .Value → a.valueIndex ≤ (a.lineLength : Int)
  bsz : loc.bufferSize ≤ 256

/-- Two results of a call that show the same to the caller: the same boolean, states
that are `Sim`, and the same record when the boolean is true. -/
structure SameResult (r1 r2 : Bool × FileConfig) : Prop where
  ret : r1.1 = r2.1
  sim : Sim r1.2 r2.2
  record_eq : r1.1 = true → record r1.2 = record r2.2

/-- A text that is empty or ends with CR or LF: a stream can be split after it at a line
boundary. -/
def endsLine : List Nat → Bool
  | [] => true
  | [c] => decide (c = CR ∨ c = LF)
  | _ :: c :: r => endsLine (c :: r)

/-- A line that is blank (only spaces and tabs, possibly none) or a comment (its first
character after leading spaces and tabs is `#`), and holds no CR or LF. -/
def isCommentOrBlank : List Nat → Bool
  | [] => true
  | c :: r =>
      if c = SP ∨ c = TAB then isCommentOrBlank r
      else decide (c = HASH) && r.all (fun x => decide (x ≠ CR ∧ x ≠ LF))

/-- The unread bytes of two runs, one on a stream with the line `c` inserted before `t`
and one on the stream without it: either both runs are past the insertion point, or both
still have the same text `q`, which ends at a line boundary, before it. -/
def FileRel (c t f1 f2 : List Nat) : Prop :=
  f1 = f2 ∨ ∃ q, endsLine q = true ∧ f1 = q ++ (c ++ LF :: t) ∧ f2 = q ++ t

/-- The result of `charStep` on two states that are `SimAt`. -/
def StepSim (r1 r2 : CharResult) : Prop :=
  (∃ a1 b1, r1 = .ret false a1 ∧ r2 = .ret false b1 ∧ Sim a1 b1 ∧ a1.atEnd = true) ∨
  (∃ a1 b1 loc1, r1 = .next a1 loc1 ∧ r2 = .next b1 loc1 ∧ SimAt a1 b1 loc1)

/-- The result of `lineSwitch` on two states that decode the same. -/
def SwitchSim (atEnd : Bool) (r1 r2 : LineResult) : Prop :=
  (∃ a1 b1, r1 = .ret false a1 ∧ r2 = .ret false b1 ∧ Sim a1 b1 ∧ a1.atEnd = true) ∨
  (∃ sf a1 b1, r1 = .done sf a1 ∧ r2 = .done sf b1 ∧ Sim a1 b1 ∧ a1.atEnd = atEnd ∧
    (sf = true → record a1 = record b1))

/-- The loop of `atoi` over decimal digits: the value read so far is `acc`. -/
def atoiDigits : List Nat → Int → Int
  | [], acc => acc
  | c :: r, acc => if 48 ≤ c ∧ c ≤ 57 then atoiDigits r (acc * 10 + ((c - 48 : Nat) : Int)) else acc

/-- The C library's `atoi` on the bytes of a string whose number fits an `int`: leading
white space, an optional sign, then decimal digits. -/
def atoi (s : List Nat) : Int :=
  match s.dropWhile isspace with
  | [] => 0
  | c :: r =>
      if c = 45 then - atoiDigits r 0
      else if c = 43 then atoiDigits r 0
      else atoiDigits (c :: r) 0

/-- The tokens successive calls of `strtok(s, d)` return, `cur` being the bytes of the
token under way: the maximal runs of bytes other than the delimiter `d`. -/
def tokensFrom (d : Nat) : List Nat → List Nat → List (List Nat)
  | [], cur => if cur = [] then [] else [cur]
  | c :: r, cur =>
      if c = d then (if cur = [] then tokensFrom d r [] else cur :: tokensFrom d r [])
      else tokensFrom d r (cur ++ [c])

/-- The tokens `strtok` finds in the string `s` for the delimiter `d`. -/
def tokens (d : Nat) (s : List Nat) : List (List Nat) :=
  tokensFrom d s []

/-- Lines 463-473, the token loop of `getIPAddress`, `i` tokens having been stored in
`ip`. `toInt` is the conversion `atoi` of the C library. -/
def ipLoop (toInt : List Nat → Int) : List (List Nat) → Nat → List Nat → List Nat
  | [], _, ip => ip
  | tok :: rest, i, ip =>
      if toInt tok < 0 ∨ toInt tok > 255 ∨ i > 3 then [0, 0, 0, 0]
      else ipLoop toInt rest (i + 1) (ip.set i ((toInt tok).toNat % 256))

/-- Lines 452-475, `getIPAddress`: the four octets of the returned address and the state
left behind (`getValue(true)` trims in place). `none` stands for the undefined
`strlen(NULL)` when there is no value. `toInt` is the conversion `atoi` of the C library. -/
def getIPAddress (toInt : List Nat → Int) (st : FileConfig) : Option (List Nat) × FileConfig :=
  match getValue st true with
  | (none, st1) => (none, st1)
  | (some str, st1) => (some (ipLoop toInt (tokens 46 str) 0 [0, 0, 0, 0]), st1)

/-- The two blocks have the sizes recorded for them, and the sizes fit a `uint8_t`. -/
structure Wf (st : FileConfig) : Prop where
  lineLen : st.line.length = st.lineSize
  sectionLen : st.section_.length = st.sectionSize
  lineSizeLe : st.lineSize ≤ 255
  sectionSizeLe : st.sectionSize ≤ 255

/-- What holds each time the inner loop is about to read a byte: which buffer the locals
select, how `_lineLength` compares with its capacity, where the null byte after the key
is, and that no store has left its block when both blocks have at least two bytes. -/
structure Inv (st : FileConfig) (loc : Locals) : Prop where
  wf : Wf st
  first : loc.readStep = .FirstANChar ∨ loc.readStep = .Comment → st.lineLength = 0
  key : loc.readStep = .KeyName →
    loc.buffer = .line ∧ loc.bufferSize = st.lineSize ∧ 1 ≤ st.lineLength ∧
      (st.lineLength + 1 ≤ st.lineSize ∨ st.lineLength = 1)
  equal : loc.readStep = .Equal →
    loc.buffer = .line ∧ loc.bufferSize = st.lineSize ∧ 2 ≤ st.lineLength ∧
      st.lineLength + 1 ≤ st.lineSize ∧ st.line[st.lineLength - 1]? = some 0
  value : loc.readStep = .Value →
    loc.buffer = .line ∧ loc.bufferSize = st.lineSize ∧ st.lineLength + 1 ≤ st.lineSize ∧
      ∃ vi, 2 ≤ vi ∧ vi ≤ st.lineLength ∧ st.valueIndex = toInt8 vi ∧ st.line[vi - 1]? = some 0
  sect : loc.readStep = .SectionName →
    loc.buffer = .section_ ∧ loc.bufferSize = st.sectionSize ∧ 1 ≤ st.lineLength ∧
      (st.lineLength + 1 ≤ st.sectionSize ∨ st.lineLength = 1)
  sectEnd : loc.readStep = .SectionEnd →
    loc.buffer = .section_ ∧ loc.bufferSize = st.sectionSize ∧
      st.lineLength + 1 ≤ st.sectionSize
  bad : loc.readStep = .BadFormat →
    (loc.buffer = .line ∧ st.lineLength + 1 ≤ st.lineSize) ∨
      (loc.buffer = .section_ ∧ st.lineLength + 1 ≤ st.sectionSize)
  oob : 2 ≤ st.lineSize → 2 ≤ st.sectionSize → st.outOfBounds = false

/-- What holds when a call returns `b`: the blocks are as `Wf` says, no store has left its
block when both have at least two bytes, and when `b` is true the decoded line ends with a
null byte inside `_line` and `_valueIndex` is the `int8_t` of an index `vi` that follows
the null byte after the key. -/
structure Post (b : Bool) (st : FileConfig) : Prop where
  wf : Wf st
  oob : 2 ≤ st.lineSize → 2 ≤ st.sectionSize → st.outOfBounds = false
  len : 2 ≤ st.lineSize → 2 ≤ st.sectionSize →
    st.lineLength < st.lineSize ∨ st.lineLength < st.sectionSize
  decoded : b = true →
    st.lineLength + 1 ≤ st.lineSize ∧ st.line[st.lineLength]? = some 0 ∧
      ∃ vi, 2 ≤ vi ∧ vi ≤ st.lineLength ∧ st.valueIndex = toInt8 vi ∧ st.line[vi - 1]? = some 0

/-- What one pass through the body of the inner loop keeps: the invariant when the loop
goes round again, the return condition when the call returns. -/
def StepOK : CharResult → Prop
  | .next st1 loc1 => Inv st1 loc1
  | .ret b st1 => Post b st1

/-- What the `switch` keeps, in the same way. -/
def SwitchOK : LineResult → Prop
  | .ret b st1 => Post b st1
  | .done sf st1 => Post sf st1

/-- The states in which the inner loop is about to read a byte, in the order the two loops
of `readNextSetting` pass through them: the same recursion as `lineLoop`, collecting the
member variables and the locals at each `_file.read()`. -/
def visited : List Nat → FileConfig → Locals → List (FileConfig × Locals)
  | [], st, loc => [(st, loc)]
  | c :: rest, st, loc =>
      (st, loc) ::
        (if c = CR then
          match lineSwitch st loc with
          | .ret _ _ => []
          | .done settingFound st1 =>
              if st1.atEnd || settingFound then [] else visited rest (resetLine st1) initLocals
        else if c = LF then
          match lineSwitch { st with lineCounter := (st.lineCounter + 1) % 65536 } loc with
          | .ret _ _ => []
          | .done settingFound st1 =>
              if st1.atEnd || settingFound then [] else visited rest (resetLine st1) initLocals
        else
          match charStep c st loc with
          | .ret _ _ => []
          | .next st1 loc1 => visited rest st1 loc1)

/-- The states one call of `readNextSetting` passes through at its reads. -/
def visitedCall (st : FileConfig) : List (FileConfig × Locals) :=
  if st.atEnd then [] else visited st.file (resetLine st) initLocals

/-- The line length is below the capacity of the block `buffer` points to, and zero while
`buffer` is still `NULL`. -/
def lengthInBound (st : FileConfig) (loc : Locals) : Bool :=
  match loc.buffer with
  | .null => st.lineLength == 0
  | .section_ => decide (st.lineLength < st.sectionSize)
  | .line => decide (st.lineLength < st.lineSize)

/-- The line buffer holds a decoded setting: `_valueIndex` is `vi`, the byte before it is
the null byte that ends the key, and the first null byte at or after `vi` is at `z`. -/
structure ValueAt (st : FileConfig) (vi z : Nat) : Prop where
  len : 0 < st.lineLength
  vi2 : 2 ≤ vi
  idx : st.valueIndex = (vi : Int)
  keyEnd : st.line.getD (vi - 1) 0 = 0
  le : vi ≤ z
  lt : z < st.line.length
  zero : st.line.getD z 0 = 0
  nonzero : ∀ i, vi ≤ i → i < z → st.line.getD i 0 ≠ 0

/-- The text `t` with every LF replaced by CR LF. -/
def crlf : List Nat → List Nat
  | [] => []
  | c :: r => if c = LF then CR :: LF :: crlf r else c :: crlf r

/-- How a run on `crlf t` stands to the run on `t` between two calls: either it has read
the same lines and counted as many, or it stopped between the CR and the LF of a line end,
so that the LF is still unread and its counter is one behind. -/
def CrlfRel (a b : FileConfig) : Prop :=
  (a.file = crlf b.file ∧ a.lineCounter = b.lineCounter) ∨
  (a.file = LF :: crlf b.file ∧ b.lineCounter = (a.lineCounter + 1) % 65536)

end FileConfig

namespace FileConfig

/-! ## Elementary facts about the loop body and the end-of-line switch -/

theorem lineSwitch_ret {st : FileConfig} {loc : Locals} {b : Bool} {st1 : FileConfig}
    (h : lineSwitch st loc = .ret b st1) :
    b = false ∧ st1 = { st with atEnd := true } ∧ st.ignoreError = false := by
  unfold lineSwitch at h
  cases hr : loc.readStep <;> cases hi : st.ignoreError <;> simp [hr, hi] at h <;>
    simp [← h.1, ← h.2]

theorem lineSwitch_done_atEnd {st : FileConfig} {loc : Locals} {sf : Bool} {st1 : FileConfig}
    (h : lineSwitch st loc = .done sf st1) : st1.atEnd = st.atEnd := by
  unfold lineSwitch at h
  cases hr : loc.readStep <;> cases hi : st.ignoreError <;> cases hb : loc.buffer <;>
    simp [hr, hi, hb, store] at h <;> simp [← h.2]

theorem charStep_ret {c : Nat} {st : FileConfig} {loc : Locals} {b : Bool} {st1 : FileConfig}
    (h : charStep c st loc = .ret b st1) :
    b = false ∧ st1 = { store st loc.buffer st.lineLength 0 with atEnd := true } := by
  unfold charStep at h
  split_ifs at h <;> simp_all

theorem lineLoop_false_atEnd (f : List Nat) :
    ∀ (st : FileConfig) (loc : Locals),
      (lineLoop f st loc).1 = false → (lineLoop f st loc).2.atEnd = true := by
  induction f with
  | nil =>
    intro st loc h
    unfold lineLoop at h ⊢
    cases hs : lineSwitch { st with atEnd := true } loc with
    | ret b st1 =>
      have := lineSwitch_ret hs
      simp [this.2.1]
    | done sf st1 =>
      have := lineSwitch_done_atEnd hs
      simp [this]
  | cons c rest ih =>
    intro st loc h
    unfold lineLoop at h ⊢
    split_ifs at h ⊢ with h1 h2
    · cases hs : lineSwitch st loc with
      | ret b st1 =>
        have := lineSwitch_ret hs
        simp [this.2.1]
      | done sf st1 =>
        simp only [hs] at h ⊢
        split_ifs at h ⊢ with h3
        · simp at h; subst h; simpa using h3
        · exact ih _ _ h
    · cases hs : lineSwitch { st with lineCounter := (st.lineCounter + 1) % 65536 } loc with
      | ret b st1 =>
        have := lineSwitch_ret hs
        simp [this.2.1]
      | done sf st1 =>
        simp only [hs] at h ⊢
        split_ifs at h ⊢ with h3
        · simp at h; subst h; simpa using h3
        · exact ih _ _ h
    · cases hs : charStep c st loc with
      | ret b st1 =>
        have := charStep_ret hs
        simp [this.2]
      | next st1 loc1 =>
        simp only [hs] at h ⊢
        exact ih _ _ h

theorem readNextSetting_false_atEnd (st : FileConfig) (h : (readNextSetting st).1 = false) :
    (readNextSetting st).2.atEnd = true := by
  unfold readNextSetting at h ⊢
  split_ifs at h ⊢ with h1
  · exact h1
  · exact lineLoop_false_atEnd _ _ _ h

theorem readNextSetting_of_atEnd (st : FileConfig) (h : st.atEnd = true) :
    readNextSetting st = (false, st) := by
  simp [readNextSetting, h]

theorem afterCalls_of_atEnd (n : Nat) (st : FileConfig) (h : st.atEnd = true) :
    afterCalls n st = st := by
  induction n with
  | zero => rfl
  | succ n ih => simp [afterCalls, readNextSetting_of_atEnd st h, ih]

theorem readNextSetting_eq_loopHead (st : FileConfig) (h : st.atEnd = false) :
    readNextSetting st = loopHead st.file st := by
  simp [readNextSetting, h, whileLoop]

theorem readNextSetting_false_of_loopHead (st : FileConfig)
    (h : (loopHead st.file st).1 = false) : (readNextSetting st).1 = false := by
  unfold readNextSetting
  split_ifs
  · rfl
  · exact h

/-- C5 (latching): once a call of `readNextSetting` has returned false, after any number
`n` of further calls the state is still the one that call left (so no byte was read and
both buffers, the line length, the value offset, the section-changed flag and the line
counter are as they were), and the next call returns false and leaves it as it is. -/
theorem readNextSetting_latches (st : FileConfig) (n : Nat)
    (h : (readNextSetting st).1 = false) :
    afterCalls n (readNextSetting st).2 = (readNextSetting st).2 ∧
    readNextSetting (afterCalls n (readNextSetting st).2) = (false, (readNextSetting st).2) := by
  have hEnd := readNextSetting_false_atEnd st h
  rw [afterCalls_of_atEnd n _ hEnd]
  exact ⟨rfl, readNextSetting_of_atEnd _ hEnd⟩

theorem readNextSetting_latches_witness :
    (readNextSetting (begin [107, 10] 20 10 false false (fun _ => 0) (fun _ => 0))).1 = false ∧
    afterCalls 3 (readNextSetting (begin [107, 10] 20 10 false false (fun _ => 0) (fun _ => 0))).2
      = (readNextSetting (begin [107, 10] 20 10 false false (fun _ => 0) (fun _ => 0))).2 ∧
    readNextSetting
        (afterCalls 3 (readNextSetting (begin [107, 10] 20 10 false false (fun _ => 0) (fun _ => 0))).2)
      = (false, (readNextSetting (begin [107, 10] 20 10 false false (fun _ => 0) (fun _ => 0))).2) :=
  ⟨by decide, readNextSetting_latches _ 3 (by decide)⟩

/-- C8: on `[sec]\nkey=val\nk2=v2\n` (line buffer 20, section buffer 10) the first call
returns true with section `sec`, name `key` and value `val`, and leaves `_sectionChanged`
false although this call read the header; the second call leaves it false as well. -/
theorem sectionChanged_false_after_header :
    (readNextSetting (begin [91, 115, 101, 99, 93, 10, 107, 101, 121, 61, 118, 97, 108, 10,
        107, 50, 61, 118, 50, 10] 20 10 false false (fun _ => 0) (fun _ => 0))).1 = true ∧
    record (readNextSetting (begin [91, 115, 101, 99, 93, 10, 107, 101, 121, 61, 118, 97, 108, 10,
        107, 50, 61, 118, 50, 10] 20 10 false false (fun _ => 0) (fun _ => 0))).2
      = ([115, 101, 99], some [107, 101, 121], some [118, 97, 108]) ∧
    (readNextSetting (begin [91, 115, 101, 99, 93, 10, 107, 101, 121, 61, 118, 97, 108, 10,
        107, 50, 61, 118, 50, 10] 20 10 false false (fun _ => 0) (fun _ => 0))).2.sectionChanged
      = false ∧
    (afterCalls 2 (begin [91, 115, 101, 99, 93, 10, 107, 101, 121, 61, 118, 97, 108, 10,
        107, 50, 61, 118, 50, 10] 20 10 false false (fun _ => 0) (fun _ => 0))).sectionChanged
      = false := by
  decide

/-- C9: on `[sec] \nkey=val\n` with tolerance disabled the first call returns false: the
space after `]` makes the header line malformed, and `key=val` is never returned. -/
theorem blank_after_header_is_malformed :
    (readNextSetting (begin [91, 115, 101, 99, 93, 32, 10, 107, 101, 121, 61, 118, 97, 108, 10]
        20 10 false false (fun _ => 0) (fun _ => 0))).1 = false ∧
    (readNextSetting (afterCalls 1 (begin [91, 115, 101, 99, 93, 32, 10, 107, 101, 121, 61, 118,
        97, 108, 10] 20 10 false false (fun _ => 0) (fun _ => 0)))).1 = false := by
  decide

/-! ## Runs of appended bytes -/

theorem charStep_append {c : Nat} {st : FileConfig} {loc : Locals}
    (hc : appendsIn loc.readStep c) (hroom : st.lineLength + 1 < loc.bufferSize) :
    charStep c st loc = .next (push st loc.buffer c) loc := by
  obtain ⟨_, _, h | h | h⟩ := hc
  · obtain ⟨hr, h1, h2, h3⟩ := h
    have : ¬ ((st.lineLength : Int) ≥ (loc.bufferSize : Int) - 1) := by omega
    simp [charStep, hr, this, h1, h2, h3]
  · obtain ⟨hr, h1⟩ := h
    have : ¬ ((st.lineLength : Int) ≥ (loc.bufferSize : Int) - 1) := by omega
    simp [charStep, hr, this, h1]
  · have : ¬ ((st.lineLength : Int) ≥ (loc.bufferSize : Int) - 1) := by omega
    simp [charStep, h, this]

theorem lineLoop_append (xs : List Nat) :
    ∀ (rest : List Nat) (st : FileConfig) (loc : Locals),
      (∀ c ∈ xs, appendsIn loc.readStep c) →
      st.lineLength + xs.length + 1 ≤ loc.bufferSize → loc.bufferSize ≤ 256 →
      lineLoop (xs ++ rest) st loc = lineLoop rest (pushAll st loc.buffer xs) loc := by
  induction xs with
  | nil => intro rest st loc _ _ _; rfl
  | cons c xs ih =>
    intro rest st loc hall hroom hsz
    have hc : appendsIn loc.readStep c := hall c (List.mem_cons_self _ _)
    simp only [List.length_cons] at hroom
    have h1 : c ≠ CR := hc.1
    have h2 : c ≠ LF := hc.2.1
    rw [List.cons_append, lineLoop]
    simp only [h1, h2, if_false]
    rw [charStep_append hc (by omega)]
    simp only [pushAll]
    apply ih
    · intro x hx; exact hall x (List.mem_cons_of_mem _ hx)
    · have : (push st loc.buffer c).lineLength = st.lineLength + 1 := by
        simp only [push]
        exact Nat.mod_eq_of_lt (by omega)
      omega
    · exact hsz

theorem take_succ_set (l : List Nat) :
    ∀ (i c : Nat), i < l.length → (l.set i c).take (i + 1) = l.take i ++ [c] := by
  induction l with
  | nil => intro i c h; simp at h
  | cons x l ih =>
    intro i c h
    cases i with
    | zero => simp
    | succ i =>
      simp only [List.length_cons, Nat.add_lt_add_iff_right] at h
      simp [List.set, List.take, ih i c h]

theorem pushAll_append (xs : List Nat) :
    ∀ (ys : List Nat) (st : FileConfig) (buf : Buffer),
      pushAll st buf (xs ++ ys) = pushAll (pushAll st buf xs) buf ys := by
  induction xs with
  | nil => intro ys st buf; rfl
  | cons c xs ih => intro ys st buf; exact ih ys (push st buf c) buf

theorem pushAll_frame (xs : List Nat) :
    ∀ (st : FileConfig) (buf : Buffer),
      (pushAll st buf xs).file = st.file ∧ (pushAll st buf xs).atEnd = st.atEnd ∧
      (pushAll st buf xs).lineCounter = st.lineCounter ∧
      (pushAll st buf xs).lineSize = st.lineSize ∧
      (pushAll st buf xs).valueIndex = st.valueIndex ∧
      (pushAll st buf xs).sectionChanged = st.sectionChanged ∧
      (pushAll st buf xs).sectionSize = st.sectionSize ∧
      (pushAll st buf xs).ignoreCase = st.ignoreCase ∧
      (pushAll st buf xs).ignoreError = st.ignoreError ∧
      (pushAll st buf xs).line.length = st.line.length ∧
      (pushAll st buf xs).section_.length = st.section_.length := by
  induction xs with
  | nil => intro st buf; simp [pushAll]
  | cons c xs ih =>
    intro st buf
    have h := ih (push st buf c) buf
    simp only [pushAll]
    cases buf <;> simpa [push, store] using h

theorem pushAll_line (xs : List Nat) :
    ∀ (st : FileConfig), st.lineLength + xs.length ≤ st.line.length →
      st.lineLength + xs.length < 256 →
      (pushAll st .line xs).lineLength = st.lineLength + xs.length ∧
      (pushAll st .line xs).line.take (st.lineLength + xs.length)
        = st.line.take st.lineLength ++ xs ∧
      (pushAll st .line xs).section_ = st.section_ ∧
      (pushAll st .line xs).outOfBounds = st.outOfBounds := by
  induction xs with
  | nil => intro st _ _; simp [pushAll]
  | cons c xs ih =>
    intro st h1 h2
    simp only [List.length_cons] at h1 h2
    have hL : (push st .line c).lineLength = st.lineLength + 1 := by
      simp only [push]; exact Nat.mod_eq_of_lt (by omega)
    have hlen : (push st .line c).line.length = st.line.length := by simp [push, store]
    have hline : (push st .line c).line = st.line.set st.lineLength c := by simp [push, store]
    have hsec : (push st .line c).section_ = st.section_ := by simp [push, store]
    have hoob : (push st .line c).outOfBounds = st.outOfBounds := by
      simp only [push, store]
      have : ¬ (st.line.length ≤ st.lineLength) := by omega
      simp [this]
    obtain ⟨i1, i2, i3, i4⟩ := ih (push st .line c) (by omega) (by omega)
    simp only [pushAll, List.length_cons]
    refine ⟨by omega, ?_, by rw [i3, hsec], by rw [i4, hoob]⟩
    have e : st.lineLength + (xs.length + 1) = (push st .line c).lineLength + xs.length := by
      omega
    rw [e, i2, hL, hline, take_succ_set _ _ _ (by omega)]
    simp

theorem pushAll_section (xs : List Nat) :
    ∀ (st : FileConfig), st.lineLength + xs.length ≤ st.section_.length →
      st.lineLength + xs.length < 256 →
      (pushAll st .section_ xs).lineLength = st.lineLength + xs.length ∧
      (pushAll st .section_ xs).section_.take (st.lineLength + xs.length)
        = st.section_.take st.lineLength ++ xs ∧
      (pushAll st .section_ xs).line = st.line ∧
      (pushAll st .section_ xs).outOfBounds = st.outOfBounds := by
  induction xs with
  | nil => intro st _ _; simp [pushAll]
  | cons c xs ih =>
    intro st h1 h2
    simp only [List.length_cons] at h1 h2
    have hL : (push st .section_ c).lineLength = st.lineLength + 1 := by
      simp only [push]; exact Nat.mod_eq_of_lt (by omega)
    have hlen : (push st .section_ c).section_.length = st.section_.length := by
      simp [push, store]
    have hline : (push st .section_ c).section_ = st.section_.set st.lineLength c := by
      simp [push, store]
    have hsec : (push st .section_ c).line = st.line := by simp [push, store]
    have hoob : (push st .section_ c).outOfBounds = st.outOfBounds := by
      simp only [push, store]
      have : ¬ (st.section_.length ≤ st.lineLength) := by omega
      simp [this]
    obtain ⟨i1, i2, i3, i4⟩ := ih (push st .section_ c) (by omega) (by omega)
    simp only [pushAll, List.length_cons]
    refine ⟨by omega, ?_, by rw [i3, hsec], by rw [i4, hoob]⟩
    have e : st.lineLength + (xs.length + 1) = (push st .section_ c).lineLength + xs.length := by
      omega
    rw [e, i2, hL, hline, take_succ_set _ _ _ (by omega)]
    simp

theorem takeWhile_cstring (a : List Nat) (b : List Nat) (h : CString a) :
    (a ++ 0 :: b).takeWhile (fun c => c != 0) = a := by
  induction a with
  | nil => simp
  | cons x a ih =>
    have hx : x ≠ 0 := h x (List.mem_cons_self _ _)
    have ha : CString a := fun c hc => h c (List.mem_cons_of_mem _ hc)
    rw [List.cons_append, List.takeWhile_cons_of_pos (by simpa using hx), ih ha]

theorem cstr_of_take {l : List Nat} {n : Nat} {p a b : List Nat}
    (h : l.take n = p ++ a ++ 0 :: b) (ha : CString a) : cstr l p.length = a := by
  have hl : l = p ++ (a ++ 0 :: (b ++ l.drop n)) := by
    conv_lhs => rw [← List.take_append_drop n l, h]
    simp
  rw [cstr, hl, List.drop_left]
  exact takeWhile_cstring a _ ha

/-! ## A setting line and a header line, read from the start of a line -/

theorem lineLoop_firstKeyChar (c : Nat) (rest : List Nat) (st : FileConfig)
    (h : c ≠ HASH ∧ c ≠ SP ∧ c ≠ TAB ∧ c ≠ LBRACK ∧ c ≠ CR ∧ c ≠ LF) :
    lineLoop (c :: rest) st initLocals = lineLoop rest (push st .line c) (keyLocals st.lineSize) := by
  obtain ⟨h1, h2, h3, h4, h5, h6⟩ := h
  rw [lineLoop]
  simp [h5, h6, charStep, initLocals, h1, h2, h3, h4, keyLocals]

theorem lineLoop_blanks (w : List Nat) :
    ∀ (rest : List Nat) (st : FileConfig) (n : Nat), Blanks w → st.lineLength + 1 < n →
      lineLoop (w ++ rest) st (equalLocals n) = lineLoop rest st (equalLocals n) := by
  induction w with
  | nil => intro rest st n _ _; rfl
  | cons c w ih =>
    intro rest st n hw hroom
    have hc : c = SP ∨ c = TAB := hw c (List.mem_cons_self _ _)
    have hno : ¬ ((st.lineLength : Int) ≥ ((equalLocals n).bufferSize : Int) - 1) := by
      simp only [equalLocals]; omega
    rw [List.cons_append, lineLoop]
    have h5 : c ≠ CR := by rcases hc with h | h <;> simp [h]
    have h6 : c ≠ LF := by rcases hc with h | h <;> simp [h]
    have h7 : c ≠ EQ := by rcases hc with h | h <;> simp [h]
    have hstep : charStep c st (equalLocals n) = .next st (equalLocals n) := by
      unfold charStep
      rw [if_pos (by simp [equalLocals]), if_neg hno]
      rcases hc with h | h <;> simp [equalLocals, h]
    simp only [h5, h6, if_false, hstep]
    exact ih rest st n (fun x hx => hw x (List.mem_cons_of_mem _ hx)) hroom

theorem pushAll_lineLength (xs : List Nat) :
    ∀ (st : FileConfig) (buf : Buffer), st.lineLength + xs.length < 256 →
      (pushAll st buf xs).lineLength = st.lineLength + xs.length := by
  induction xs with
  | nil => intro st buf _; rfl
  | cons c xs ih =>
    intro st buf h
    simp only [List.length_cons] at h
    have hL : (push st buf c).lineLength = st.lineLength + 1 := by
      simp only [push]; exact Nat.mod_eq_of_lt (by omega)
    simp only [pushAll, List.length_cons]
    rw [ih _ _ (by omega), hL]; omega

theorem push_lineLength (st : FileConfig) (buf : Buffer) (c : Nat) (h : st.lineLength < 255) :
    (push st buf c).lineLength = st.lineLength + 1 := by
  simp only [push]; exact Nat.mod_eq_of_lt (by omega)

theorem charStep_key_eq (st : FileConfig) (n : Nat) (h : st.lineLength + 1 < n) :
    charStep EQ st (keyLocals n)
      = .next { push st .line 0 with valueIndex := toInt8 (push st .line 0).lineLength }
          (valueLocals n) := by
  have hno : ¬ ((st.lineLength : Int) ≥ ((keyLocals n).bufferSize : Int) - 1) := by
    simp only [keyLocals]; omega
  unfold charStep
  rw [if_pos (by simp [keyLocals]), if_neg hno]
  simp [keyLocals, valueLocals]

theorem charStep_key_blank (c : Nat) (st : FileConfig) (n : Nat) (hc : c = SP ∨ c = TAB)
    (h : st.lineLength + 1 < n) :
    charStep c st (keyLocals n) = .next (push st .line 0) (equalLocals n) := by
  have hno : ¬ ((st.lineLength : Int) ≥ ((keyLocals n).bufferSize : Int) - 1) := by
    simp only [keyLocals]; omega
  unfold charStep
  rw [if_pos (by simp [keyLocals]), if_neg hno]
  simp [keyLocals, equalLocals, hc]

theorem charStep_equal_eq (st : FileConfig) (n : Nat) (h : st.lineLength + 1 < n) :
    charStep EQ st (equalLocals n)
      = .next { st with valueIndex := toInt8 st.lineLength } (valueLocals n) := by
  have hno : ¬ ((st.lineLength : Int) ≥ ((equalLocals n).bufferSize : Int) - 1) := by
    simp only [equalLocals]; omega
  unfold charStep
  rw [if_pos (by simp [equalLocals]), if_neg hno]
  simp [equalLocals, valueLocals]

theorem lineLoop_setting (st : FileConfig) (k w v rest : List Nat)
    (hk : WellFormedKey k) (hw : Blanks w) (hv : WellFormedValue v)
    (hroom : k.length + v.length + 2 ≤ st.lineSize)
    (hw2 : w ≠ [] → k.length + 3 ≤ st.lineSize) (hsz : st.lineSize ≤ 256) :
    lineLoop (k ++ (w ++ EQ :: (v ++ rest))) (resetLine st) initLocals
      = lineLoop rest (valueState st k v) (valueLocals st.lineSize) := by
  cases k with
  | nil => exact hk.elim
  | cons c0 k1 =>
    obtain ⟨⟨a1, a2⟩, hall⟩ := hk
    obtain ⟨b1, b2, b3, b4, b5⟩ := hall c0 (List.mem_cons_self _ _)
    simp only [List.length_cons] at hroom hw2
    rw [List.cons_append, lineLoop_firstKeyChar c0 _ _ ⟨a1, b1, b2, a2, b4, b5⟩]
    have hsize : (resetLine st).lineSize = st.lineSize := rfl
    rw [hsize]
    have hL1 : (push (resetLine st) .line c0).lineLength = 1 := by simp [push, resetLine]
    rw [lineLoop_append k1 _ _ (keyLocals st.lineSize)
      (by
        intro c hc
        obtain ⟨c1, c2, c3, c4, c5⟩ := hall c (List.mem_cons_of_mem _ hc)
        exact ⟨c4, c5, Or.inl ⟨rfl, c1, c2, c3⟩⟩)
      (by rw [hL1]; simp only [keyLocals]; omega) (by simpa [keyLocals] using hsz)]
    have hbuf : (keyLocals st.lineSize).buffer = .line := rfl
    rw [hbuf]
    have hL2 : (pushAll (push (resetLine st) .line c0) .line k1).lineLength = 1 + k1.length := by
      rw [pushAll_lineLength _ _ _ (by rw [hL1]; omega), hL1]
    have hstate : pushAll (resetLine st) .line ((c0 :: k1) ++ [0])
        = push (pushAll (push (resetLine st) .line c0) .line k1) .line 0 := by
      rw [List.cons_append]
      simp only [pushAll]
      rw [pushAll_append]
      rfl
    have hL3 : (push (pushAll (push (resetLine st) .line c0) .line k1) .line 0).lineLength
        = k1.length + 1 + 1 := by
      rw [push_lineLength _ _ _ (by omega), hL2]; omega
    have hfinal : ∀ (s3 : FileConfig),
        s3 = { push (pushAll (push (resetLine st) .line c0) .line k1) .line 0 with
                valueIndex :=
                  toInt8 (push (pushAll (push (resetLine st) .line c0) .line k1) .line 0).lineLength } →
        lineLoop (v ++ rest) s3 (valueLocals st.lineSize)
          = lineLoop rest (valueState st (c0 :: k1) v) (valueLocals st.lineSize) := by
      intro s3 hs3
      have hs3L : s3.lineLength = k1.length + 1 + 1 := by rw [hs3]; exact hL3
      rw [lineLoop_append v _ _ (valueLocals st.lineSize)
        (by intro c hc; exact ⟨(hv c hc).1, (hv c hc).2, Or.inr (Or.inr rfl)⟩)
        (by rw [hs3L]; simp only [valueLocals]; omega) (by simpa [valueLocals] using hsz)]
      have hv8 : toInt8 (push (pushAll (push (resetLine st) .line c0) .line k1) .line 0).lineLength
          = toInt8 (k1.length + 1 + 1) := by rw [hL3]
      simp only [valueState, valueLocals, List.length_cons]
      rw [hstate, hs3, hv8]
    cases w with
    | nil =>
      rw [List.nil_append, lineLoop]
      simp only [show EQ ≠ CR by decide, show EQ ≠ LF by decide, if_false]
      rw [charStep_key_eq _ _ (by rw [hL2]; omega)]
      exact hfinal _ rfl
    | cons b w1 =>
      have hb : b = SP ∨ b = TAB := hw b (List.mem_cons_self _ _)
      have h5 : b ≠ CR := by rcases hb with h | h <;> simp [h]
      have h6 : b ≠ LF := by rcases hb with h | h <;> simp [h]
      have hw3 := hw2 (by simp)
      rw [List.cons_append, lineLoop]
      simp only [h5, h6, if_false]
      rw [charStep_key_blank b _ _ hb (by rw [hL2]; omega)]
      simp only
      rw [lineLoop_blanks w1 _ _ _ (fun x hx => hw x (List.mem_cons_of_mem _ hx))
        (by rw [hL3]; omega), lineLoop]
      simp only [show EQ ≠ CR by decide, show EQ ≠ LF by decide, if_false]
      rw [charStep_equal_eq _ _ (by rw [hL3]; omega)]
      exact hfinal _ rfl

theorem store_line_take (st : FileConfig) (n : Nat) (pre : List Nat)
    (h1 : st.line.take n = pre) (h2 : n < st.line.length) :
    (store st .line n 0).line.take (n + 1) = pre ++ [0] := by
  simp only [store]
  rw [take_succ_set _ _ _ h2, h1]

theorem valueState_settingRead (st : FileConfig) (k v : List Nat)
    (hlen : k.length + v.length + 2 ≤ st.line.length) (h256 : k.length + v.length + 2 ≤ 256)
    (st1 : FileConfig)
    (h1 : st1.line = (valueState st k v).line.set (valueState st k v).lineLength 0)
    (h2 : st1.lineLength = (valueState st k v).lineLength)
    (h3 : st1.valueIndex = (valueState st k v).valueIndex)
    (h4 : st1.section_ = (valueState st k v).section_)
    (h5 : st1.sectionChanged = (valueState st k v).sectionChanged)
    (h6 : st1.lineSize = (valueState st k v).lineSize)
    (h7 : st1.sectionSize = (valueState st k v).sectionSize)
    (h8 : st1.ignoreCase = (valueState st k v).ignoreCase)
    (h9 : st1.ignoreError = (valueState st k v).ignoreError)
    (h10 : st1.outOfBounds = (valueState st k v).outOfBounds) :
    SettingRead st st1 k v := by
  have hr0 : (resetLine st).lineLength = 0 := rfl
  have hrl : (resetLine st).line = st.line := rfl
  obtain ⟨p1, p2, p3, p4⟩ := pushAll_line (k ++ [0]) (resetLine st)
    (by rw [hr0, hrl]; simp; omega) (by rw [hr0]; simp; omega)
  obtain ⟨e1, e2, e3, e4, e5, e6, e7, e8, e9, e10, e11⟩ :=
    pushAll_frame (k ++ [0]) (resetLine st) .line
  rw [hr0] at p1 p2
  simp only [List.length_append, List.length_singleton, Nat.zero_add, List.take_zero,
    List.nil_append] at p1 p2
  have hvs : valueState st k v = pushAll
      { pushAll (resetLine st) .line (k ++ [0]) with valueIndex := toInt8 (k.length + 1) }
      .line v := rfl
  rw [hvs] at h1 h2 h3 h4 h5 h6 h7 h8 h9 h10
  generalize pushAll (resetLine st) .line (k ++ [0]) = A at *
  obtain ⟨q1, q2, q3, q4⟩ := pushAll_line v { A with valueIndex := toInt8 (k.length + 1) }
    (by show A.lineLength + v.length ≤ A.line.length; rw [p1, e10, hrl]; omega)
    (by show A.lineLength + v.length < 256; rw [p1]; omega)
  obtain ⟨g1, g2, g3, g4, g5, g6, g7, g8, g9, g10, g11⟩ :=
    pushAll_frame v { A with valueIndex := toInt8 (k.length + 1) } .line
  generalize pushAll { A with valueIndex := toInt8 (k.length + 1) } .line v = B at *
  simp only at q1 q2 q3 q4 g1 g2 g3 g4 g5 g6 g7 g8 g9 g10 g11
  rw [p1] at q1 q2
  rw [p2] at q2
  refine ⟨by rw [h2, q1], by rw [h3, g5], ?_, ?_, ?_, ?_, ?_, ?_, ?_, ?_, ?_⟩
  · rw [h1, q1, take_succ_set _ _ _ (by rw [g10, e10, hrl]; omega), q2]
    simp
  · rw [h1, List.length_set, g10, e10, hrl]
  · rw [h4, q3, p3]; rfl
  · rw [h5, g6, e6]; rfl
  · rw [h6, g4, e4]; rfl
  · rw [h7, g7, e7]; rfl
  · rw [h8, g8, e8]; rfl
  · rw [h9, g9, e9]; rfl
  · rw [h10, q4, p4]; rfl

theorem toInt8_small (n : Nat) (h : n < 128) : toInt8 n = (n : Int) := by
  have : n % 256 = n := Nat.mod_eq_of_lt (by omega)
  simp [toInt8, this, h]

theorem getName_of_settingRead {st st1 : FileConfig} {k v : List Nat}
    (h : SettingRead st st1 k v) (hk : k ≠ []) (h128 : k.length + 1 < 128) (hc : CString k) :
    getName st1 = some k := by
  have hpos : 0 < k.length := List.length_pos.mpr hk
  have hcond : ¬ ((st1.lineLength : Int) ≤ 0 ∨ st1.valueIndex ≤ 1) := by
    rw [h.lineLength, h.valueIndex, toInt8_small _ h128]
    push_cast
    omega
  have ht : st1.line.take (k.length + 1 + v.length + 1) = [] ++ k ++ 0 :: (v ++ [0]) := by
    rw [h.lineTake]; simp
  have := cstr_of_take ht hc
  simp only [List.length_nil] at this
  unfold getName
  rw [if_neg hcond, this]

theorem getValue_of_settingRead {st st1 : FileConfig} {k v : List Nat}
    (h : SettingRead st st1 k v) (hk : k ≠ []) (h128 : k.length + 1 < 128) (hc : CString v) :
    getValue st1 false = (some v, st1) := by
  have hpos : 0 < k.length := List.length_pos.mpr hk
  have hcond : ¬ ((st1.lineLength : Int) ≤ 0 ∨ st1.valueIndex ≤ 1) := by
    rw [h.lineLength, h.valueIndex, toInt8_small _ h128]
    push_cast
    omega
  have ht : st1.line.take (k.length + 1 + v.length + 1) = (k ++ [0]) ++ v ++ 0 :: [] := by
    rw [h.lineTake]; simp
  have hs := cstr_of_take ht hc
  have hidx : st1.valueIndex.toNat = (k ++ [0]).length := by
    rw [h.valueIndex, toInt8_small _ h128]; simp
  unfold getValue
  rw [if_neg hcond]
  simp only [hidx, hs]
  split_ifs with h1 h2
  · rfl
  · rfl
  · exact absurd rfl h2

theorem lineLoop_setting_LF (st : FileConfig) (k w v t : List Nat)
    (hk : WellFormedKey k) (hw : Blanks w) (hv : WellFormedValue v)
    (hroom : k.length + v.length + 2 ≤ st.lineSize)
    (hw2 : w ≠ [] → k.length + 3 ≤ st.lineSize) (hsz : st.lineSize ≤ 256)
    (hlen : st.line.length = st.lineSize) :
    ∃ st1, lineLoop (k ++ (w ++ EQ :: (v ++ LF :: t))) (resetLine st) initLocals = (true, st1) ∧
      SettingRead st st1 k v ∧ st1.file = t ∧ st1.atEnd = st.atEnd ∧
      st1.lineCounter = (st.lineCounter + 1) % 65536 := by
  rw [lineLoop_setting st k w v (LF :: t) hk hw hv hroom hw2 hsz, lineLoop]
  simp only [show LF ≠ CR by decide, if_false, if_true, lineSwitch, valueLocals, Bool.or_true]
  refine ⟨_, rfl, valueState_settingRead st k v (by omega) (by omega) _ rfl rfl rfl rfl rfl rfl
    rfl rfl rfl ?_, rfl, ?_, ?_⟩
  · have hb : ¬ ((valueState st k v).line.length ≤ (valueState st k v).lineLength) := by
      have := valueState_settingRead st k v (by omega) (by omega)
        { valueState st k v with line := (valueState st k v).line.set (valueState st k v).lineLength 0 }
        rfl rfl rfl rfl rfl rfl rfl rfl rfl rfl
      have h1 := this.lineLength
      have h2 := this.lineLen
      simp only [List.length_set] at h1 h2
      omega
    simp [store, hb]
  · simp only [store, valueState]
    rw [(pushAll_frame _ _ _).2.1]
    simp only
    rw [(pushAll_frame _ _ _).2.1]
    rfl
  · simp only [store, valueState]
    rw [(pushAll_frame _ _ _).2.2.1]
    simp only
    rw [(pushAll_frame _ _ _).2.2.1]
    rfl

theorem lineLoop_setting_EOF (st : FileConfig) (k w v : List Nat)
    (hk : WellFormedKey k) (hw : Blanks w) (hv : WellFormedValue v)
    (hroom : k.length + v.length + 2 ≤ st.lineSize)
    (hw2 : w ≠ [] → k.length + 3 ≤ st.lineSize) (hsz : st.lineSize ≤ 256)
    (hlen : st.line.length = st.lineSize) :
    ∃ st1, lineLoop (k ++ (w ++ EQ :: v)) (resetLine st) initLocals = (true, st1) ∧
      SettingRead st st1 k v ∧ st1.file = [] ∧ st1.atEnd = true := by
  have h0 := lineLoop_setting st k w v [] hk hw hv hroom hw2 hsz
  rw [List.append_nil] at h0
  rw [h0, lineLoop]
  simp only [lineSwitch, valueLocals]
  refine ⟨_, rfl, valueState_settingRead st k v (by omega) (by omega) _ rfl rfl rfl rfl rfl rfl
    rfl rfl rfl ?_, rfl, ?_⟩
  · have hb : ¬ ((valueState st k v).line.length ≤ (valueState st k v).lineLength) := by
      have := valueState_settingRead st k v (by omega) (by omega)
        { valueState st k v with line := (valueState st k v).line.set (valueState st k v).lineLength 0 }
        rfl rfl rfl rfl rfl rfl rfl rfl rfl rfl
      have h1 := this.lineLength
      have h2 := this.lineLen
      simp only [List.length_set] at h1 h2
      omega
    simp [store, hb]
  · simp [store]

theorem charStep_section_end (st : FileConfig) (n : Nat) (h : st.lineLength + 1 < n) :
    charStep RBRACK st (sectionLocals n) = .next (push st .section_ 0) (sectionEndLocals n) := by
  have hno : ¬ ((st.lineLength : Int) ≥ ((sectionLocals n).bufferSize : Int) - 1) := by
    simp only [sectionLocals]; omega
  unfold charStep
  rw [if_pos (by simp [sectionLocals]), if_neg hno]
  simp [sectionLocals, sectionEndLocals]

theorem lineLoop_openBracket (rest : List Nat) (st : FileConfig) :
    lineLoop (LBRACK :: rest) st initLocals
      = lineLoop rest st { initLocals with isSection := true } := by
  rw [lineLoop]
  simp [charStep, initLocals]

theorem lineLoop_firstSectionChar (c : Nat) (rest : List Nat) (st : FileConfig)
    (h : c ≠ HASH ∧ c ≠ SP ∧ c ≠ TAB ∧ c ≠ LBRACK ∧ c ≠ CR ∧ c ≠ LF) :
    lineLoop (c :: rest) st { initLocals with isSection := true }
      = lineLoop rest (push st .section_ c) (sectionLocals st.sectionSize) := by
  obtain ⟨h1, h2, h3, h4, h5, h6⟩ := h
  rw [lineLoop]
  simp [h5, h6, charStep, initLocals, h1, h2, h3, h4, sectionLocals]

theorem lineLoop_header (st : FileConfig) (s rest : List Nat)
    (hs : WellFormedSection s) (hroom : s.length + 2 ≤ st.sectionSize)
    (hsz : st.sectionSize ≤ 256) (hend : st.atEnd = false) :
    lineLoop (LBRACK :: (s ++ RBRACK :: LF :: rest)) (resetLine st) initLocals
      = lineLoop rest (resetLine (headerDone st s)) initLocals := by
  cases s with
  | nil => exact hs.elim
  | cons c0 s1 =>
    obtain ⟨⟨a1, a2, a3, a4⟩, hall⟩ := hs
    obtain ⟨b1, b2, b3⟩ := hall c0 (List.mem_cons_self _ _)
    simp only [List.length_cons] at hroom
    rw [lineLoop_openBracket, List.cons_append,
      lineLoop_firstSectionChar c0 _ _ ⟨a3, a1, a2, a4, b2, b3⟩]
    have hsize : (resetLine st).sectionSize = st.sectionSize := rfl
    rw [hsize]
    have hL1 : (push (resetLine st) .section_ c0).lineLength = 1 := by simp [push, resetLine]
    rw [lineLoop_append s1 _ _ (sectionLocals st.sectionSize)
      (by
        intro c hc
        obtain ⟨c1, c2, c3⟩ := hall c (List.mem_cons_of_mem _ hc)
        exact ⟨c2, c3, Or.inr (Or.inl ⟨rfl, c1⟩)⟩)
      (by rw [hL1]; simp only [sectionLocals]; omega) (by simpa [sectionLocals] using hsz)]
    have hbuf : (sectionLocals st.sectionSize).buffer = .section_ := rfl
    rw [hbuf]
    have hL2 : (pushAll (push (resetLine st) .section_ c0) .section_ s1).lineLength
        = 1 + s1.length := by
      rw [pushAll_lineLength _ _ _ (by rw [hL1]; omega), hL1]
    have hstate : headerState st (c0 :: s1)
        = push (pushAll (push (resetLine st) .section_ c0) .section_ s1) .section_ 0 := by
      unfold headerState
      rw [List.cons_append]
      simp only [pushAll]
      rw [pushAll_append]
      rfl
    rw [lineLoop]
    simp only [show RBRACK ≠ CR by decide, show RBRACK ≠ LF by decide, if_false]
    rw [charStep_section_end _ _ (by rw [hL2]; omega)]
    simp only
    rw [← hstate, lineLoop]
    have hsw : lineSwitch { headerState st (c0 :: s1) with
        lineCounter := ((headerState st (c0 :: s1)).lineCounter + 1) % 65536 }
        (sectionEndLocals st.sectionSize) = .done false (headerDone st (c0 :: s1)) := rfl
    have hae : (headerState st (c0 :: s1)).atEnd = false := by
      rw [headerState, (pushAll_frame _ _ _).2.1]; exact hend
    have hae2 : ¬ (((headerDone st (c0 :: s1)).atEnd || false) = true) := by
      simp [headerDone, store, hae]
    rw [if_neg (by decide), if_pos rfl, hsw]
    simp only
    rw [if_neg hae2]

theorem headerDone_headerRead (st : FileConfig) (s : List Nat)
    (hlen : s.length + 2 ≤ st.section_.length) (h256 : s.length + 2 ≤ 256) :
    HeaderRead st (headerDone st s) s := by
  have hr0 : (resetLine st).lineLength = 0 := rfl
  have hrs : (resetLine st).section_ = st.section_ := rfl
  obtain ⟨p1, p2, p3, p4⟩ := pushAll_section (s ++ [0]) (resetLine st)
    (by rw [hr0, hrs]; simp; omega) (by rw [hr0]; simp; omega)
  obtain ⟨e1, e2, e3, e4, e5, e6, e7, e8, e9, e10, e11⟩ :=
    pushAll_frame (s ++ [0]) (resetLine st) .section_
  rw [hr0] at p1 p2
  simp only [List.length_append, List.length_singleton, Nat.zero_add, List.take_zero,
    List.nil_append] at p1 p2
  have hhs : headerState st s = pushAll (resetLine st) .section_ (s ++ [0]) := rfl
  rw [← hhs] at p1 p2 p3 p4 e1 e2 e3 e4 e5 e6 e7 e8 e9 e10 e11
  have hsec : (headerDone st s).section_
      = (headerState st s).section_.set (headerState st s).lineLength 0 := rfl
  refine ⟨?_, ?_, ?_, ?_, ?_, ?_, ?_, ?_, ?_, ?_⟩
  · rw [hsec, p1, take_succ_set _ _ _ (by rw [e11, hrs]; omega), p2]
    simp
  · rw [hsec, List.length_set, e11, hrs]
  · show (headerState st s).line = st.line
    rw [p3]; rfl
  · show (headerState st s).atEnd = st.atEnd
    rw [e2]; rfl
  · show (headerState st s).lineSize = st.lineSize
    rw [e4]; rfl
  · show (headerState st s).sectionSize = st.sectionSize
    rw [e7]; rfl
  · show (headerState st s).ignoreCase = st.ignoreCase
    rw [e8]; rfl
  · show (headerState st s).ignoreError = st.ignoreError
    rw [e9]; rfl
  · show ((headerState st s).outOfBounds
        || decide ((headerState st s).section_.length ≤ (headerState st s).lineLength))
      = st.outOfBounds
    have : ¬ ((headerState st s).section_.length ≤ (headerState st s).lineLength) := by
      rw [e11, hrs, p1]; omega
    simp only [this, decide_False, Bool.or_false]
    rw [p4]; rfl
  · show ((headerState st s).lineCounter + 1) % 65536 = (st.lineCounter + 1) % 65536
    rw [e3]; rfl

theorem getSection_of_headerRead {st st1 : FileConfig} {s : List Nat}
    (h : HeaderRead st st1 s) (hc : CString s) : getSection st1 = s := by
  have ht : st1.section_.take (s.length + 2) = [] ++ s ++ 0 :: [0] := by
    rw [h.sectionTake]; simp
  have := cstr_of_take ht hc
  simpa [getSection] using this

/-! ## The state `begin` returns -/

theorem begin_line_length (file : List Nat) (mll msl : Nat) (ic ie : Bool) (lm sm : Nat → Nat) :
    (begin file mll msl ic ie lm sm).line.length = (begin file mll msl ic ie lm sm).lineSize := by
  simp [begin]

theorem begin_section_length (file : List Nat) (mll msl : Nat) (ic ie : Bool)
    (lm sm : Nat → Nat) :
    (begin file mll msl ic ie lm sm).section_.length
      = (begin file mll msl ic ie lm sm).sectionSize := by
  simp [begin]

theorem begin_lineSize (file : List Nat) (mll msl : Nat) (ic ie : Bool) (lm sm : Nat → Nat)
    (h : mll ≤ 254) : (begin file mll msl ic ie lm sm).lineSize = mll + 1 := by
  simp only [begin]; exact Nat.mod_eq_of_lt (by omega)

theorem begin_sectionSize (file : List Nat) (mll msl : Nat) (ic ie : Bool) (lm sm : Nat → Nat)
    (h : msl ≤ 254) : (begin file mll msl ic ie lm sm).sectionSize = msl + 1 := by
  simp only [begin]; exact Nat.mod_eq_of_lt (by omega)

/-! ## C1: a header line followed by a setting line -/

theorem loopHead_header_setting (st : FileConfig) (s k w v t : List Nat)
    (hend : st.atEnd = false)
    (hs : WellFormedSection s) (hk : WellFormedKey k) (hw : Blanks w) (hv : WellFormedValue v)
    (hsroom : s.length + 2 ≤ st.sectionSize) (hssz : st.sectionSize ≤ 256)
    (hslen : st.section_.length = st.sectionSize)
    (hroom : k.length + v.length + 2 ≤ st.lineSize)
    (hw2 : w ≠ [] → k.length + 3 ≤ st.lineSize) (hsz : st.lineSize ≤ 256)
    (hlen : st.line.length = st.lineSize) :
    ∃ st1, loopHead (LBRACK :: (s ++ RBRACK :: LF :: (k ++ (w ++ EQ :: (v ++ LF :: t))))) st
        = (true, st1) ∧
      SettingRead (headerDone st s) st1 k v ∧
      HeaderRead st (headerDone st s) s ∧ st1.file = t ∧ st1.atEnd = false := by
  have hH := headerDone_headerRead st s (by omega) (by omega)
  obtain ⟨st1, h1, h2, h3, h4, h5⟩ := lineLoop_setting_LF (headerDone st s) k w v t hk hw hv
    (by rw [hH.lineSize]; exact hroom) (by rw [hH.lineSize]; exact hw2)
    (by rw [hH.lineSize]; exact hsz) (by rw [hH.line_eq, hH.lineSize]; exact hlen)
  refine ⟨st1, ?_, h2, hH, h3, by rw [h4, hH.atEnd, hend]⟩
  rw [loopHead, lineLoop_header st s _ hs hsroom hssz hend]
  exact h1

/-- The decoding C1 describes, for a section buffer whose size is not truncated by the
`uint8_t` field: for well formed C strings `s`, `k`, `v` with `|s| < maxSectionLength ≤ 254`
and `|k| + 1 + |v| < maxLineLength ≤ 127` and a run `w` of blanks, the first call on
`[s]\n` `k` `w` `=` `v` `\n` returns true with `getSection() = s`, `getName() = k`,
`getValue(false) = v`, and no store falls outside a block. -/
theorem readNextSetting_header_setting (maxLineLength maxSectionLength : Nat)
    (ignoreCase ignoreError : Bool) (lineMem sectionMem : Nat → Nat) (s k w v : List Nat)
    (hs : WellFormedSection s) (hsc : CString s) (hk : WellFormedKey k) (hkc : CString k)
    (hw : Blanks w) (hv : WellFormedValue v) (hvc : CString v)
    (hsfit : s.length < maxSectionLength) (h254 : maxSectionLength ≤ 254)
    (hfit : k.length + 1 + v.length < maxLineLength) (h127 : maxLineLength ≤ 127) :
    (readNextSetting (begin ([LBRACK] ++ s ++ [RBRACK, LF] ++ k ++ w ++ [EQ] ++ v ++ [LF])
        maxLineLength maxSectionLength ignoreCase ignoreError lineMem sectionMem)).1 = true ∧
    record (readNextSetting (begin ([LBRACK] ++ s ++ [RBRACK, LF] ++ k ++ w ++ [EQ] ++ v ++ [LF])
        maxLineLength maxSectionLength ignoreCase ignoreError lineMem sectionMem)).2
      = (s, some k, some v) ∧
    (readNextSetting (begin ([LBRACK] ++ s ++ [RBRACK, LF] ++ k ++ w ++ [EQ] ++ v ++ [LF])
        maxLineLength maxSectionLength ignoreCase ignoreError lineMem sectionMem)).2.outOfBounds
      = false := by
  have hsz := begin_lineSize ([LBRACK] ++ s ++ [RBRACK, LF] ++ k ++ w ++ [EQ] ++ v ++ [LF])
    maxLineLength maxSectionLength ignoreCase ignoreError lineMem sectionMem (by omega)
  have hlen := begin_line_length ([LBRACK] ++ s ++ [RBRACK, LF] ++ k ++ w ++ [EQ] ++ v ++ [LF])
    maxLineLength maxSectionLength ignoreCase ignoreError lineMem sectionMem
  have hssz := begin_sectionSize ([LBRACK] ++ s ++ [RBRACK, LF] ++ k ++ w ++ [EQ] ++ v ++ [LF])
    maxLineLength maxSectionLength ignoreCase ignoreError lineMem sectionMem h254
  have hslen := begin_section_length
    ([LBRACK] ++ s ++ [RBRACK, LF] ++ k ++ w ++ [EQ] ++ v ++ [LF])
    maxLineLength maxSectionLength ignoreCase ignoreError lineMem sectionMem
  have hoob : (begin ([LBRACK] ++ s ++ [RBRACK, LF] ++ k ++ w ++ [EQ] ++ v ++ [LF])
      maxLineLength maxSectionLength ignoreCase ignoreError lineMem sectionMem).outOfBounds
      = false := by
    have : (maxSectionLength + 1) % 256 = maxSectionLength + 1 := Nat.mod_eq_of_lt (by omega)
    simp [begin, this]
  generalize hst : begin ([LBRACK] ++ s ++ [RBRACK, LF] ++ k ++ w ++ [EQ] ++ v ++ [LF])
    maxLineLength maxSectionLength ignoreCase ignoreError lineMem sectionMem = st at *
  have hfile : st.file
      = LBRACK :: (s ++ RBRACK :: LF :: (k ++ (w ++ EQ :: (v ++ LF :: [])))) := by
    rw [← hst]; simp [begin]
  have hend : st.atEnd = false := by rw [← hst]; rfl
  have hkne : k ≠ [] := by intro h; rw [h] at hk; exact hk
  obtain ⟨st1, h1, h2, h3, h4, h5⟩ := loopHead_header_setting st s k w v [] hend
    hs hk hw hv (by omega) (by omega) hslen (by omega) (by intro _; omega) (by omega) hlen
  rw [readNextSetting_eq_loopHead st hend, hfile, h1]
  refine ⟨rfl, ?_, by rw [h2.outOfBounds, h3.outOfBounds, hoob]⟩
  have hsec : getSection st1 = s := by
    have := getSection_of_headerRead h3 hsc
    simp only [getSection] at this ⊢
    rw [h2.section_eq]; exact this
  simp only [record, hsec, getName_of_settingRead h2 hkne (by omega) hkc,
    getValue_of_settingRead h2 hkne (by omega) hvc]

/-- C1: with `maxSectionLength = 255` (and `maxLineLength = 20`) the first call on
`[a]\nk=v\n` returns false: `begin` stores `255 + 1` in the `uint8_t` `_sectionSize`,
which is 0, so the capacity test fails at `]`. -/
theorem header_setting_fails_at_255 :
    (readNextSetting (begin ([LBRACK] ++ [97] ++ [RBRACK, LF] ++ [107] ++ [] ++ [EQ] ++ [118]
        ++ [LF]) 20 255 false false (fun _ => 0) (fun _ => 0))).1 = false ∧
    (begin ([LBRACK] ++ [97] ++ [RBRACK, LF] ++ [107] ++ [] ++ [EQ] ++ [118] ++ [LF])
        20 255 false false (fun _ => 0) (fun _ => 0)).sectionSize = 0 := by
  decide

/-! ## C10: a last line without a line terminator -/

/-- C10: for a well formed key `k` and value `v` (C strings) with
`|k| + 1 + |v| ≤ maxLineLength ≤ 127`, on the stream `k=v` that ends without CR or LF the
first call of `readNextSetting` returns true with `getName() = k` and
`getValue(false) = v`, and the second call returns false. -/
theorem last_line_without_terminator (maxLineLength maxSectionLength : Nat)
    (ignoreCase ignoreError : Bool) (lineMem sectionMem : Nat → Nat) (k v : List Nat)
    (hk : WellFormedKey k) (hkc : CString k) (hv : WellFormedValue v) (hvc : CString v)
    (hfit : k.length + 1 + v.length ≤ maxLineLength) (h127 : maxLineLength ≤ 127) :
    (readNextSetting (begin (k ++ [EQ] ++ v) maxLineLength maxSectionLength ignoreCase
        ignoreError lineMem sectionMem)).1 = true ∧
    getName (readNextSetting (begin (k ++ [EQ] ++ v) maxLineLength maxSectionLength ignoreCase
        ignoreError lineMem sectionMem)).2 = some k ∧
    (getValue (readNextSetting (begin (k ++ [EQ] ++ v) maxLineLength maxSectionLength ignoreCase
        ignoreError lineMem sectionMem)).2 false).1 = some v ∧
    (readNextSetting (readNextSetting (begin (k ++ [EQ] ++ v) maxLineLength maxSectionLength
        ignoreCase ignoreError lineMem sectionMem)).2).1 = false := by
  have hsz := begin_lineSize (k ++ [EQ] ++ v) maxLineLength maxSectionLength ignoreCase
    ignoreError lineMem sectionMem (by omega)
  have hlen := begin_line_length (k ++ [EQ] ++ v) maxLineLength maxSectionLength ignoreCase
    ignoreError lineMem sectionMem
  generalize hst : begin (k ++ [EQ] ++ v) maxLineLength maxSectionLength ignoreCase
    ignoreError lineMem sectionMem = st at *
  have hfile : st.file = k ++ ([] ++ EQ :: v) := by rw [← hst]; simp [begin]
  have hend : st.atEnd = false := by rw [← hst]; rfl
  have hkne : k ≠ [] := by intro h; rw [h] at hk; exact hk
  obtain ⟨st1, h1, h2, h3, h4⟩ := lineLoop_setting_EOF st k [] v hk (by intro c hc; simp at hc) hv
    (by omega) (by intro h; exact absurd rfl h) (by omega) hlen
  have hcall : readNextSetting st = (true, st1) := by
    simp only [readNextSetting, hend, whileLoop, loopHead, hfile]
    exact h1
  rw [hcall]
  refine ⟨rfl, getName_of_settingRead h2 hkne (by omega) hkc, ?_, ?_⟩
  · rw [getValue_of_settingRead h2 hkne (by omega) hvc]
  · rw [readNextSetting_of_atEnd _ h4]

theorem last_line_without_terminator_witness :
    (readNextSetting (begin ([107, 101, 121] ++ [EQ] ++ [118, 97, 108]) 20 10 false false
        (fun _ => 7) (fun _ => 7))).1 = true ∧
    getName (readNextSetting (begin ([107, 101, 121] ++ [EQ] ++ [118, 97, 108]) 20 10 false
        false (fun _ => 7) (fun _ => 7))).2 = some [107, 101, 121] ∧
    (getValue (readNextSetting (begin ([107, 101, 121] ++ [EQ] ++ [118, 97, 108]) 20 10 false
        false (fun _ => 7) (fun _ => 7))).2 false).1 = some [118, 97, 108] ∧
    (readNextSetting (readNextSetting (begin ([107, 101, 121] ++ [EQ] ++ [118, 97, 108]) 20 10
        false false (fun _ => 7) (fun _ => 7))).2).1 = false :=
  last_line_without_terminator 20 10 false false (fun _ => 7) (fun _ => 7) [107, 101, 121]
    [118, 97, 108] (by simp [WellFormedKey]) (by simp [CString]) (by simp [WellFormedValue])
    (by simp [CString]) (by decide) (by decide)

/-! ## C2: a key line without `=` when errors are not tolerated -/

theorem push_ignoreError (st : FileConfig) (buf : Buffer) (c : Nat) :
    (push st buf c).ignoreError = st.ignoreError := by
  cases buf <;> rfl

theorem lineLoop_key_without_equals (xs : List Nat) :
    ∀ (t : List Nat) (st : FileConfig) (n : Nat),
      (∀ c ∈ xs, c ≠ SP ∧ c ≠ TAB ∧ c ≠ EQ ∧ c ≠ CR ∧ c ≠ LF) → st.ignoreError = false →
      (lineLoop (xs ++ LF :: t) st (keyLocals n)).1 = false := by
  induction xs with
  | nil =>
    intro t st n _ hie
    rw [List.nil_append, lineLoop]
    simp [lineSwitch, keyLocals, hie]
  | cons c xs ih =>
    intro t st n hall hie
    obtain ⟨c1, c2, c3, c4, c5⟩ := hall c (List.mem_cons_self _ _)
    rw [List.cons_append, lineLoop]
    simp only [c4, c5, if_false]
    by_cases hov : (st.lineLength : Int) ≥ ((keyLocals n).bufferSize : Int) - 1
    · have : charStep c st (keyLocals n)
          = .ret false { store st (keyLocals n).buffer st.lineLength 0 with atEnd := true } := by
        unfold charStep
        rw [if_pos (by simp [keyLocals]), if_pos hov]
      rw [this]
    · have hroom : st.lineLength + 1 < (keyLocals n).bufferSize := by omega
      rw [charStep_append ⟨c4, c5, Or.inl ⟨rfl, c1, c2, c3⟩⟩ hroom]
      exact ih t _ n (fun x hx => hall x (List.mem_cons_of_mem _ hx))
        (by rw [push_ignoreError]; exact hie)

theorem loopHead_key_without_equals (st : FileConfig) (k t : List Nat)
    (hie : st.ignoreError = false) (hk : WellFormedKey k) :
    (loopHead (k ++ [LF] ++ t) st).1 = false := by
  cases k with
  | nil => exact hk.elim
  | cons c0 k1 =>
    obtain ⟨⟨a1, a2⟩, hall⟩ := hk
    obtain ⟨b1, b2, b3, b4, b5⟩ := hall c0 (List.mem_cons_self _ _)
    have hf : (c0 :: k1) ++ [LF] ++ t = c0 :: (k1 ++ LF :: t) := by simp
    rw [loopHead, hf, lineLoop_firstKeyChar c0 _ _ ⟨a1, b1, b2, a2, b4, b5⟩]
    exact lineLoop_key_without_equals k1 t _ _ (fun x hx => hall x (List.mem_cons_of_mem _ hx))
      (by rw [push_ignoreError]; exact hie)

/-- C2: with `_ignoreError = false`, whenever the outer loop is at its head and the
unread bytes are `k\n` followed by any `t`, for a well formed key `k` (non-empty, no `=`,
no blank, CR or LF, not starting with `#` or `[`; of any length, fitting `_line` or not),
the call returns false, and after any number `n` of further calls the next call returns
false too. In particular a call of `readNextSetting` that starts at such a line does. -/
theorem key_without_equals_is_fatal (st : FileConfig) (k t : List Nat) (n : Nat)
    (hie : st.ignoreError = false) (hk : WellFormedKey k) :
    (loopHead (k ++ [LF] ++ t) st).1 = false ∧
    (readNextSetting (afterCalls n (loopHead (k ++ [LF] ++ t) st).2)).1 = false ∧
    (st.file = k ++ [LF] ++ t →
      (readNextSetting st).1 = false ∧
      (readNextSetting (afterCalls n (readNextSetting st).2)).1 = false) := by
  have h1 := loopHead_key_without_equals st k t hie hk
  have h3 : (loopHead (k ++ [LF] ++ t) st).2.atEnd = true := lineLoop_false_atEnd _ _ _ h1
  refine ⟨h1, ?_, ?_⟩
  · rw [afterCalls_of_atEnd n _ h3, readNextSetting_of_atEnd _ h3]
  · intro hfile
    have h2 : (readNextSetting st).1 = false :=
      readNextSetting_false_of_loopHead st (by rw [hfile]; exact h1)
    exact ⟨h2, by rw [(readNextSetting_latches st n h2).2]⟩

theorem key_without_equals_is_fatal_witness :
    (loopHead ([106, 117, 115, 116] ++ [LF] ++ [107, 61, 118, 10])
      (begin ([106, 117, 115, 116] ++ [LF] ++ [107, 61, 118, 10]) 20 10 false false
        (fun _ => 0) (fun _ => 0))).1 = false ∧
    (readNextSetting (afterCalls 2 (loopHead ([106, 117, 115, 116] ++ [LF] ++ [107, 61, 118, 10])
      (begin ([106, 117, 115, 116] ++ [LF] ++ [107, 61, 118, 10]) 20 10 false false
        (fun _ => 0) (fun _ => 0))).2)).1 = false ∧
    (readNextSetting (begin ([106, 117, 115, 116] ++ [LF] ++ [107, 61, 118, 10]) 20 10 false
      false (fun _ => 0) (fun _ => 0))).1 = false ∧
    (readNextSetting (afterCalls 2 (readNextSetting (begin ([106, 117, 115, 116] ++ [LF] ++
      [107, 61, 118, 10]) 20 10 false false (fun _ => 0) (fun _ => 0))).2)).1 = false :=
  have h := key_without_equals_is_fatal
    (begin ([106, 117, 115, 116] ++ [LF] ++ [107, 61, 118, 10]) 20 10 false false
      (fun _ => 0) (fun _ => 0)) [106, 117, 115, 116] [107, 61, 118, 10] 2 rfl
    (by simp [WellFormedKey])
  ⟨h.1, h.2.1, (h.2.2 rfl).1, (h.2.2 rfl).2⟩

/-! ## C4: a token longer than its buffer -/

theorem charStep_overflow (c : Nat) (st : FileConfig) (loc : Locals)
    (hrs : loc.readStep = .KeyName ∨ loc.readStep = .SectionName ∨ loc.readStep = .Equal
      ∨ loc.readStep = .Value)
    (hov : (st.lineLength : Int) ≥ (loc.bufferSize : Int) - 1) :
    charStep c st loc
      = .ret false { store st loc.buffer st.lineLength 0 with atEnd := true } := by
  unfold charStep
  rw [if_pos hrs, if_pos hov]

theorem lineLoop_append_overflow (xs : List Nat) :
    ∀ (rest : List Nat) (st : FileConfig) (loc : Locals),
      (∀ c ∈ xs, appendsIn loc.readStep c) → st.lineLength < loc.bufferSize →
      loc.bufferSize ≤ st.lineLength + xs.length → loc.bufferSize ≤ 256 →
      (lineLoop (xs ++ rest) st loc).1 = false := by
  induction xs with
  | nil => intro rest st loc _ h1 h2 _; simp at h2; omega
  | cons c xs ih =>
    intro rest st loc hall h1 h2 h3
    have hc : appendsIn loc.readStep c := hall c (List.mem_cons_self _ _)
    have hrs : loc.readStep = .KeyName ∨ loc.readStep = .SectionName ∨ loc.readStep = .Equal
        ∨ loc.readStep = .Value := by
      rcases hc.2.2 with h | h | h
      · exact Or.inl h.1
      · exact Or.inr (Or.inl h.1)
      · exact Or.inr (Or.inr (Or.inr h))
    simp only [List.length_cons] at h2
    rw [List.cons_append, lineLoop]
    simp only [hc.1, hc.2.1, if_false]
    by_cases hov : (st.lineLength : Int) ≥ (loc.bufferSize : Int) - 1
    · rw [charStep_overflow c st loc hrs hov]
    · rw [charStep_append hc (by omega)]
      have hL : (push st loc.buffer c).lineLength = st.lineLength + 1 :=
        push_lineLength _ _ _ (by omega)
      exact ih rest _ loc (fun x hx => hall x (List.mem_cons_of_mem _ hx))
        (by rw [hL]; omega) (by rw [hL]; omega) h3

theorem lineLoop_setting_overflow (k1 : List Nat) :
    ∀ (v rest : List Nat) (st : FileConfig) (n : Nat),
      (∀ c ∈ k1, c ≠ SP ∧ c ≠ TAB ∧ c ≠ EQ ∧ c ≠ CR ∧ c ≠ LF) → WellFormedValue v →
      st.lineLength < n → n ≤ st.lineLength + k1.length + 1 + v.length → n ≤ 256 →
      (lineLoop (k1 ++ EQ :: (v ++ rest)) st (keyLocals n)).1 = false := by
  induction k1 with
  | nil =>
    intro v rest st n _ hv h1 h2 h3
    simp only [List.length_nil, Nat.add_zero] at h2
    rw [List.nil_append, lineLoop]
    simp only [show EQ ≠ CR by decide, show EQ ≠ LF by decide, if_false]
    by_cases hov : (st.lineLength : Int) ≥ ((keyLocals n).bufferSize : Int) - 1
    · rw [charStep_overflow EQ st _ (Or.inl rfl) hov]
    · have hroom : st.lineLength + 1 < n := by simp only [keyLocals] at hov; omega
      rw [charStep_key_eq st n hroom]
      have hL : (push st .line 0).lineLength = st.lineLength + 1 :=
        push_lineLength _ _ _ (by omega)
      exact lineLoop_append_overflow v rest _ (valueLocals n)
        (fun c hc => ⟨(hv c hc).1, (hv c hc).2, Or.inr (Or.inr rfl)⟩)
        (by show (push st .line 0).lineLength < n; rw [hL]; omega)
        (by show n ≤ (push st .line 0).lineLength + v.length; rw [hL]; omega) h3
  | cons c k1 ih =>
    intro v rest st n hall hv h1 h2 h3
    obtain ⟨c1, c2, c3, c4, c5⟩ := hall c (List.mem_cons_self _ _)
    simp only [List.length_cons] at h2
    rw [List.cons_append, lineLoop]
    simp only [c4, c5, if_false]
    by_cases hov : (st.lineLength : Int) ≥ ((keyLocals n).bufferSize : Int) - 1
    · rw [charStep_overflow c st _ (Or.inl rfl) hov]
    · have hroom : st.lineLength + 1 < (keyLocals n).bufferSize := by omega
      rw [charStep_append ⟨c4, c5, Or.inl ⟨rfl, c1, c2, c3⟩⟩ hroom]
      have hL : (push st (keyLocals n).buffer c).lineLength = st.lineLength + 1 :=
        push_lineLength _ _ _ (by simp only [keyLocals] at hroom; omega)
      exact ih v rest _ n (fun x hx => hall x (List.mem_cons_of_mem _ hx)) hv
        (by rw [hL]; simp only [keyLocals] at hroom; omega) (by rw [hL]; omega) h3

theorem loopHead_overlong_setting (st : FileConfig) (maxLineLength : Nat) (k v rest : List Nat)
    (hsz : st.lineSize = maxLineLength + 1) (h1 : 1 ≤ maxLineLength) (h254 : maxLineLength ≤ 254)
    (hk : WellFormedKey k) (hv : WellFormedValue v)
    (hlong : maxLineLength < k.length + 1 + v.length) :
    (loopHead (k ++ [EQ] ++ v ++ rest) st).1 = false := by
  cases k with
  | nil => exact hk.elim
  | cons c0 k1 =>
    obtain ⟨⟨a1, a2⟩, hall⟩ := hk
    obtain ⟨b1, b2, b3, b4, b5⟩ := hall c0 (List.mem_cons_self _ _)
    simp only [List.length_cons] at hlong
    have hf : (c0 :: k1) ++ [EQ] ++ v ++ rest = c0 :: (k1 ++ EQ :: (v ++ rest)) := by simp
    rw [loopHead, hf, lineLoop_firstKeyChar c0 _ _ ⟨a1, b1, b2, a2, b4, b5⟩]
    have hL1 : (push (resetLine st) .line c0).lineLength = 1 := by simp [push, resetLine]
    have hsz2 : (resetLine st).lineSize = maxLineLength + 1 := hsz
    exact lineLoop_setting_overflow k1 v rest _ _
      (fun x hx => hall x (List.mem_cons_of_mem _ hx)) hv
      (by rw [hL1, hsz2]; omega) (by rw [hL1, hsz2]; omega) (by rw [hsz2]; omega)

theorem loopHead_overlong_section (st : FileConfig) (maxSectionLength : Nat)
    (s rest : List Nat) (hsz : st.sectionSize = maxSectionLength + 1)
    (h1 : 1 ≤ maxSectionLength) (h254 : maxSectionLength ≤ 254)
    (hs : WellFormedSection s) (hlong : maxSectionLength < s.length) :
    (loopHead ([LBRACK] ++ s ++ rest) st).1 = false := by
  cases s with
  | nil => exact hs.elim
  | cons c0 s1 =>
    obtain ⟨⟨a1, a2, a3, a4⟩, hall⟩ := hs
    obtain ⟨b1, b2, b3⟩ := hall c0 (List.mem_cons_self _ _)
    simp only [List.length_cons] at hlong
    have hf : [LBRACK] ++ (c0 :: s1) ++ rest = LBRACK :: c0 :: (s1 ++ rest) := by simp
    rw [loopHead, hf, lineLoop_openBracket,
      lineLoop_firstSectionChar c0 _ _ ⟨a3, a1, a2, a4, b2, b3⟩]
    have hL1 : (push (resetLine st) .section_ c0).lineLength = 1 := by simp [push, resetLine]
    have hsz2 : (resetLine st).sectionSize = maxSectionLength + 1 := hsz
    exact lineLoop_append_overflow s1 rest _ (sectionLocals _)
      (fun c hc => ⟨(hall c (List.mem_cons_of_mem _ hc)).2.1,
        (hall c (List.mem_cons_of_mem _ hc)).2.2,
        Or.inr (Or.inl ⟨rfl, (hall c (List.mem_cons_of_mem _ hc)).1⟩)⟩)
      (by rw [hL1, hsz2]; simp only [sectionLocals]; omega)
      (by rw [hL1, hsz2]; simp only [sectionLocals]; omega)
      (by rw [hsz2]; simp only [sectionLocals]; omega)

/-- C4: for either value of `_ignoreError` and buffers configured with
`1 ≤ maxLineLength, maxSectionLength ≤ 254`, whenever the outer loop is at its head and the
unread bytes `f` start with a setting line `k=v` (well formed `k`, `v`) with
`|k| + 1 + |v| > maxLineLength`, or with a header `[s` whose well formed name `s` is longer
than `maxSectionLength`, then whatever follows, the call returns false, and after any
number `n` of further calls the next call returns false. In particular a call of
`readNextSetting` that starts at such a line does. -/
theorem overlong_token_is_fatal (st : FileConfig) (f : List Nat)
    (maxLineLength maxSectionLength n : Nat)
    (hl1 : 1 ≤ maxLineLength) (hl254 : maxLineLength ≤ 254)
    (hs1 : 1 ≤ maxSectionLength) (hs254 : maxSectionLength ≤ 254)
    (hlsz : st.lineSize = maxLineLength + 1) (hssz : st.sectionSize = maxSectionLength + 1)
    (hline :
      (∃ k v rest, WellFormedKey k ∧ WellFormedValue v ∧
        maxLineLength < k.length + 1 + v.length ∧ f = k ++ [EQ] ++ v ++ rest) ∨
      (∃ s rest, WellFormedSection s ∧ maxSectionLength < s.length ∧
        f = [LBRACK] ++ s ++ rest)) :
    (loopHead f st).1 = false ∧
    (readNextSetting (afterCalls n (loopHead f st).2)).1 = false ∧
    (st.file = f →
      (readNextSetting st).1 = false ∧
      (readNextSetting (afterCalls n (readNextSetting st).2)).1 = false) := by
  have h1 : (loopHead f st).1 = false := by
    rcases hline with ⟨k, v, rest, hk, hv, hlong, hfile⟩ | ⟨s, rest, hs, hlong, hfile⟩
    · rw [hfile]
      exact loopHead_overlong_setting st maxLineLength k v rest hlsz hl1 hl254 hk hv hlong
    · rw [hfile]
      exact loopHead_overlong_section st maxSectionLength s rest hssz hs1 hs254 hs hlong
  have h3 : (loopHead f st).2.atEnd = true := lineLoop_false_atEnd _ _ _ h1
  refine ⟨h1, ?_, ?_⟩
  · rw [afterCalls_of_atEnd n _ h3, readNextSetting_of_atEnd _ h3]
  · intro hfile
    have h2 : (readNextSetting st).1 = false :=
      readNextSetting_false_of_loopHead st (by rw [hfile]; exact h1)
    exact ⟨h2, by rw [(readNextSetting_latches st n h2).2]⟩

theorem overlong_token_is_fatal_witness :
    (loopHead ([107, 101, 121] ++ [EQ] ++ [118, 97, 108] ++ [10, 97, 61, 98, 10])
      (begin ([107, 101, 121] ++ [EQ] ++ [118, 97, 108] ++ [10, 97, 61, 98, 10])
        5 3 false true (fun _ => 0) (fun _ => 0))).1 = false ∧
    (readNextSetting (begin ([107, 101, 121] ++ [EQ] ++ [118, 97, 108] ++ [10, 97, 61, 98, 10])
      5 3 false true (fun _ => 0) (fun _ => 0))).1 = false ∧
    (readNextSetting (afterCalls 2 (readNextSetting (begin ([107, 101, 121] ++ [EQ] ++
      [118, 97, 108] ++ [10, 97, 61, 98, 10]) 5 3 false true (fun _ => 0) (fun _ => 0))).2)).1
      = false :=
  have h := overlong_token_is_fatal
    (begin ([107, 101, 121] ++ [EQ] ++ [118, 97, 108] ++ [10, 97, 61, 98, 10])
      5 3 false true (fun _ => 0) (fun _ => 0))
    ([107, 101, 121] ++ [EQ] ++ [118, 97, 108] ++ [10, 97, 61, 98, 10]) 5 3 2
    (by decide) (by decide) (by decide) (by decide) rfl rfl
    (Or.inl ⟨[107, 101, 121], [118, 97, 108], [10, 97, 61, 98, 10], by simp [WellFormedKey],
      by simp [WellFormedValue], by decide, rfl⟩)
  ⟨h.1, (h.2.2 rfl).1, (h.2.2 rfl).2⟩

/-! ## C7: the section name persists -/

theorem store_section_of_ne (st : FileConfig) (buf : Buffer) (i x : Nat)
    (h : buf ≠ .section_) : (store st buf i x).section_ = st.section_ := by
  cases buf with
  | null => rfl
  | section_ => exact absurd rfl h
  | line => rfl

theorem lineLoop_file_length (f : List Nat) :
    ∀ (st : FileConfig) (loc : Locals), (lineLoop f st loc).2.file.length ≤ f.length - 1 := by
  induction f with
  | nil =>
    intro st loc
    rw [lineLoop]
    cases lineSwitch { st with atEnd := true } loc <;> simp
  | cons c rest ih =>
    intro st loc
    have hrec : ∀ st1 loc1, (lineLoop rest st1 loc1).2.file.length ≤ rest.length := by
      intro st1 loc1
      have := ih st1 loc1
      omega
    rw [lineLoop]
    simp only [List.length_cons, Nat.add_sub_cancel]
    split_ifs
    · cases lineSwitch st loc with
      | ret b st1 => simp
      | done sf st1 =>
        simp only
        split_ifs
        · simp
        · exact hrec _ _
    · cases lineSwitch { st with lineCounter := (st.lineCounter + 1) % 65536 } loc with
      | ret b st1 => simp
      | done sf st1 =>
        simp only
        split_ifs
        · simp
        · exact hrec _ _
    · cases charStep c st loc with
      | ret b st1 => simp
      | next st1 loc1 => exact hrec _ _

theorem readNextSetting_file_length (st : FileConfig) :
    (readNextSetting st).2.file.length ≤ st.file.length := by
  unfold readNextSetting
  split_ifs
  · exact Nat.le_refl _
  · have := lineLoop_file_length st.file (resetLine st) initLocals
    simp only [whileLoop, loopHead]
    omega

theorem afterCalls_file_length (n : Nat) :
    ∀ (st : FileConfig), (afterCalls n st).file.length ≤ st.file.length := by
  induction n with
  | zero => intro st; exact Nat.le_refl _
  | succ n ih =>
    intro st
    exact Nat.le_trans (ih _) (readNextSetting_file_length st)

theorem push_section_of_ne (st : FileConfig) (buf : Buffer) (x : Nat)
    (h : buf ≠ .section_) : (push st buf x).section_ = st.section_ := by
  cases buf with
  | null => rfl
  | section_ => exact absurd rfl h
  | line => rfl

theorem charStep_next_no_header {c : Nat} {st st1 : FileConfig} {loc loc1 : Locals}
    (h : charStep c st loc = .next st1 loc1) (hsec : loc.isSection = false)
    (hbuf : loc.buffer ≠ .section_) (hc : loc.readStep = .FirstANChar → c ≠ LBRACK) :
    st1.section_ = st.section_ ∧ loc1.isSection = false ∧ loc1.buffer ≠ .section_ ∧
    (loc1.readStep = .FirstANChar → loc.readStep = .FirstANChar ∧ (c = SP ∨ c = TAB)) := by
  unfold charStep at h
  split_ifs at h with h1 h2 h3 h4 h5 h6 h7 h8 h9 h10 h11 h12 h13 h14 h15 h16 <;>
    simp only [CharResult.next.injEq] at h <;> obtain ⟨rfl, rfl⟩ := h <;>
    simp_all [push_section_of_ne] <;> intro hfa <;> simp_all

theorem charStep_ret_no_header {c : Nat} {st st1 : FileConfig} {loc : Locals} {b : Bool}
    (h : charStep c st loc = .ret b st1) (hbuf : loc.buffer ≠ .section_) :
    st1.section_ = st.section_ ∧ st1.atEnd = true := by
  obtain ⟨_, rfl⟩ := charStep_ret h
  exact ⟨store_section_of_ne _ _ _ _ hbuf, rfl⟩

theorem lineSwitch_done_no_header {st st1 : FileConfig} {loc : Locals} {sf : Bool}
    (h : lineSwitch st loc = .done sf st1) (hbuf : loc.buffer ≠ .section_) :
    st1.section_ = st.section_ := by
  unfold lineSwitch at h
  cases hr : loc.readStep <;> cases hi : st.ignoreError <;>
    simp [hr, hi] at h <;> obtain ⟨_, rfl⟩ := h <;>
    first
      | rfl
      | exact store_section_of_ne _ _ _ _ hbuf

theorem charStep_first_blank {c : Nat} (st : FileConfig) {loc : Locals}
    (hfa : loc.readStep = .FirstANChar) (hb : c = SP ∨ c = TAB) :
    charStep c st loc = .next st loc := by
  have h1 : c ≠ HASH := by rcases hb with h | h <;> simp [h]
  simp [charStep, hfa, h1, hb]

theorem lineLoop_no_header (q : List Nat) :
    ∀ (rest : List Nat) (st : FileConfig) (loc : Locals),
      noHeader (decide (loc.readStep = .FirstANChar)) q = true → loc.isSection = false →
      loc.buffer ≠ .section_ →
      (lineLoop (q ++ rest) st loc).2.file.length < rest.length ∨
      ((lineLoop (q ++ rest) st loc).2.section_ = st.section_ ∧
        ((lineLoop (q ++ rest) st loc).2.atEnd = true ∨
          ∃ q1, (lineLoop (q ++ rest) st loc).2.file = q1 ++ rest ∧ noHeader true q1 = true)) := by
  induction q with
  | nil =>
    intro rest st loc _ hsec hbuf
    rw [List.nil_append]
    cases rest with
    | nil =>
      right
      rw [lineLoop]
      cases hs : lineSwitch { st with atEnd := true } loc with
      | ret b st1 =>
        obtain ⟨_, rfl, _⟩ := lineSwitch_ret hs
        exact ⟨rfl, Or.inl rfl⟩
      | done sf st1 =>
        have h1 := lineSwitch_done_no_header hs hbuf
        have h2 := lineSwitch_done_atEnd hs
        exact ⟨h1, Or.inl h2⟩
    | cons c r =>
      left
      have := lineLoop_file_length (c :: r) st loc
      simp only [List.length_cons, Nat.add_sub_cancel] at this ⊢
      omega
  | cons c q ih =>
    intro rest st loc hno hsec hbuf
    have hinit : initLocals.isSection = false ∧ initLocals.buffer ≠ .section_ :=
      ⟨rfl, by simp [initLocals]⟩
    rw [List.cons_append, lineLoop]
    unfold noHeader at hno
    split_ifs with hcr hlf
    · have hno1 : noHeader true q = true := by simpa [hcr] using hno
      cases hs : lineSwitch st loc with
      | ret b st1 =>
        obtain ⟨_, rfl, _⟩ := lineSwitch_ret hs
        exact Or.inr ⟨rfl, Or.inl rfl⟩
      | done sf st1 =>
        have h1 := lineSwitch_done_no_header hs hbuf
        simp only
        split_ifs
        · exact Or.inr ⟨h1, Or.inr ⟨q, rfl, hno1⟩⟩
        · rcases ih rest (resetLine st1) initLocals (by simpa [initLocals] using hno1)
            hinit.1 hinit.2 with h | h
          · exact Or.inl h
          · exact Or.inr ⟨by rw [h.1]; exact h1, h.2⟩
    · have hno1 : noHeader true q = true := by simpa [hlf] using hno
      cases hs : lineSwitch { st with lineCounter := (st.lineCounter + 1) % 65536 } loc with
      | ret b st1 =>
        obtain ⟨_, rfl, _⟩ := lineSwitch_ret hs
        exact Or.inr ⟨rfl, Or.inl rfl⟩
      | done sf st1 =>
        have h1 := lineSwitch_done_no_header hs hbuf
        simp only
        split_ifs
        · exact Or.inr ⟨h1, Or.inr ⟨q, rfl, hno1⟩⟩
        · rcases ih rest (resetLine st1) initLocals (by simpa [initLocals] using hno1)
            hinit.1 hinit.2 with h | h
          · exact Or.inl h
          · exact Or.inr ⟨by rw [h.1]; exact h1, h.2⟩
    · have hterm : ¬ (c = CR ∨ c = LF) := by simp [hcr, hlf]
      rw [if_neg hterm] at hno
      have hcfa : loc.readStep = .FirstANChar → c ≠ LBRACK := by
        intro hfa
        simp only [hfa, decide_True, if_true] at hno
        split_ifs at hno with hb
        · rcases hb with h | h <;> simp [h]
        · simp at hno; exact hno.1
      cases hs : charStep c st loc with
      | ret b st1 =>
        obtain ⟨h1, h2⟩ := charStep_ret_no_header hs hbuf
        exact Or.inr ⟨h1, Or.inl h2⟩
      | next st1 loc1 =>
        obtain ⟨h1, h2, h3, h4⟩ := charStep_next_no_header hs hsec hbuf hcfa
        simp only
        have hno1 : noHeader (decide (loc1.readStep = .FirstANChar)) q = true := by
          by_cases hfa1 : loc1.readStep = .FirstANChar
          · obtain ⟨hfa, hb⟩ := h4 hfa1
            simp only [hfa, decide_True, if_true, hb] at hno
            simpa [hfa1] using hno
          · by_cases hfa : loc.readStep = .FirstANChar
            · simp only [hfa, decide_True, if_true] at hno
              split_ifs at hno with hb
              · rw [charStep_first_blank st hfa hb] at hs
                simp only [CharResult.next.injEq] at hs
                rw [← hs.2] at hfa1
                exact absurd hfa hfa1
              · simp at hno; simpa [hfa1] using hno.2
            · simp only [hfa, decide_False] at hno
              simpa [hfa1] using hno
        rcases ih rest st1 loc1 hno1 h2 h3 with h | h
        · exact Or.inl h
        · exact Or.inr ⟨by rw [h.1]; exact h1, h.2⟩

theorem readNextSetting_no_header (st : FileConfig) (q rest : List Nat)
    (hfile : st.file = q ++ rest) (hno : noHeader true q = true) :
    (readNextSetting st).2.file.length < rest.length ∨
    ((readNextSetting st).2.section_ = st.section_ ∧
      ((readNextSetting st).2.atEnd = true ∨
        ∃ q1, (readNextSetting st).2.file = q1 ++ rest ∧ noHeader true q1 = true)) := by
  unfold readNextSetting
  split_ifs with hend
  · exact Or.inr ⟨rfl, Or.inl hend⟩
  · simp only [whileLoop, hfile]
    exact lineLoop_no_header q rest (resetLine st) initLocals (by simpa [initLocals] using hno)
      rfl (by simp [initLocals])

theorem afterCalls_no_header (n : Nat) :
    ∀ (st : FileConfig) (q rest : List Nat),
      (st.atEnd = true ∨ (st.file = q ++ rest ∧ noHeader true q = true)) →
      rest.length ≤ (afterCalls n st).file.length →
      (afterCalls n st).section_ = st.section_ := by
  induction n with
  | zero => intro st q rest _ _; rfl
  | succ n ih =>
    intro st q rest hinv hlen
    rcases hinv with hend | ⟨hfile, hno⟩
    · rw [afterCalls_of_atEnd _ _ hend]
    · simp only [afterCalls] at hlen ⊢
      rcases readNextSetting_no_header st q rest hfile hno with h | ⟨h1, h2⟩
      · have := afterCalls_file_length n (readNextSetting st).2
        omega
      · rcases h2 with h2 | ⟨q1, h3, h4⟩
        · rw [ih _ q rest (Or.inl h2) hlen, h1]
        · rw [ih _ q1 rest (Or.inr ⟨h3, h4⟩) hlen, h1]

theorem getSection_begin (file : List Nat) (mll msl : Nat) (ic ie : Bool) (lm sm : Nat → Nat) :
    getSection (begin file mll msl ic ie lm sm) = [] := by
  simp only [getSection, begin, cstr, List.drop_zero]
  cases h : (msl + 1) % 256 with
  | zero => simp
  | succ m => simp [List.range_succ_eq_map, List.takeWhile]

theorem afterCalls_succ (n : Nat) :
    ∀ (st : FileConfig), afterCalls (n + 1) st = (readNextSetting (afterCalls n st)).2 := by
  induction n with
  | zero => intro st; rfl
  | succ n ih =>
    intro st
    have := ih (readNextSetting st).2
    simp only [afterCalls] at this ⊢
    exact this

theorem settings_keep_section (maxLineLength : Nat)
    (ls : List (List Nat × List Nat × List Nat)) :
    ∀ (st : FileConfig) (rest : List Nat) (i : Nat),
      (∀ l ∈ ls, FitsLine maxLineLength l) → maxLineLength ≤ 254 →
      st.atEnd = false → st.lineSize = maxLineLength + 1 → st.line.length = st.lineSize →
      st.file = settingLines ls ++ rest → i < ls.length →
      (readNextSetting (afterCalls i st)).1 = true ∧
      (readNextSetting (afterCalls i st)).2.section_ = st.section_ := by
  induction ls with
  | nil => intro st rest i _ _ _ _ _ _ hi; simp at hi
  | cons l ls ih =>
    intro st rest i hall h254 hend hsz hlen hfile hi
    obtain ⟨hk, hw, hv, hfit, hfit2⟩ := hall l (List.mem_cons_self _ _)
    have hf : st.file
        = l.1 ++ (l.2.1 ++ EQ :: (l.2.2 ++ LF :: (settingLines ls ++ rest))) := by
      rw [hfile]; simp [settingLines, settingLine]
    obtain ⟨st1, h1, h2, h3, h4, h5⟩ := lineLoop_setting_LF st l.1 l.2.1 l.2.2
      (settingLines ls ++ rest) hk hw hv (by omega) (by intro h; have := hfit2 h; omega)
      (by omega) hlen
    have hcall : readNextSetting st = (true, st1) := by
      simp only [readNextSetting, hend, whileLoop, hf]
      exact h1
    cases i with
    | zero =>
      simp only [afterCalls, hcall]
      exact ⟨trivial, h2.section_eq⟩
    | succ i =>
      simp only [afterCalls, hcall]
      have := ih st1 rest i (fun x hx => hall x (List.mem_cons_of_mem _ hx)) h254
        (by rw [h4, hend]) (by rw [h2.lineSize, hsz]) (by rw [h2.lineLen, h2.lineSize, hlen])
        h3 (by simpa using hi)
      rw [h2.section_eq] at this
      exact this

/-- C7 (section persistence). (1) After `begin`, as long as the calls have read only text
`pre` in which no line starts a header, `getSection()` is the empty string. (2) From any
state, calls that have read only such text leave the section buffer as it was: the
section name changes only when a line starting with `[` is read. (3) When the stream
stands at a well formed header `[s]` that fits (`|s| < maxSectionLength ≤ 254`, `s` a C
string) followed by `n ≥ 1` well formed setting lines that fit the line buffer, the call
that reads the header returns true with `getSection() = s`, and so does each of the
following `n - 1` calls. -/
theorem section_persists :
    (∀ (pre rest : List Nat) (maxLineLength maxSectionLength : Nat)
        (ignoreCase ignoreError : Bool) (lineMem sectionMem : Nat → Nat) (n : Nat),
      noHeader true pre = true →
      rest.length ≤ (afterCalls n (begin (pre ++ rest) maxLineLength maxSectionLength
        ignoreCase ignoreError lineMem sectionMem)).file.length →
      getSection (afterCalls n (begin (pre ++ rest) maxLineLength maxSectionLength
        ignoreCase ignoreError lineMem sectionMem)) = []) ∧
    (∀ (st : FileConfig) (pre rest : List Nat) (n : Nat),
      st.file = pre ++ rest → noHeader true pre = true →
      rest.length ≤ (afterCalls n st).file.length →
      (afterCalls n st).section_ = st.section_) ∧
    (∀ (st : FileConfig) (maxLineLength maxSectionLength : Nat) (s : List Nat)
        (ls : List (List Nat × List Nat × List Nat)) (rest : List Nat),
      st.atEnd = false →
      st.lineSize = maxLineLength + 1 → maxLineLength ≤ 254 → st.line.length = st.lineSize →
      st.sectionSize = maxSectionLength + 1 → maxSectionLength ≤ 254 →
      st.section_.length = st.sectionSize →
      WellFormedSection s → CString s → s.length < maxSectionLength →
      ls ≠ [] → (∀ l ∈ ls, FitsLine maxLineLength l) →
      (loopHead ([LBRACK] ++ s ++ [RBRACK, LF] ++ settingLines ls ++ rest) st).1 = true ∧
      getSection (loopHead ([LBRACK] ++ s ++ [RBRACK, LF] ++ settingLines ls ++ rest) st).2
        = s ∧
      ∀ i, i + 1 < ls.length →
        (readNextSetting (afterCalls i
          (loopHead ([LBRACK] ++ s ++ [RBRACK, LF] ++ settingLines ls ++ rest) st).2)).1
          = true ∧
        getSection (readNextSetting (afterCalls i
          (loopHead ([LBRACK] ++ s ++ [RBRACK, LF] ++ settingLines ls ++ rest) st).2)).2
          = s) := by
  refine ⟨?_, ?_, ?_⟩
  · intro pre rest mll msl ic ie lm sm n hno hlen
    have h := afterCalls_no_header n (begin (pre ++ rest) mll msl ic ie lm sm) pre rest
      (Or.inr ⟨rfl, hno⟩) hlen
    have h0 := getSection_begin (pre ++ rest) mll msl ic ie lm sm
    simp only [getSection] at h0 ⊢
    rw [h, h0]
  · intro st pre rest n hfile hno hlen
    exact afterCalls_no_header n st pre rest (Or.inr ⟨hfile, hno⟩) hlen
  · intro st mll msl s ls rest hend hlsz hl254 hline hssz hs254 hsec hs hsc hsfit hne hall
    cases ls with
    | nil => exact absurd rfl hne
    | cons l ls =>
      obtain ⟨hk, hw, hv, hfit, hfit2⟩ := hall l (List.mem_cons_self _ _)
      have hf : [LBRACK] ++ s ++ [RBRACK, LF] ++ settingLines (l :: ls) ++ rest
          = LBRACK :: (s ++ RBRACK :: LF ::
            (l.1 ++ (l.2.1 ++ EQ :: (l.2.2 ++ LF :: (settingLines ls ++ rest))))) := by
        simp [settingLines, settingLine]
      obtain ⟨st1, h1, h2, h3, h4, h5⟩ := loopHead_header_setting st s l.1 l.2.1
        l.2.2 (settingLines ls ++ rest) hend hs hk hw hv (by omega) (by omega) hsec
        (by omega) (by intro h; have := hfit2 h; omega) (by omega) hline
      rw [hf]
      have hsec1 : cstr st1.section_ 0 = s := by
        have := getSection_of_headerRead h3 hsc
        simp only [getSection] at this
        rw [h2.section_eq]; exact this
      rw [h1]
      refine ⟨rfl, hsec1, ?_⟩
      intro i hi
      have := settings_keep_section mll ls st1 rest i
        (fun x hx => hall x (List.mem_cons_of_mem _ hx)) hl254 h5
        (by rw [h2.lineSize, h3.lineSize, hlsz])
        (by rw [h2.lineLen, h3.line_eq, h2.lineSize, h3.lineSize, hline]) h4
        (by simpa using hi)
      refine ⟨this.1, ?_⟩
      simp only [getSection]
      rw [this.2, hsec1]

theorem section_persists_witness :
    getSection (afterCalls 1 (begin ([107, 61, 118, 10] ++ [91, 97, 93, 10]) 20 10 false false
      (fun _ => 7) (fun _ => 7))) = [] ∧
    (loopHead ([LBRACK] ++ [97, 98] ++ [RBRACK, LF] ++
        settingLines [([107], [], [118]), ([120], [32], [121])] ++ [91, 99, 93, 10])
      (begin [] 20 10 false false (fun _ => 7) (fun _ => 7))).1 = true ∧
    getSection (loopHead ([LBRACK] ++ [97, 98] ++ [RBRACK, LF] ++
        settingLines [([107], [], [118]), ([120], [32], [121])] ++ [91, 99, 93, 10])
      (begin [] 20 10 false false (fun _ => 7) (fun _ => 7))).2 = [97, 98] ∧
    (readNextSetting (afterCalls 0 (loopHead ([LBRACK] ++ [97, 98] ++ [RBRACK, LF] ++
        settingLines [([107], [], [118]), ([120], [32], [121])] ++ [91, 99, 93, 10])
      (begin [] 20 10 false false (fun _ => 7) (fun _ => 7))).2)).1 = true ∧
    getSection (readNextSetting (afterCalls 0 (loopHead ([LBRACK] ++ [97, 98] ++ [RBRACK, LF] ++
        settingLines [([107], [], [118]), ([120], [32], [121])] ++ [91, 99, 93, 10])
      (begin [] 20 10 false false (fun _ => 7) (fun _ => 7))).2)).2 = [97, 98] :=
  have h := section_persists.2.2 (begin [] 20 10 false false (fun _ => 7) (fun _ => 7)) 20 10
    [97, 98] [([107], [], [118]), ([120], [32], [121])] [91, 99, 93, 10] rfl rfl (by decide)
    (by simp [begin]) rfl (by decide) (by simp [begin]) (by simp [WellFormedSection])
    (by simp [CString]) (by decide) (by simp)
    (by simp [FitsLine, WellFormedKey, Blanks, WellFormedValue])
  ⟨section_persists.1 [107, 61, 118, 10] [91, 97, 93, 10] 20 10 false false (fun _ => 7)
      (fun _ => 7) 1 (by decide) (by decide),
    h.1, h.2.1, (h.2.2 0 (by decide)).1, (h.2.2 0 (by decide)).2⟩

/-! ## C3 and C6: lines that are skipped leave nothing a caller can see -/

theorem Sim.refl (a : FileConfig) (h1 : a.lineSize ≤ 256) (h2 : a.sectionSize ≤ 256) : Sim a a :=
  ⟨rfl, rfl, rfl, rfl, rfl, rfl, rfl, rfl, rfl, rfl, h1, h2⟩

theorem Sim.symm {a b : FileConfig} (h : Sim a b) : Sim b a :=
  ⟨h.atEnd.symm, h.lineLen.symm, h.lineSize.symm, h.lineLength.symm, h.valueIndex.symm,
    h.section_eq.symm, h.sectionChanged.symm, h.sectionSize.symm, h.ignoreCase.symm,
    h.ignoreError.symm, by rw [← h.lineSize]; exact h.lineSizeLe,
    by rw [← h.sectionSize]; exact h.sectionSizeLe⟩

theorem Sim.trans {a b c : FileConfig} (h : Sim a b) (g : Sim b c) : Sim a c :=
  ⟨h.atEnd.trans g.atEnd, h.lineLen.trans g.lineLen, h.lineSize.trans g.lineSize,
    h.lineLength.trans g.lineLength, h.valueIndex.trans g.valueIndex,
    h.section_eq.trans g.section_eq, h.sectionChanged.trans g.sectionChanged,
    h.sectionSize.trans g.sectionSize, h.ignoreCase.trans g.ignoreCase,
    h.ignoreError.trans g.ignoreError, h.lineSizeLe, h.sectionSizeLe⟩

theorem store_sim {a b : FileConfig} (h : Sim a b) (buf : Buffer) (i x : Nat) :
    Sim (store a buf i x) (store b buf i x) := by
  obtain ⟨h1, h2, h3, h4, h5, h6, h7, h8, h9, h10, h11, h12⟩ := h
  cases buf
  · exact ⟨h1, h2, h3, h4, h5, h6, h7, h8, h9, h10, h11, h12⟩
  · exact ⟨h1, h2, h3, h4, h5, by simp only [store]; rw [h6], h7, h8, h9, h10, h11, h12⟩
  · exact ⟨h1, by simp only [store, List.length_set]; exact h2, h3, h4, h5, h6, h7, h8, h9, h10,
      h11, h12⟩

theorem push_sim {a b : FileConfig} (h : Sim a b) (buf : Buffer) (x : Nat) :
    Sim (push a buf x) (push b buf x) := by
  have hs := store_sim h buf a.lineLength x
  obtain ⟨h1, h2, h3, h4, h5, h6, h7, h8, h9, h10, h11, h12⟩ := hs
  have hL := h.lineLength
  simp only [push]
  rw [← hL]
  exact ⟨h1, h2, h3, rfl, h5, h6, h7, h8, h9, h10, h11, h12⟩

theorem set_take_agree (l1 l2 : List Nat) (n x : Nat) (hlen : l1.length = l2.length)
    (h : l1.take n = l2.take n) : (l1.set n x).take (n + 1) = (l2.set n x).take (n + 1) := by
  by_cases hn : n < l1.length
  · rw [take_succ_set _ _ _ hn, take_succ_set _ _ _ (by omega), h]
  · have e1 : l1.take n = l1 := List.take_of_length_le (by omega)
    have e2 : l2.take n = l2 := List.take_of_length_le (by omega)
    rw [e1, e2] at h
    rw [h]

theorem take_le_agree (l1 l2 : List Nat) (m n : Nat) (hmn : m ≤ n)
    (h : l1.take n = l2.take n) : l1.take m = l2.take m := by
  have := congrArg (List.take m) h
  simpa [List.take_take, Nat.min_eq_left hmn] using this

theorem push_line_take {a b : FileConfig} (h : Sim a b)
    (ht : a.line.take a.lineLength = b.line.take a.lineLength) (x : Nat) :
    (push a .line x).line.take (push a .line x).lineLength
      = (push b .line x).line.take (push a .line x).lineLength := by
  have hL := h.lineLength
  have h1 := set_take_agree a.line b.line a.lineLength x h.lineLen ht
  have e1 : (push a .line x).line = a.line.set a.lineLength x := rfl
  have e2 : (push b .line x).line = b.line.set a.lineLength x := by
    show b.line.set b.lineLength x = _
    rw [hL]
  have e3 : (push a .line x).lineLength = (a.lineLength + 1) % 256 := rfl
  rw [e1, e2, e3]
  exact take_le_agree _ _ _ _ (Nat.mod_le _ _) h1

theorem toInt8_le (n : Nat) : toInt8 n ≤ (n : Int) := by
  unfold toInt8
  have := Nat.mod_le n 256
  split_ifs <;> omega

theorem Sim.setValueIndex {a b : FileConfig} (h : Sim a b) (v : Int) :
    Sim { a with valueIndex := v } { b with valueIndex := v } :=
  ⟨h.atEnd, h.lineLen, h.lineSize, h.lineLength, rfl, h.section_eq, h.sectionChanged,
    h.sectionSize, h.ignoreCase, h.ignoreError, h.lineSizeLe, h.sectionSizeLe⟩

theorem Sim.setAtEnd {a b : FileConfig} (h : Sim a b) (v : Bool) :
    Sim { a with atEnd := v } { b with atEnd := v } :=
  ⟨rfl, h.lineLen, h.lineSize, h.lineLength, h.valueIndex, h.section_eq, h.sectionChanged,
    h.sectionSize, h.ignoreCase, h.ignoreError, h.lineSizeLe, h.sectionSizeLe⟩

theorem push_atEnd (st : FileConfig) (buf : Buffer) (x : Nat) :
    (push st buf x).atEnd = st.atEnd := by
  cases buf <;> rfl

theorem push_valueIndex (st : FileConfig) (buf : Buffer) (x : Nat) :
    (push st buf x).valueIndex = st.valueIndex := by
  cases buf <;> rfl

theorem stepSim_overflow {a b : FileConfig} (h : Sim a b) (buf : Buffer) :
    StepSim (.ret false { store a buf a.lineLength 0 with atEnd := true })
      (.ret false { store b buf b.lineLength 0 with atEnd := true }) := by
  refine Or.inl ⟨_, _, rfl, rfl, ?_, rfl⟩
  rw [← h.lineLength]
  exact (store_sim h buf a.lineLength 0).setAtEnd true

theorem charStep_sim_first {c : Nat} {a b : FileConfig} {loc : Locals}
    (h : SimAt a b loc) (hr : loc.readStep = .FirstANChar) :
    StepSim (charStep c a loc) (charStep c b loc) := by
  have hne : ∀ r, r ≠ ReadStep.FirstANChar → ({ loc with readStep := r } : Locals).readStep
      ≠ .FirstANChar := fun r hr => hr
  unfold charStep
  simp only [hr, reduceCtorEq, or_self, if_false, if_true]
  split_ifs with h1 h2 h3 h4
  · exact Or.inr ⟨_, _, _, rfl, rfl, ⟨h.sim, h.notEnd, by simp, by simp, by simp, by simp, h.bsz⟩⟩
  · exact Or.inr ⟨_, _, _, rfl, rfl, h⟩
  · exact Or.inr ⟨_, _, _, rfl, rfl,
      ⟨h.sim, h.notEnd, by simp, by simp, fun _ => h.first hr, by simp, h.bsz⟩⟩
  · rw [← h.sim.sectionSize]
    exact Or.inr ⟨_, _, _, rfl, rfl, ⟨push_sim h.sim _ _, by rw [push_atEnd]; exact h.notEnd,
      by simp, by simp, by simp, by simp, h.sim.sectionSizeLe⟩⟩
  · rw [← h.sim.lineSize]
    have h0 := h.first hr
    exact Or.inr ⟨_, _, _, rfl, rfl, ⟨push_sim h.sim _ _, by rw [push_atEnd]; exact h.notEnd,
      by simp, fun _ => push_line_take h.sim (by rw [h0]; simp) c, by simp, by simp,
      h.sim.lineSizeLe⟩⟩

theorem charStep_sim_skip {c : Nat} {a b : FileConfig} {loc : Locals}
    (h : SimAt a b loc)
    (hr : loc.readStep = .Comment ∨ loc.readStep = .BadFormat ∨ loc.readStep = .SectionEnd) :
    StepSim (charStep c a loc) (charStep c b loc) := by
  unfold charStep
  rcases hr with hr | hr | hr
  · simp only [hr, reduceCtorEq, or_self, if_false]
    exact Or.inr ⟨_, _, _, rfl, rfl, h⟩
  · simp only [hr, reduceCtorEq, or_self, if_false]
    exact Or.inr ⟨_, _, _, rfl, rfl, h⟩
  · simp only [hr, reduceCtorEq, or_self, if_false, if_true, ReadStep.toNat]
    rw [if_pos (by decide)]
    exact Or.inr ⟨_, _, _, rfl, rfl, ⟨h.sim, h.notEnd, by simp, by simp, by simp, by simp, h.bsz⟩⟩

theorem charStep_sim_section {c : Nat} {a b : FileConfig} {loc : Locals}
    (h : SimAt a b loc) (hr : loc.readStep = .SectionName) :
    StepSim (charStep c a loc) (charStep c b loc) := by
  have hcond : ((b.lineLength : Int) ≥ (loc.bufferSize : Int) - 1)
      ↔ ((a.lineLength : Int) ≥ (loc.bufferSize : Int) - 1) := by rw [h.sim.lineLength]
  unfold charStep
  simp only [hr, reduceCtorEq, or_true, true_or, if_true, if_false, true_and, hcond]
  split_ifs with h1 h2
  · exact stepSim_overflow h.sim _
  · exact Or.inr ⟨_, _, _, rfl, rfl, ⟨push_sim h.sim _ _, by rw [push_atEnd]; exact h.notEnd,
      by simp, by simp, by simp, by simp, h.bsz⟩⟩
  · exact Or.inr ⟨_, _, _, rfl, rfl, ⟨push_sim h.sim _ _, by rw [push_atEnd]; exact h.notEnd,
      by simp [hr], by simp [hr], by simp [hr], by simp [hr], h.bsz⟩⟩

theorem push_lineLength_of_room (st : FileConfig) (buf : Buffer) (x n : Nat)
    (h : ¬ ((st.lineLength : Int) ≥ (n : Int) - 1)) (hn : n ≤ 256) :
    (push st buf x).lineLength = st.lineLength + 1 :=
  push_lineLength _ _ _ (by omega)

theorem charStep_sim_value {c : Nat} {a b : FileConfig} {loc : Locals}
    (h : SimAt a b loc) (hr : loc.readStep = .Value) :
    StepSim (charStep c a loc) (charStep c b loc) := by
  have hcond : ((b.lineLength : Int) ≥ (loc.bufferSize : Int) - 1)
      ↔ ((a.lineLength : Int) ≥ (loc.bufferSize : Int) - 1) := by rw [h.sim.lineLength]
  have hbuf : loc.buffer = .line := h.keyOK (Or.inr (Or.inr hr))
  unfold charStep
  simp only [hr, reduceCtorEq, or_true, if_true, if_false, false_and, hcond]
  split_ifs with h1
  · exact stepSim_overflow h.sim _
  · refine Or.inr ⟨_, _, _, rfl, rfl, ⟨push_sim h.sim _ _, by rw [push_atEnd]; exact h.notEnd,
      fun _ => hbuf, fun _ => ?_, by simp [hr], fun _ => ?_, h.bsz⟩⟩
    · rw [hbuf]
      exact push_line_take h.sim (h.take (Or.inr (Or.inr hr))) c
    · rw [push_valueIndex, push_lineLength_of_room _ _ _ _ h1 h.bsz]
      have := h.valOK hr
      push_cast
      omega

theorem charStep_sim_equal {c : Nat} {a b : FileConfig} {loc : Locals}
    (h : SimAt a b loc) (hr : loc.readStep = .Equal) :
    StepSim (charStep c a loc) (charStep c b loc) := by
  have hcond : ((b.lineLength : Int) ≥ (loc.bufferSize : Int) - 1)
      ↔ ((a.lineLength : Int) ≥ (loc.bufferSize : Int) - 1) := by rw [h.sim.lineLength]
  have e8 : toInt8 b.lineLength = toInt8 a.lineLength := by rw [h.sim.lineLength]
  have hbuf : loc.buffer = .line := h.keyOK (Or.inr (Or.inl hr))
  unfold charStep
  simp only [hr, reduceCtorEq, or_true, true_or, if_true, if_false, false_and, hcond]
  split_ifs with h1 h2 h3
  · exact stepSim_overflow h.sim _
  · rw [e8]
    exact Or.inr ⟨_, _, _, rfl, rfl, ⟨h.sim.setValueIndex _, h.notEnd, fun _ => hbuf,
      fun _ => h.take (Or.inr (Or.inl hr)), by simp, fun _ => toInt8_le _, h.bsz⟩⟩
  · exact Or.inr ⟨_, _, _, rfl, rfl, ⟨h.sim, h.notEnd, by simp, by simp, by simp, by simp, h.bsz⟩⟩
  · exact Or.inr ⟨_, _, _, rfl, rfl, h⟩

theorem charStep_sim_key {c : Nat} {a b : FileConfig} {loc : Locals}
    (h : SimAt a b loc) (hr : loc.readStep = .KeyName) :
    StepSim (charStep c a loc) (charStep c b loc) := by
  have hcond : ((b.lineLength : Int) ≥ (loc.bufferSize : Int) - 1)
      ↔ ((a.lineLength : Int) ≥ (loc.bufferSize : Int) - 1) := by rw [h.sim.lineLength]
  have hbuf : loc.buffer = .line := h.keyOK (Or.inl hr)
  have htake := h.take (Or.inl hr)
  have e8 : toInt8 (push b .line 0).lineLength = toInt8 (push a .line 0).lineLength := by
    rw [(push_sim h.sim .line 0).lineLength]
  unfold charStep
  simp only [hr, reduceCtorEq, or_true, true_or, if_true, if_false, false_and, hcond]
  rw [hbuf]
  split_ifs with h1 h2 h3
  · exact stepSim_overflow h.sim _
  · exact Or.inr ⟨_, _, _, rfl, rfl, ⟨push_sim h.sim _ _, by rw [push_atEnd]; exact h.notEnd,
      fun _ => rfl, fun _ => push_line_take h.sim htake 0, by simp, by simp, h.bsz⟩⟩
  · rw [e8]
    exact Or.inr ⟨_, _, _, rfl, rfl, ⟨(push_sim h.sim _ _).setValueIndex _,
      by show (push a .line 0).atEnd = false; rw [push_atEnd]; exact h.notEnd,
      fun _ => rfl, fun _ => push_line_take h.sim htake 0, by simp, fun _ => toInt8_le _,
      h.bsz⟩⟩
  · exact Or.inr ⟨_, _, _, rfl, rfl, ⟨push_sim h.sim _ _, by rw [push_atEnd]; exact h.notEnd,
      fun _ => hbuf, fun _ => push_line_take h.sim htake c, by simp [hr], by simp [hr], h.bsz⟩⟩

theorem charStep_sim (c : Nat) {a b : FileConfig} {loc : Locals} (h : SimAt a b loc) :
    StepSim (charStep c a loc) (charStep c b loc) := by
  cases hr : loc.readStep
  · exact charStep_sim_first h hr
  · exact charStep_sim_skip h (Or.inl hr)
  · exact charStep_sim_section h hr
  · exact charStep_sim_skip h (Or.inr (Or.inr hr))
  · exact charStep_sim_key h hr
  · exact charStep_sim_equal h hr
  · exact charStep_sim_value h hr
  · exact charStep_sim_skip h (Or.inr (Or.inl hr))

theorem takeWhile_append_zero (X R1 R2 : List Nat) :
    (X ++ 0 :: R1).takeWhile (fun c => c != 0) = (X ++ 0 :: R2).takeWhile (fun c => c != 0) := by
  induction X with
  | nil => simp [List.takeWhile]
  | cons x X ih =>
    rw [List.cons_append, List.cons_append, List.takeWhile_cons, List.takeWhile_cons, ih]

theorem cstr_set_agree (l1 l2 : List Nat) (L i : Nat) (hlen : l1.length = l2.length)
    (ht : l1.take L = l2.take L) (hi : i ≤ L) :
    cstr (l1.set L 0) i = cstr (l2.set L 0) i := by
  by_cases hL : L < l1.length
  · have e1 : l1.set L 0 = l1.take L ++ 0 :: l1.drop (L + 1) := by
      rw [List.set_eq_take_append_cons_drop, if_pos hL]
    have e2 : l2.set L 0 = l2.take L ++ 0 :: l2.drop (L + 1) := by
      rw [List.set_eq_take_append_cons_drop, if_pos (by omega)]
    have hl : (l2.take L).length = L := by rw [List.length_take]; omega
    rw [e1, e2, ht]
    unfold cstr
    rw [List.drop_append_of_le_length (by omega), List.drop_append_of_le_length (by omega)]
    exact takeWhile_append_zero _ _ _
  · have e1 : l1.take L = l1 := List.take_of_length_le (by omega)
    have e2 : l2.take L = l2 := List.take_of_length_le (by omega)
    rw [e1, e2] at ht
    rw [ht]

theorem getValue_false_fst (st : FileConfig) :
    (getValue st false).1
      = if (st.lineLength : Int) ≤ 0 ∨ st.valueIndex ≤ 1 then none
        else some (cstr st.line st.valueIndex.toNat) := by
  unfold getValue
  split_ifs <;> simp_all

theorem record_agree {a b : FileConfig} (h : Sim a b)
    (ht : a.line.take a.lineLength = b.line.take a.lineLength)
    (hv : a.valueIndex ≤ (a.lineLength : Int)) :
    record (store a .line a.lineLength 0) = record (store b .line b.lineLength 0) := by
  have hL := h.lineLength
  have hS := store_sim h .line a.lineLength 0
  rw [← hL]
  have e1 : (store a .line a.lineLength 0).line = a.line.set a.lineLength 0 := rfl
  have e2 : (store b .line a.lineLength 0).line = b.line.set a.lineLength 0 := rfl
  have c0 := cstr_set_agree a.line b.line a.lineLength 0 h.lineLen ht (Nat.zero_le _)
  have cv := cstr_set_agree a.line b.line a.lineLength a.valueIndex.toNat h.lineLen ht
    (by omega)
  have f1 : (store a .line a.lineLength 0).lineLength = a.lineLength := rfl
  have f2 : (store b .line a.lineLength 0).lineLength = b.lineLength := rfl
  have f3 : (store a .line a.lineLength 0).valueIndex = a.valueIndex := rfl
  have f4 : (store b .line a.lineLength 0).valueIndex = b.valueIndex := rfl
  have f5 : (store a .line a.lineLength 0).section_ = a.section_ := rfl
  have f6 : (store b .line a.lineLength 0).section_ = b.section_ := rfl
  simp only [record, getSection, getName, getValue_false_fst, e1, e2, f1, f2, f3, f4, f5, f6,
    ← hL, ← h.valueIndex, ← h.section_eq, c0, cv]

theorem switchSim_bad {a b : FileConfig} (h : Sim a b) :
    SwitchSim a.atEnd
      (if (!a.ignoreError) = true then .ret false { a with atEnd := true } else .done false a)
      (if (!b.ignoreError) = true then .ret false { b with atEnd := true } else .done false b) := by
  have hc : ((!b.ignoreError) = true) ↔ ((!a.ignoreError) = true) := by rw [h.ignoreError]
  by_cases hi : (!a.ignoreError) = true
  · rw [if_pos hi, if_pos (hc.mpr hi)]
    exact Or.inl ⟨_, _, rfl, rfl, h.setAtEnd true, rfl⟩
  · rw [if_neg hi, if_neg (fun x => hi (hc.mp x))]
    exact Or.inr ⟨false, _, _, rfl, rfl, h, rfl, by simp⟩

theorem lineSwitch_sim {a b : FileConfig} {loc : Locals} (h : Sim a b)
    (hk : loc.readStep = .Value → loc.buffer = .line)
    (ht : loc.readStep = .Value → a.line.take a.lineLength = b.line.take a.lineLength)
    (hv : loc.readStep = .Value → a.valueIndex ≤ (a.lineLength : Int)) :
    SwitchSim a.atEnd (lineSwitch a loc) (lineSwitch b loc) := by
  unfold lineSwitch
  cases hr : loc.readStep
  case Value =>
    simp only
    rw [hk hr]
    exact Or.inr ⟨true, _, _, rfl, rfl, by rw [← h.lineLength]; exact store_sim h _ _ _, rfl,
      fun _ => record_agree h (ht hr) (hv hr)⟩
  case SectionEnd =>
    simp only
    refine Or.inr ⟨false, _, _, rfl, rfl, ?_, ?_, by simp⟩
    · rw [← h.lineLength]
      have := store_sim h loc.buffer a.lineLength 0
      exact ⟨this.atEnd, this.lineLen, this.lineSize, this.lineLength, this.valueIndex,
        this.section_eq, rfl, this.sectionSize, this.ignoreCase, this.ignoreError,
        this.lineSizeLe, this.sectionSizeLe⟩
    · cases loc.buffer <;> rfl
  case FirstANChar => exact Or.inr ⟨false, _, _, rfl, rfl, h, rfl, by simp⟩
  case Comment => exact Or.inr ⟨false, _, _, rfl, rfl, h, rfl, by simp⟩
  case Equal => exact switchSim_bad h
  case BadFormat => exact switchSim_bad h
  case SectionName => exact switchSim_bad h
  case KeyName => exact switchSim_bad h

theorem Sim.setLineCounter {a b : FileConfig} (h : Sim a b) (v w : Nat) :
    Sim { a with lineCounter := v } { b with lineCounter := w } :=
  ⟨h.atEnd, h.lineLen, h.lineSize, h.lineLength, h.valueIndex, h.section_eq, h.sectionChanged,
    h.sectionSize, h.ignoreCase, h.ignoreError, h.lineSizeLe, h.sectionSizeLe⟩

theorem Sim.setFile {a b : FileConfig} (h : Sim a b) (v w : List Nat) :
    Sim { a with file := v } { b with file := w } :=
  ⟨h.atEnd, h.lineLen, h.lineSize, h.lineLength, h.valueIndex, h.section_eq, h.sectionChanged,
    h.sectionSize, h.ignoreCase, h.ignoreError, h.lineSizeLe, h.sectionSizeLe⟩

theorem record_congr {a b : FileConfig} (h1 : a.section_ = b.section_) (h2 : a.line = b.line)
    (h3 : a.lineLength = b.lineLength) (h4 : a.valueIndex = b.valueIndex) :
    record a = record b := by
  simp only [record, getSection, getName, getValue_false_fst, h1, h2, h3, h4]

theorem record_setFile (a : FileConfig) (f : List Nat) :
    record { a with file := f } = record a :=
  record_congr rfl rfl rfl rfl

theorem Sim.resetLine {a b : FileConfig} (h : Sim a b) : Sim (resetLine a) (resetLine b) :=
  ⟨h.atEnd, h.lineLen, h.lineSize, rfl, rfl, h.section_eq, rfl,
    h.sectionSize, h.ignoreCase, h.ignoreError, h.lineSizeLe, h.sectionSizeLe⟩

theorem simAt_reset {a b : FileConfig} (h : Sim a b) (hend : a.atEnd = false) :
    SimAt (resetLine a) (resetLine b) initLocals :=
  ⟨h.resetLine, hend, by simp [initLocals], by simp [initLocals], fun _ => rfl,
    by simp [initLocals], by simp [initLocals]⟩

theorem lineLoop_sim_step (P : Bool × FileConfig → Bool × FileConfig → Prop) (c : Nat)
    (r1 r2 : List Nat) {a b : FileConfig} {loc : Locals} (h : SimAt a b loc)
    (Hret : ∀ (bret : Bool) (a1 b1 : FileConfig), Sim a1 b1 →
      (bret = true → record a1 = record b1) →
      P (bret, { a1 with file := r1 }) (bret, { b1 with file := r2 }))
    (Hhead : ∀ (a1 b1 : FileConfig), Sim a1 b1 → a1.atEnd = false →
      P (lineLoop r1 (resetLine a1) initLocals) (lineLoop r2 (resetLine b1) initLocals))
    (Hmid : c ≠ CR → c ≠ LF → ∀ (a1 b1 : FileConfig) (loc1 : Locals), SimAt a1 b1 loc1 →
      P (lineLoop r1 a1 loc1) (lineLoop r2 b1 loc1)) :
    P (lineLoop (c :: r1) a loc) (lineLoop (c :: r2) b loc) := by
  have hsw : ∀ (a0 b0 : FileConfig), Sim a0 b0 → a0.atEnd = false → a0.line = a.line →
      b0.line = b.line → a0.lineLength = a.lineLength → a0.valueIndex = a.valueIndex →
      P (match lineSwitch a0 loc with
          | .ret bb st1 => (bb, { st1 with file := r1 })
          | .done sf st1 =>
              if st1.atEnd || sf then (sf, { st1 with file := r1 })
              else lineLoop r1 (resetLine st1) initLocals)
        (match lineSwitch b0 loc with
          | .ret bb st1 => (bb, { st1 with file := r2 })
          | .done sf st1 =>
              if st1.atEnd || sf then (sf, { st1 with file := r2 })
              else lineLoop r2 (resetLine st1) initLocals) := by
    intro a0 b0 hs0 he0 el1 el2 eL eV
    have hk : loc.readStep = .Value → loc.buffer = .line := fun hr => h.keyOK (Or.inr (Or.inr hr))
    rcases lineSwitch_sim hs0 hk
      (fun hr => by rw [el1, el2, eL]; exact h.take (Or.inr (Or.inr hr)))
      (fun hr => by rw [eL, eV]; exact h.valOK hr) with
      ⟨a1, b1, e1, e2, hs, _⟩ | ⟨sf, a1, b1, e1, e2, hs, hae, hrec⟩
    · rw [e1, e2]
      exact Hret false a1 b1 hs (by simp)
    · rw [e1, e2]
      simp only
      have hbe : b1.atEnd = false := by rw [← hs.atEnd, hae, he0]
      have c1 : (a1.atEnd || sf) = sf := by rw [hae, he0]; simp
      have c2 : (b1.atEnd || sf) = sf := by rw [hbe]; simp
      rw [c1, c2]
      cases sf
      · simp only [Bool.false_eq_true, if_false]
        exact Hhead a1 b1 hs (by rw [hae, he0])
      · simp only [if_true]
        exact Hret true a1 b1 hs hrec
  rw [lineLoop, lineLoop]
  by_cases hcr : c = CR
  · rw [if_pos hcr, if_pos hcr]
    exact hsw a b h.sim h.notEnd rfl rfl rfl rfl
  · rw [if_neg hcr, if_neg hcr]
    by_cases hlf : c = LF
    · rw [if_pos hlf, if_pos hlf]
      exact hsw _ _ (h.sim.setLineCounter _ _) h.notEnd rfl rfl rfl rfl
    · rw [if_neg hlf, if_neg hlf]
      rcases charStep_sim c h with ⟨a1, b1, e1, e2, hs, _⟩ | ⟨a1, b1, loc1, e1, e2, hs⟩
      · rw [e1, e2]
        exact Hret false a1 b1 hs (by simp)
      · rw [e1, e2]
        exact Hmid hcr hlf a1 b1 loc1 hs

theorem lineLoop_sim (f : List Nat) :
    ∀ (a b : FileConfig) (loc : Locals), SimAt a b loc →
      SameResult (lineLoop f a loc) (lineLoop f b loc) ∧
      (lineLoop f a loc).2.file = (lineLoop f b loc).2.file := by
  induction f with
  | nil =>
    intro a b loc h
    rw [lineLoop, lineLoop]
    rcases lineSwitch_sim (a := { a with atEnd := true }) (b := { b with atEnd := true })
      (h.sim.setAtEnd true) (fun hr => h.keyOK (Or.inr (Or.inr hr)))
      (fun hr => h.take (Or.inr (Or.inr hr))) (fun hr => h.valOK hr) with
      ⟨a1, b1, e1, e2, hs, _⟩ | ⟨sf, a1, b1, e1, e2, hs, hae, hrec⟩
    · rw [e1, e2]
      exact ⟨⟨rfl, hs.setFile _ _, fun hb => absurd hb (by simp)⟩, rfl⟩
    · rw [e1, e2]
      refine ⟨⟨rfl, hs.setFile _ _, fun hb => ?_⟩, rfl⟩
      show record { a1 with file := [] } = record { b1 with file := [] }
      rw [record_setFile a1, record_setFile b1]
      exact hrec hb
  | cons c rest ih =>
    intro a b loc h
    exact lineLoop_sim_step
      (fun r1 r2 => SameResult r1 r2 ∧ r1.2.file = r2.2.file) c rest rest h
      (fun bret a1 b1 hs hrec => ⟨⟨rfl, hs.setFile _ _, fun hb => by
        show record { a1 with file := rest } = record { b1 with file := rest }
        rw [record_setFile a1, record_setFile b1]
        exact hrec hb⟩, rfl⟩)
      (fun a1 b1 hs he => ih _ _ _ (simAt_reset hs he))
      (fun _ _ a1 b1 loc1 hs => ih _ _ _ hs)

theorem readNextSetting_sim {a b : FileConfig} (h : Sim a b) (hf : a.file = b.file) :
    SameResult (readNextSetting a) (readNextSetting b) ∧
    (readNextSetting a).2.file = (readNextSetting b).2.file := by
  by_cases hend : a.atEnd = true
  · rw [readNextSetting_of_atEnd a hend, readNextSetting_of_atEnd b (by rw [← h.atEnd]; exact hend)]
    exact ⟨⟨rfl, h, fun hb => absurd hb (by simp)⟩, hf⟩
  · have hend1 : a.atEnd = false := by simpa using hend
    rw [readNextSetting_eq_loopHead a hend1,
      readNextSetting_eq_loopHead b (by rw [← h.atEnd]; exact hend1), hf]
    exact lineLoop_sim _ _ _ _ (simAt_reset h hend1)

theorem trace_sim (n : Nat) :
    ∀ (a b : FileConfig), Sim a b → a.file = b.file → trace n a = trace n b := by
  induction n with
  | zero => intro a b _ _; rfl
  | succ n ih =>
    intro a b h hf
    obtain ⟨⟨h1, h2, h3⟩, h4⟩ := readNextSetting_sim h hf
    simp only [trace]
    rw [ih _ _ h2 h4, ← h1]
    cases hr : (readNextSetting a).1
    · simp
    · simp [h3 hr]

theorem lineLoop_comment_body (body : List Nat) :
    ∀ (t : List Nat) (st : FileConfig) (loc : Locals), loc.readStep = .Comment →
      body.all (fun x => decide (x ≠ CR ∧ x ≠ LF)) = true → st.atEnd = false →
      lineLoop (body ++ LF :: t) st loc
        = lineLoop t (resetLine { st with lineCounter := (st.lineCounter + 1) % 65536 })
            initLocals := by
  induction body with
  | nil =>
    intro t st loc hr _ hend
    rw [List.nil_append, lineLoop]
    simp [lineSwitch, hr, hend]
  | cons x body ih =>
    intro t st loc hr hall hend
    simp only [List.all_cons, Bool.and_eq_true, decide_eq_true_eq] at hall
    obtain ⟨⟨h1, h2⟩, h3⟩ := hall
    rw [List.cons_append, lineLoop]
    simp only [h1, h2, if_false]
    have hstep : charStep x st loc = .next st loc := by
      simp [charStep, hr]
    rw [hstep]
    exact ih t st loc hr h3 hend

theorem lineLoop_comment_or_blank (c : List Nat) :
    ∀ (t : List Nat) (st : FileConfig), isCommentOrBlank c = true → st.atEnd = false →
      lineLoop (c ++ LF :: t) st initLocals
        = lineLoop t (resetLine { st with lineCounter := (st.lineCounter + 1) % 65536 })
            initLocals := by
  induction c with
  | nil =>
    intro t st _ hend
    rw [List.nil_append, lineLoop]
    simp [lineSwitch, initLocals, hend]
  | cons x c ih =>
    intro t st hc hend
    unfold isCommentOrBlank at hc
    rw [List.cons_append, lineLoop]
    by_cases hb : x = SP ∨ x = TAB
    · rw [if_pos hb] at hc
      have h1 : x ≠ CR := by rcases hb with h | h <;> simp [h]
      have h2 : x ≠ LF := by rcases hb with h | h <;> simp [h]
      simp only [h1, h2, if_false]
      rw [charStep_first_blank st rfl hb]
      exact ih t st hc hend
    · rw [if_neg hb] at hc
      simp only [Bool.and_eq_true, decide_eq_true_eq] at hc
      obtain ⟨hx, hall⟩ := hc
      subst hx
      simp only [show HASH ≠ CR by decide, show HASH ≠ LF by decide, if_false]
      have hstep : charStep HASH st initLocals
          = .next st { initLocals with readStep := .Comment } := by
        simp [charStep, initLocals]
      rw [hstep]
      exact lineLoop_comment_body c t st _ rfl (by simpa using hall) hend

theorem endsLine_tail (x : Nat) (q : List Nat) (h : endsLine (x :: q) = true) :
    endsLine q = true := by
  cases q with
  | nil => rfl
  | cons y r => simpa [endsLine] using h

theorem endsLine_ne_nil (x : Nat) (q : List Nat) (h : endsLine (x :: q) = true)
    (h1 : x ≠ CR) (h2 : x ≠ LF) : q ≠ [] := by
  intro hq
  subst hq
  simp [endsLine, h1, h2] at h

theorem lineLoop_insert (c t : List Nat) (hc : isCommentOrBlank c = true) (q : List Nat) :
    ∀ (a b : FileConfig) (loc : Locals), endsLine q = true → SimAt a b loc →
      (q = [] → loc = initLocals ∧ resetLine a = a ∧ resetLine b = b) →
      SameResult (lineLoop (q ++ (c ++ LF :: t)) a loc) (lineLoop (q ++ t) b loc) ∧
      FileRel c t (lineLoop (q ++ (c ++ LF :: t)) a loc).2.file
        (lineLoop (q ++ t) b loc).2.file := by
  induction q with
  | nil =>
    intro a b loc _ h hq
    obtain ⟨hloc, ha, hb⟩ := hq rfl
    subst hloc
    rw [List.nil_append, List.nil_append, lineLoop_comment_or_blank c t a hc h.notEnd, ← hb]
    have hs : Sim { a with lineCounter := (a.lineCounter + 1) % 65536 } b :=
      h.sim.setLineCounter _ b.lineCounter
    obtain ⟨h1, h2⟩ := lineLoop_sim t _ _ _ (simAt_reset hs h.notEnd)
    exact ⟨h1, Or.inl h2⟩
  | cons x q ih =>
    intro a b loc hq h _
    have hq1 := endsLine_tail x q hq
    rw [List.cons_append, List.cons_append]
    exact lineLoop_sim_step
      (fun r1 r2 => SameResult r1 r2 ∧ FileRel c t r1.2.file r2.2.file) x
      (q ++ (c ++ LF :: t)) (q ++ t) h
      (fun bret a1 b1 hs hrec => ⟨⟨rfl, hs.setFile _ _, fun hb => by
        show record { a1 with file := q ++ (c ++ LF :: t) } = record { b1 with file := q ++ t }
        rw [record_setFile a1, record_setFile b1]
        exact hrec hb⟩, Or.inr ⟨q, hq1, rfl, rfl⟩⟩)
      (fun a1 b1 hs he => ih _ _ _ hq1 (simAt_reset hs he) (fun _ => ⟨rfl, rfl, rfl⟩))
      (fun h1 h2 a1 b1 loc1 hs => ih _ _ _ hq1 hs
        (fun hnil => absurd hnil (endsLine_ne_nil x q hq h1 h2)))

theorem readNextSetting_insert (c t : List Nat) (hc : isCommentOrBlank c = true)
    {a b : FileConfig} (h : Sim a b) (hf : FileRel c t a.file b.file) :
    SameResult (readNextSetting a) (readNextSetting b) ∧
    FileRel c t (readNextSetting a).2.file (readNextSetting b).2.file := by
  by_cases hend : a.atEnd = true
  · rw [readNextSetting_of_atEnd a hend, readNextSetting_of_atEnd b (by rw [← h.atEnd]; exact hend)]
    exact ⟨⟨rfl, h, fun hb => absurd hb (by simp)⟩, hf⟩
  · have hend1 : a.atEnd = false := by simpa using hend
    rw [readNextSetting_eq_loopHead a hend1,
      readNextSetting_eq_loopHead b (by rw [← h.atEnd]; exact hend1)]
    rcases hf with hf | ⟨q, hq, h1, h2⟩
    · rw [hf]
      obtain ⟨r1, r2⟩ := lineLoop_sim b.file _ _ _ (simAt_reset h hend1)
      exact ⟨r1, Or.inl r2⟩
    · rw [h1, h2]
      exact lineLoop_insert c t hc q _ _ _ hq (simAt_reset h hend1) (fun _ => ⟨rfl, rfl, rfl⟩)

theorem trace_insert (c t : List Nat) (hc : isCommentOrBlank c = true) (n : Nat) :
    ∀ (a b : FileConfig), Sim a b → FileRel c t a.file b.file → trace n a = trace n b := by
  induction n with
  | zero => intro a b _ _; rfl
  | succ n ih =>
    intro a b h hf
    obtain ⟨⟨h1, h2, h3⟩, h4⟩ := readNextSetting_insert c t hc h hf
    simp only [trace]
    rw [ih _ _ h2 h4, ← h1]
    cases hr : (readNextSetting a).1
    · simp
    · simp [h3 hr]

theorem begin_sim (f1 f2 : List Nat) (mll msl : Nat) (ic ie : Bool) (lm sm : Nat → Nat) :
    Sim (begin f1 mll msl ic ie lm sm) (begin f2 mll msl ic ie lm sm) :=
  ⟨rfl, rfl, rfl, rfl, rfl, rfl, rfl, rfl, rfl, rfl,
    Nat.le_of_lt (Nat.mod_lt _ (by decide)), Nat.le_of_lt (Nat.mod_lt _ (by decide))⟩

/-- C6: comment lines and blank lines are transparent. For a stream split at a line
boundary as `p ++ t` (`p` empty or ending with CR or LF) and a line `c` without CR or LF
that is blank (only spaces and tabs, possibly none) or whose first non-blank character is
`#` (of any length), the first `n` calls on `p ++ c ++ "\n" ++ t` return the same booleans
and, where true, the same (section, name, raw value) records as on `p ++ t`, for every `n`
and every configuration. And whenever the outer loop is at its head with `c ++ "\n" ++ t`
unread, it goes on exactly as with `t` unread and the line counter one higher: the line
yields no record and changes neither buffer. -/
theorem comment_and_blank_lines_are_transparent (p c t : List Nat)
    (maxLineLength maxSectionLength : Nat) (ignoreCase ignoreError : Bool)
    (lineMem sectionMem : Nat → Nat) (n : Nat)
    (hp : endsLine p = true) (hc : isCommentOrBlank c = true) :
    trace n (begin (p ++ c ++ [LF] ++ t) maxLineLength maxSectionLength ignoreCase ignoreError
        lineMem sectionMem)
      = trace n (begin (p ++ t) maxLineLength maxSectionLength ignoreCase ignoreError
        lineMem sectionMem) ∧
    ∀ (st : FileConfig), st.atEnd = false →
      loopHead (c ++ [LF] ++ t) st
        = loopHead t { st with lineCounter := (st.lineCounter + 1) % 65536 } := by
  refine ⟨?_, ?_⟩
  · apply trace_insert c t hc n _ _ (begin_sim _ _ _ _ _ _ _ _)
    exact Or.inr ⟨p, hp, by simp [begin], rfl⟩
  · intro st hend
    have e : c ++ [LF] ++ t = c ++ LF :: t := by simp
    rw [e, loopHead, loopHead, lineLoop_comment_or_blank c t (resetLine st) hc hend]
    rfl

theorem comment_and_blank_lines_are_transparent_witness :
    trace 3 (begin ([107, 61, 118, 10] ++ [32, 35, 32, 120, 61, 49] ++ [LF] ++ [97, 61, 98, 10])
        4 10 false false (fun _ => 0) (fun _ => 0))
      = trace 3 (begin ([107, 61, 118, 10] ++ [97, 61, 98, 10]) 4 10 false false
        (fun _ => 0) (fun _ => 0)) ∧
    ∀ (st : FileConfig), st.atEnd = false →
      loopHead ([32, 35, 32, 120, 61, 49] ++ [LF] ++ [97, 61, 98, 10]) st
        = loopHead [97, 61, 98, 10] { st with lineCounter := (st.lineCounter + 1) % 65536 } :=
  comment_and_blank_lines_are_transparent [107, 61, 118, 10] [32, 35, 32, 120, 61, 49]
    [97, 61, 98, 10] 4 10 false false (fun _ => 0) (fun _ => 0) 3 (by decide) (by decide)

/-! ## C3: a key line without `=` when errors are tolerated -/

theorem trace_of_atEnd (n : Nat) (st : FileConfig) (h : st.atEnd = true) :
    trace n st = List.replicate n (false, none) := by
  induction n with
  | zero => rfl
  | succ n ih =>
    simp only [trace, readNextSetting_of_atEnd st h, ih, List.replicate]
    simp

theorem trace_of_false (n : Nat) (st : FileConfig) (h : (readNextSetting st).1 = false) :
    trace n st = List.replicate n (false, none) := by
  cases n with
  | zero => rfl
  | succ n =>
    simp only [trace, h, trace_of_atEnd n _ (readNextSetting_false_atEnd st h), List.replicate]
    simp

theorem lineSwitch_lineSize {st st1 : FileConfig} {loc : Locals} {sf : Bool}
    (h : lineSwitch st loc = .done sf st1) :
    st1.lineSize = st.lineSize ∧ (sf = true → loc.readStep = .Value) := by
  unfold lineSwitch at h
  cases hr : loc.readStep <;> cases hi : st.ignoreError <;> cases hb : loc.buffer <;>
    simp [hr, hi, hb, store] at h <;> simp [← h.1, ← h.2]

theorem charStep_next_zero {c : Nat} {st st1 : FileConfig} {loc loc1 : Locals}
    (h : charStep c st loc = .next st1 loc1) (hz : st.lineSize = 0)
    (h1 : loc.readStep ≠ .Equal) (h2 : loc.readStep ≠ .Value)
    (h3 : loc.readStep = .KeyName → loc.bufferSize = 0) :
    st1.lineSize = 0 ∧ loc1.readStep ≠ .Equal ∧ loc1.readStep ≠ .Value ∧
    (loc1.readStep = .KeyName → loc1.bufferSize = 0) := by
  have hp : ∀ (buf : Buffer) (x : Nat), (push st buf x).lineSize = st.lineSize := by
    intro buf x; cases buf <;> rfl
  unfold charStep at h
  by_cases hk : loc.readStep = .KeyName
  · have hb := h3 hk
    have hov : (st.lineLength : Int) ≥ (loc.bufferSize : Int) - 1 := by rw [hb]; omega
    rw [if_pos (Or.inl hk), if_pos hov] at h
    simp at h
  · split_ifs at h with g1 g2 g3 g4 g5 g6 g7 g8 g9 g10 g11 g12 g13 g14 <;>
      simp only [CharResult.next.injEq] at h <;> obtain ⟨rfl, rfl⟩ := h <;>
      simp_all

theorem lineLoop_zero_lineSize (f : List Nat) :
    ∀ (st : FileConfig) (loc : Locals), st.lineSize = 0 →
      loc.readStep ≠ .Equal → loc.readStep ≠ .Value →
      (loc.readStep = .KeyName → loc.bufferSize = 0) →
      (lineLoop f st loc).1 = false := by
  induction f with
  | nil =>
    intro st loc hz h1 h2 h3
    rw [lineLoop]
    cases hs : lineSwitch { st with atEnd := true } loc with
    | ret b st1 => exact (lineSwitch_ret hs).1
    | done sf st1 =>
      have := (lineSwitch_lineSize hs).2
      cases sf
      · rfl
      · exact absurd (this rfl) h2
  | cons c rest ih =>
    intro st loc hz h1 h2 h3
    have hsw : ∀ (st0 : FileConfig), st0.lineSize = 0 →
        (match lineSwitch st0 loc with
          | .ret bb st1 => (bb, { st1 with file := rest })
          | .done sf st1 =>
              if st1.atEnd || sf then (sf, { st1 with file := rest })
              else lineLoop rest (resetLine st1) initLocals).1 = false := by
      intro st0 hz0
      cases hs : lineSwitch st0 loc with
      | ret b st1 => exact (lineSwitch_ret hs).1
      | done sf st1 =>
        obtain ⟨e1, e2⟩ := lineSwitch_lineSize hs
        cases sf
        · simp only
          split_ifs
          · rfl
          · exact ih _ _ (by show st1.lineSize = 0; rw [e1, hz0]) (by simp [initLocals])
              (by simp [initLocals]) (by simp [initLocals])
        · exact absurd (e2 rfl) h2
    rw [lineLoop]
    split_ifs
    · exact hsw st hz
    · exact hsw _ hz
    · cases hs : charStep c st loc with
      | ret b st1 => exact (charStep_ret hs).1
      | next st1 loc1 =>
        obtain ⟨g1, g2, g3, g4⟩ := charStep_next_zero hs hz h1 h2 h3
        exact ih st1 loc1 g1 g2 g3 g4

theorem readNextSetting_zero_lineSize (st : FileConfig) (hz : st.lineSize = 0) :
    (readNextSetting st).1 = false := by
  apply readNextSetting_false_of_loopHead
  exact lineLoop_zero_lineSize _ _ _ hz (by simp [initLocals]) (by simp [initLocals])
    (by simp [initLocals])

theorem lineLoop_key_line_skipped (st : FileConfig) (k t : List Nat)
    (hie : st.ignoreError = true) (hend : st.atEnd = false) (hk : WellFormedKey k)
    (hroom : k.length + 1 ≤ st.lineSize) (hsz : st.lineSize ≤ 256) :
    loopHead (k ++ LF :: t) st
      = loopHead t { pushAll (resetLine st) .line k with
          lineCounter := ((pushAll (resetLine st) .line k).lineCounter + 1) % 65536 } := by
  cases k with
  | nil => exact hk.elim
  | cons c0 k1 =>
    obtain ⟨⟨a1, a2⟩, hall⟩ := hk
    obtain ⟨b1, b2, b3, b4, b5⟩ := hall c0 (List.mem_cons_self _ _)
    simp only [List.length_cons] at hroom
    rw [loopHead, List.cons_append, lineLoop_firstKeyChar c0 _ _ ⟨a1, b1, b2, a2, b4, b5⟩]
    have hsize : (resetLine st).lineSize = st.lineSize := rfl
    rw [hsize]
    have hL1 : (push (resetLine st) .line c0).lineLength = 1 := by simp [push, resetLine]
    rw [lineLoop_append k1 _ _ (keyLocals st.lineSize)
      (by
        intro c hc
        obtain ⟨c1, c2, c3, c4, c5⟩ := hall c (List.mem_cons_of_mem _ hc)
        exact ⟨c4, c5, Or.inl ⟨rfl, c1, c2, c3⟩⟩)
      (by rw [hL1]; simp only [keyLocals]; omega) (by simpa [keyLocals] using hsz)]
    have hbuf : (keyLocals st.lineSize).buffer = .line := rfl
    rw [hbuf]
    have hpa : pushAll (push (resetLine st) .line c0) .line k1
        = pushAll (resetLine st) .line (c0 :: k1) := rfl
    rw [hpa, lineLoop]
    have hie2 : (pushAll (resetLine st) .line (c0 :: k1)).ignoreError = true := by
      rw [(pushAll_frame _ _ _).2.2.2.2.2.2.2.2.1]; exact hie
    have hae : (pushAll (resetLine st) .line (c0 :: k1)).atEnd = false := by
      rw [(pushAll_frame _ _ _).2.1]; exact hend
    have hsw : lineSwitch { pushAll (resetLine st) .line (c0 :: k1) with
        lineCounter := ((pushAll (resetLine st) .line (c0 :: k1)).lineCounter + 1) % 65536 }
        (keyLocals st.lineSize)
        = .done false { pushAll (resetLine st) .line (c0 :: k1) with
          lineCounter := ((pushAll (resetLine st) .line (c0 :: k1)).lineCounter + 1) % 65536 } := by
      simp [lineSwitch, keyLocals, hie2]
    rw [if_neg (by decide), if_pos rfl, hsw]
    simp only
    rw [if_neg (by simp [hae])]
    rfl

theorem simAt_of_reset {a b : FileConfig} (h : Sim (resetLine a) (resetLine b))
    (hend : a.atEnd = false) : SimAt (resetLine a) (resetLine b) initLocals :=
  ⟨h, hend, by simp [initLocals], by simp [initLocals], fun _ => rfl,
    by simp [initLocals], by simp [initLocals]⟩

/-- C3: with `_ignoreError = true`, a line `k\n` made of a well formed key `k` (non-empty,
no `=`, no blank, CR or LF, not starting with `#` or `[`) with `|k| ≤ maxLineLength ≤ 255`
is skipped: for every further input `t` and every `n`, the first `n` calls on
`k ++ "\n" ++ t` return the same booleans and, where true, the same (section, name, raw
value) records as the first `n` calls on `t` alone. -/
theorem key_without_equals_is_skipped (k t : List Nat) (maxLineLength maxSectionLength : Nat)
    (ignoreCase : Bool) (lineMem sectionMem : Nat → Nat) (n : Nat)
    (hk : WellFormedKey k) (hfit : k.length ≤ maxLineLength) (h255 : maxLineLength ≤ 255) :
    trace n (begin (k ++ [LF] ++ t) maxLineLength maxSectionLength ignoreCase true
        lineMem sectionMem)
      = trace n (begin t maxLineLength maxSectionLength ignoreCase true lineMem sectionMem) := by
  by_cases h254 : maxLineLength ≤ 254
  · cases n with
    | zero => rfl
    | succ n =>
      have hsz := begin_lineSize (k ++ [LF] ++ t) maxLineLength maxSectionLength ignoreCase true
        lineMem sectionMem h254
      have hS := begin_sim (k ++ [LF] ++ t) t maxLineLength maxSectionLength ignoreCase true
        lineMem sectionMem
      generalize hA : begin (k ++ [LF] ++ t) maxLineLength maxSectionLength ignoreCase true
        lineMem sectionMem = A at *
      generalize hB : begin t maxLineLength maxSectionLength ignoreCase true
        lineMem sectionMem = B at *
      have hAend : A.atEnd = false := by rw [← hA]; rfl
      have hAie : A.ignoreError = true := by rw [← hA]; rfl
      have hAfile : A.file = k ++ LF :: t := by rw [← hA]; simp [begin]
      have hBfile : B.file = t := by rw [← hB]; rfl
      have hBend : B.atEnd = false := by rw [← hS.atEnd]; exact hAend
      have hskip := lineLoop_key_line_skipped A k t hAie hAend hk (by omega) (by omega)
      obtain ⟨f1, f2, f3, f4, f5, f6, f7, f8, f9, f10, f11⟩ :=
        pushAll_frame k (resetLine A) .line
      have hsim : Sim (resetLine { pushAll (resetLine A) .line k with
          lineCounter := ((pushAll (resetLine A) .line k).lineCounter + 1) % 65536 })
          (resetLine B) :=
        ⟨by show (pushAll (resetLine A) .line k).atEnd = B.atEnd
            rw [f2]; exact hS.atEnd,
          by show (pushAll (resetLine A) .line k).line.length = B.line.length
             rw [f10]; exact hS.lineLen,
          by show (pushAll (resetLine A) .line k).lineSize = B.lineSize
             rw [f4]; exact hS.lineSize,
          rfl, rfl,
          by show (pushAll (resetLine A) .line k).section_ = B.section_
             rw [(pushAll_line k (resetLine A)
               (by show 0 + k.length ≤ A.line.length
                   have := begin_line_length (k ++ [LF] ++ t) maxLineLength maxSectionLength
                     ignoreCase true lineMem sectionMem
                   rw [hA] at this
                   omega)
               (by show 0 + k.length < 256; omega)).2.2.1]
             exact hS.section_eq,
          rfl,
          by show (pushAll (resetLine A) .line k).sectionSize = B.sectionSize
             rw [f7]; exact hS.sectionSize,
          by show (pushAll (resetLine A) .line k).ignoreCase = B.ignoreCase
             rw [f8]; exact hS.ignoreCase,
          by show (pushAll (resetLine A) .line k).ignoreError = B.ignoreError
             rw [f9]; exact hS.ignoreError,
          by show (pushAll (resetLine A) .line k).lineSize ≤ 256
             rw [f4]; exact hS.lineSizeLe,
          by show (pushAll (resetLine A) .line k).sectionSize ≤ 256
             rw [f7]; exact hS.sectionSizeLe⟩
      have hcallA : readNextSetting A = loopHead t { pushAll (resetLine A) .line k with
          lineCounter := ((pushAll (resetLine A) .line k).lineCounter + 1) % 65536 } := by
        rw [readNextSetting_eq_loopHead A hAend, hAfile, hskip]
      have hcallB : readNextSetting B = loopHead t B := by
        rw [readNextSetting_eq_loopHead B hBend, hBfile]
      obtain ⟨⟨h1, h2, h3⟩, h4⟩ := lineLoop_sim t _ _ initLocals
        (simAt_of_reset hsim (by show (pushAll (resetLine A) .line k).atEnd = false
                                 rw [f2]; exact hAend))
      simp only [trace]
      rw [hcallA, hcallB]
      simp only [loopHead]
      rw [trace_sim n _ _ h2 h4, ← h1]
      cases hr : (lineLoop t (resetLine { pushAll (resetLine A) .line k with
          lineCounter := ((pushAll (resetLine A) .line k).lineCounter + 1) % 65536 })
          initLocals).1
      · simp
      · simp [h3 hr]
  · have h : maxLineLength = 255 := by omega
    subst h
    rw [trace_of_false n _ (readNextSetting_zero_lineSize _ (by simp [begin])),
      trace_of_false n _ (readNextSetting_zero_lineSize _ (by simp [begin]))]

theorem key_without_equals_is_skipped_witness :
    trace 3 (begin ([106, 117, 115, 116] ++ [LF] ++ [107, 61, 118, 10, 120, 10]) 20 10 false
        true (fun _ => 0) (fun _ => 0))
      = trace 3 (begin [107, 61, 118, 10, 120, 10] 20 10 false true (fun _ => 0) (fun _ => 0)) :=
  key_without_equals_is_skipped [106, 117, 115, 116] [107, 61, 118, 10, 120, 10] 20 10 false
    (fun _ => 0) (fun _ => 0) 3 (by simp [WellFormedKey]) (by decide) (by decide)

/-! ## C14 and C15: the dotted-quad conversion -/

/-- C14: after `ip=1.2.3\n` is decoded (line buffer 20), `getIPAddress()` returns
`1.2.3.0`, not `0.0.0.0`: the three octets are stored and nothing checks that a fourth
one is missing. -/
theorem three_octets_are_accepted :
    (readNextSetting (begin [105, 112, 61, 49, 46, 50, 46, 51, 10] 20 10 false false
      (fun _ => 0) (fun _ => 0))).1 = true ∧
    (getValue (readNextSetting (begin [105, 112, 61, 49, 46, 50, 46, 51, 10] 20 10 false false
      (fun _ => 0) (fun _ => 0))).2 true).1 = some [49, 46, 50, 46, 51] ∧
    (getIPAddress atoi (readNextSetting (begin [105, 112, 61, 49, 46, 50, 46, 51, 10] 20 10
      false false (fun _ => 0) (fun _ => 0))).2).1 = some [1, 2, 3, 0] := by
  decide

theorem ipLoop_rejects (toInt : List Nat → Int) (toks : List (List Nat)) :
    ∀ (i : Nat) (ip : List Nat), i ≤ 4 →
      ((∃ j tok, toks[j]? = some tok ∧ j + i < 4 ∧ (toInt tok < 0 ∨ toInt tok > 255)) ∨
        4 < toks.length + i) →
      ipLoop toInt toks i ip = [0, 0, 0, 0] := by
  induction toks with
  | nil =>
    intro i ip hi h
    rcases h with ⟨j, tok, h1, _, _⟩ | h
    · simp at h1
    · simp at h; omega
  | cons tok rest ih =>
    intro i ip hi h
    unfold ipLoop
    by_cases hbad : toInt tok < 0 ∨ toInt tok > 255 ∨ i > 3
    · rw [if_pos hbad]
    · rw [if_neg hbad]
      have h3 : i ≤ 3 := by
        by_contra hc
        exact hbad (Or.inr (Or.inr (by omega)))
      apply ih (i + 1) _ (by omega)
      rcases h with ⟨j, tok1, h1, h2, h4⟩ | h
      · cases j with
        | zero =>
          simp only [List.getElem?_cons_zero, Option.some.injEq] at h1
          subst h1
          rcases h4 with h4 | h4
          · exact absurd (Or.inl h4) hbad
          · exact absurd (Or.inr (Or.inl h4)) hbad
        | succ j =>
          simp only [List.getElem?_cons_succ] at h1
          exact Or.inl ⟨j, tok1, h1, by omega, h4⟩
      · simp only [List.length_cons] at h
        exact Or.inr (by omega)

/-- C15: whatever `atoi` is, when the trimmed value `getValue(true)` returns splits at `.`
into tokens of which one of the first four converts to a number outside `[0, 255]`, or of
which there are more than four, `getIPAddress()` returns `0.0.0.0`. -/
theorem bad_octets_give_zero_address (toInt : List Nat → Int) (st : FileConfig)
    (str : List Nat) (hval : (getValue st true).1 = some str)
    (hbad : (∃ j tok, (tokens 46 str)[j]? = some tok ∧ j < 4 ∧ (toInt tok < 0 ∨ toInt tok > 255))
      ∨ 4 < (tokens 46 str).length) :
    (getIPAddress toInt st).1 = some [0, 0, 0, 0] := by
  unfold getIPAddress
  cases hg : getValue st true with
  | mk v st1 =>
    rw [hg] at hval
    simp only at hval
    subst hval
    simp only
    rw [ipLoop_rejects toInt _ 0 _ (by omega)]
    rcases hbad with ⟨j, tok, h1, h2, h3⟩ | h
    · exact Or.inl ⟨j, tok, h1, by omega, h3⟩
    · exact Or.inr (by omega)

theorem bad_octets_give_zero_address_witness :
    (getIPAddress atoi (readNextSetting (begin [105, 112, 61, 57, 57, 57, 46, 49, 46, 49, 46, 49,
      10] 20 10 false false (fun _ => 0) (fun _ => 0))).2).1 = some [0, 0, 0, 0] :=
  bad_octets_give_zero_address atoi _ [57, 57, 57, 46, 49, 46, 49, 46, 49] (by decide)
    (Or.inl ⟨0, [57, 57, 57], by decide, by decide, Or.inr (by decide)⟩)

/-! ## C17, C18 and C20: three runs of the decoder -/

set_option maxRecDepth 100000 in
/-- C17: with `maxLineLength = 200`, after the line of a key of 127 bytes `a`, `=` and `v`
is decoded (the call returns true), `_valueIndex` is `-128`, not `128`: the `uint8_t`
length 128 does not fit the `int8_t` field, and `getName()` returns `NULL`. -/
theorem valueIndex_wraps_at_128 :
    (readNextSetting (begin (List.replicate 127 97 ++ [61, 118, 10]) 200 10 false false
      (fun _ => 0) (fun _ => 0))).1 = true ∧
    (readNextSetting (begin (List.replicate 127 97 ++ [61, 118, 10]) 200 10 false false
      (fun _ => 0) (fun _ => 0))).2.valueIndex = -128 ∧
    (readNextSetting (begin (List.replicate 127 97 ++ [61, 118, 10]) 200 10 false false
      (fun _ => 0) (fun _ => 0))).2.lineLength = 129 ∧
    getName (readNextSetting (begin (List.replicate 127 97 ++ [61, 118, 10]) 200 10 false false
      (fun _ => 0) (fun _ => 0))).2 = none := by
  decide

/-- C18: with `maxSectionLength = 3` the header `[abc]`, whose name and null byte fit the
4-byte buffer, is refused: the first call on `[abc]\nk=v\n` returns false, because the
capacity test at `]` requires one more free byte. -/
theorem section_of_full_length_is_refused :
    (readNextSetting (begin [91, 97, 98, 99, 93, 10, 107, 61, 118, 10] 20 3 false false
      (fun _ => 0) (fun _ => 0))).1 = false ∧
    (readNextSetting (begin [91, 97, 98, 99, 93, 10, 107, 61, 118, 10] 20 3 false true
      (fun _ => 0) (fun _ => 0))).1 = false := by
  decide

/-- C20: with `_ignoreError = true`, on `[sec]\nk=v\n[ab\nx=y\n` the second call skips
the malformed line `[ab` and returns `x=y`, but with `getSection() = "abc"`, not `"sec"`:
the bytes `a`, `b` were stored over the start of the section name. On
`[sec]\nk=v\n[ab] x\nx=y\n` the second record has `getSection() = "ab"`. -/
theorem malformed_header_changes_section :
    record (afterCalls 1 (begin [91, 115, 101, 99, 93, 10, 107, 61, 118, 10, 91, 97, 98, 10,
        120, 61, 121, 10] 20 10 false true (fun _ => 0) (fun _ => 0)))
      = ([115, 101, 99], some [107], some [118]) ∧
    (readNextSetting (afterCalls 1 (begin [91, 115, 101, 99, 93, 10, 107, 61, 118, 10, 91, 97, 98,
        10, 120, 61, 121, 10] 20 10 false true (fun _ => 0) (fun _ => 0)))).1 = true ∧
    record (afterCalls 2 (begin [91, 115, 101, 99, 93, 10, 107, 61, 118, 10, 91, 97, 98, 10,
        120, 61, 121, 10] 20 10 false true (fun _ => 0) (fun _ => 0)))
      = ([97, 98, 99], some [120], some [121]) ∧
    record (afterCalls 2 (begin [91, 115, 101, 99, 93, 10, 107, 61, 118, 10, 91, 97, 98, 93, 32,
        120, 10, 120, 61, 121, 10] 20 10 false true (fun _ => 0) (fun _ => 0)))
      = ([97, 98], some [120], some [121]) := by
  decide


/-! ## What holds throughout a call -/

theorem Wf.push {st : FileConfig} (h : Wf st) (buf : Buffer) (x : Nat) : Wf (push st buf x) := by
  obtain ⟨h1, h2, h3, h4⟩ := h
  cases buf
  · exact ⟨h1, h2, h3, h4⟩
  · exact ⟨h1, by simp only [FileConfig.push, store, List.length_set]; exact h2, h3, h4⟩
  · exact ⟨by simp only [FileConfig.push, store, List.length_set]; exact h1, h2, h3, h4⟩

theorem Wf.store {st : FileConfig} (h : Wf st) (buf : Buffer) (i x : Nat) :
    Wf (store st buf i x) := by
  obtain ⟨h1, h2, h3, h4⟩ := h
  cases buf
  · exact ⟨h1, h2, h3, h4⟩
  · exact ⟨h1, by simp only [FileConfig.store, List.length_set]; exact h2, h3, h4⟩
  · exact ⟨by simp only [FileConfig.store, List.length_set]; exact h1, h2, h3, h4⟩

theorem store_line_oob (st : FileConfig) (i x : Nat) (h : i < st.line.length)
    (ho : st.outOfBounds = false) : (store st .line i x).outOfBounds = false := by
  have : ¬ (st.line.length ≤ i) := by omega
  simp [store, ho, this]

theorem store_section_oob (st : FileConfig) (i x : Nat) (h : i < st.section_.length)
    (ho : st.outOfBounds = false) : (store st .section_ i x).outOfBounds = false := by
  have : ¬ (st.section_.length ≤ i) := by omega
  simp [store, ho, this]

theorem getElem?_set_self_of_lt (l : List Nat) (i x : Nat) (h : i < l.length) :
    (l.set i x)[i]? = some x := by
  simp [List.getElem?_set, h]

theorem getElem?_set_of_ne (l : List Nat) (i j x : Nat) (h : i ≠ j) :
    (l.set i x)[j]? = l[j]? := by
  simp [List.getElem?_set, h]

/-- The invariant seen from a state whose locals select the line buffer in state `KeyName`. -/
theorem Inv.mkKey (st : FileConfig) (isSec : Bool) (hw : Wf st)
    (h1 : 1 ≤ st.lineLength) (h2 : st.lineLength + 1 ≤ st.lineSize ∨ st.lineLength = 1)
    (ho : 2 ≤ st.lineSize → 2 ≤ st.sectionSize → st.outOfBounds = false) :
    Inv st ⟨.line, st.lineSize, isSec, .KeyName⟩ :=
  { wf := hw
    first := by intro h; rcases h with h | h <;> cases h
    key := fun _ => ⟨rfl, rfl, h1, h2⟩
    equal := by intro h; cases h
    value := by intro h; cases h
    sect := by intro h; cases h
    sectEnd := by intro h; cases h
    bad := by intro h; cases h
    oob := ho }

theorem Inv.mkEqual (st : FileConfig) (isSec : Bool) (hw : Wf st)
    (h1 : 2 ≤ st.lineLength) (h2 : st.lineLength + 1 ≤ st.lineSize)
    (h3 : st.line[st.lineLength - 1]? = some 0)
    (ho : 2 ≤ st.lineSize → 2 ≤ st.sectionSize → st.outOfBounds = false) :
    Inv st ⟨.line, st.lineSize, isSec, .Equal⟩ :=
  { wf := hw
    first := by intro h; rcases h with h | h <;> cases h
    key := by intro h; cases h
    equal := fun _ => ⟨rfl, rfl, h1, h2, h3⟩
    value := by intro h; cases h
    sect := by intro h; cases h
    sectEnd := by intro h; cases h
    bad := by intro h; cases h
    oob := ho }

theorem Inv.mkValue (st : FileConfig) (isSec : Bool) (hw : Wf st)
    (h2 : st.lineLength + 1 ≤ st.lineSize)
    (h3 : ∃ vi, 2 ≤ vi ∧ vi ≤ st.lineLength ∧ st.valueIndex = toInt8 vi ∧
      st.line[vi - 1]? = some 0)
    (ho : 2 ≤ st.lineSize → 2 ≤ st.sectionSize → st.outOfBounds = false) :
    Inv st ⟨.line, st.lineSize, isSec, .Value⟩ :=
  { wf := hw
    first := by intro h; rcases h with h | h <;> cases h
    key := by intro h; cases h
    equal := by intro h; cases h
    value := fun _ => ⟨rfl, rfl, h2, h3⟩
    sect := by intro h; cases h
    sectEnd := by intro h; cases h
    bad := by intro h; cases h
    oob := ho }

theorem Inv.mkSect (st : FileConfig) (isSec : Bool) (hw : Wf st)
    (h1 : 1 ≤ st.lineLength) (h2 : st.lineLength + 1 ≤ st.sectionSize ∨ st.lineLength = 1)
    (ho : 2 ≤ st.lineSize → 2 ≤ st.sectionSize → st.outOfBounds = false) :
    Inv st ⟨.section_, st.sectionSize, isSec, .SectionName⟩ :=
  { wf := hw
    first := by intro h; rcases h with h | h <;> cases h
    key := by intro h; cases h
    equal := by intro h; cases h
    value := by intro h; cases h
    sect := fun _ => ⟨rfl, rfl, h1, h2⟩
    sectEnd := by intro h; cases h
    bad := by intro h; cases h
    oob := ho }

theorem Inv.mkSectEnd (st : FileConfig) (isSec : Bool) (hw : Wf st)
    (h2 : st.lineLength + 1 ≤ st.sectionSize)
    (ho : 2 ≤ st.lineSize → 2 ≤ st.sectionSize → st.outOfBounds = false) :
    Inv st ⟨.section_, st.sectionSize, isSec, .SectionEnd⟩ :=
  { wf := hw
    first := by intro h; rcases h with h | h <;> cases h
    key := by intro h; cases h
    equal := by intro h; cases h
    value := by intro h; cases h
    sect := by intro h; cases h
    sectEnd := fun _ => ⟨rfl, rfl, h2⟩
    bad := by intro h; cases h
    oob := ho }

theorem Inv.mkBad (st : FileConfig) (buf : Buffer) (bsz : Nat) (isSec : Bool) (hw : Wf st)
    (h2 : (buf = .line ∧ st.lineLength + 1 ≤ st.lineSize) ∨
      (buf = .section_ ∧ st.lineLength + 1 ≤ st.sectionSize))
    (ho : 2 ≤ st.lineSize → 2 ≤ st.sectionSize → st.outOfBounds = false) :
    Inv st ⟨buf, bsz, isSec, .BadFormat⟩ :=
  { wf := hw
    first := by intro h; rcases h with h | h <;> cases h
    key := by intro h; cases h
    equal := by intro h; cases h
    value := by intro h; cases h
    sect := by intro h; cases h
    sectEnd := by intro h; cases h
    bad := fun _ => h2
    oob := ho }

theorem Inv.mkFirst (st : FileConfig) (buf : Buffer) (bsz : Nat) (isSec : Bool) (hw : Wf st)
    (h2 : st.lineLength = 0)
    (ho : 2 ≤ st.lineSize → 2 ≤ st.sectionSize → st.outOfBounds = false) :
    Inv st ⟨buf, bsz, isSec, .FirstANChar⟩ :=
  { wf := hw
    first := fun _ => h2
    key := by intro h; cases h
    equal := by intro h; cases h
    value := by intro h; cases h
    sect := by intro h; cases h
    sectEnd := by intro h; cases h
    bad := by intro h; cases h
    oob := ho }

theorem Inv.mkComment (st : FileConfig) (buf : Buffer) (bsz : Nat) (isSec : Bool) (hw : Wf st)
    (h2 : st.lineLength = 0)
    (ho : 2 ≤ st.lineSize → 2 ≤ st.sectionSize → st.outOfBounds = false) :
    Inv st ⟨buf, bsz, isSec, .Comment⟩ :=
  { wf := hw
    first := fun _ => h2
    key := by intro h; cases h
    equal := by intro h; cases h
    value := by intro h; cases h
    sect := by intro h; cases h
    sectEnd := by intro h; cases h
    bad := by intro h; cases h
    oob := ho }

theorem store_lineLength (st : FileConfig) (buf : Buffer) (i x : Nat) :
    (store st buf i x).lineLength = st.lineLength := by cases buf <;> rfl

theorem store_lineSize (st : FileConfig) (buf : Buffer) (i x : Nat) :
    (store st buf i x).lineSize = st.lineSize := by cases buf <;> rfl

theorem store_sectionSize (st : FileConfig) (buf : Buffer) (i x : Nat) :
    (store st buf i x).sectionSize = st.sectionSize := by cases buf <;> rfl

theorem store_valueIndex (st : FileConfig) (buf : Buffer) (i x : Nat) :
    (store st buf i x).valueIndex = st.valueIndex := by cases buf <;> rfl

/-- In a state of the inner loop the line length is below the capacity of the buffer the
locals select, as soon as both blocks have at least two bytes. -/
theorem Inv.lenBound {st : FileConfig} {loc : Locals} (h : Inv st loc)
    (hl : 2 ≤ st.lineSize) (hs : 2 ≤ st.sectionSize) :
    (loc.buffer = .line → st.lineLength < st.lineSize) ∧
      (loc.buffer = .section_ → st.lineLength < st.sectionSize) ∧
      (loc.buffer = .null → st.lineLength = 0) ∧
      (st.lineLength < st.lineSize ∨ st.lineLength < st.sectionSize) := by
  obtain ⟨buf, bsz, isSec, rs⟩ := loc
  cases rs
  · have := h.first (Or.inl rfl)
    refine ⟨fun _ => ?_, fun _ => ?_, fun _ => this, Or.inl ?_⟩ <;> omega
  · have := h.first (Or.inr rfl)
    refine ⟨fun _ => ?_, fun _ => ?_, fun _ => this, Or.inl ?_⟩ <;> omega
  · obtain ⟨hb, -, h1, h2⟩ := h.sect rfl
    simp only at hb; subst hb
    have : st.lineLength < st.sectionSize := by omega
    refine ⟨fun hh => ?_, fun _ => this, fun hh => ?_, Or.inr this⟩ <;> cases hh
  · obtain ⟨hb, -, h2⟩ := h.sectEnd rfl
    simp only at hb; subst hb
    have : st.lineLength < st.sectionSize := by omega
    refine ⟨fun hh => ?_, fun _ => this, fun hh => ?_, Or.inr this⟩ <;> cases hh
  · obtain ⟨hb, -, h1, h2⟩ := h.key rfl
    simp only at hb; subst hb
    have : st.lineLength < st.lineSize := by omega
    refine ⟨fun _ => this, fun hh => ?_, fun hh => ?_, Or.inl this⟩ <;> cases hh
  · obtain ⟨hb, -, h1, h2, -⟩ := h.equal rfl
    simp only at hb; subst hb
    have : st.lineLength < st.lineSize := by omega
    refine ⟨fun _ => this, fun hh => ?_, fun hh => ?_, Or.inl this⟩ <;> cases hh
  · obtain ⟨hb, -, h2, -⟩ := h.value rfl
    simp only at hb; subst hb
    have : st.lineLength < st.lineSize := by omega
    refine ⟨fun _ => this, fun hh => ?_, fun hh => ?_, Or.inl this⟩ <;> cases hh
  · rcases h.bad rfl with ⟨hb, h2⟩ | ⟨hb, h2⟩
    · simp only at hb; subst hb
      have : st.lineLength < st.lineSize := by omega
      refine ⟨fun _ => this, fun hh => ?_, fun hh => ?_, Or.inl this⟩ <;> cases hh
    · simp only at hb; subst hb
      have : st.lineLength < st.sectionSize := by omega
      refine ⟨fun hh => ?_, fun _ => this, fun hh => ?_, Or.inr this⟩ <;> cases hh

/-- In the four states that store, the locals select one of the two blocks. -/
theorem Inv.buffer_ne_null {st : FileConfig} {loc : Locals} (h : Inv st loc)
    (hs : loc.readStep = .KeyName ∨ loc.readStep = .SectionName ∨ loc.readStep = .Equal
      ∨ loc.readStep = .Value ∨ loc.readStep = .SectionEnd) :
    loc.buffer = .line ∨ loc.buffer = .section_ := by
  rcases hs with hs | hs | hs | hs | hs
  · exact Or.inl (h.key hs).1
  · exact Or.inr (h.sect hs).1
  · exact Or.inl (h.equal hs).1
  · exact Or.inl (h.value hs).1
  · exact Or.inr (h.sectEnd hs).1

/-- A null byte stored at `_lineLength` in a storing state stays inside the block. -/
theorem Inv.store_oob {st : FileConfig} {loc : Locals} (h : Inv st loc)
    (hs : loc.readStep = .KeyName ∨ loc.readStep = .SectionName ∨ loc.readStep = .Equal
      ∨ loc.readStep = .Value ∨ loc.readStep = .SectionEnd)
    (hl : 2 ≤ st.lineSize) (hsz : 2 ≤ st.sectionSize) (x : Nat) :
    (store st loc.buffer st.lineLength x).outOfBounds = false := by
  obtain ⟨b1, b2, -, -⟩ := h.lenBound hl hsz
  rcases h.buffer_ne_null hs with hb | hb
  · rw [hb]
    exact store_line_oob st _ x (by rw [h.wf.lineLen]; exact b1 hb) (h.oob hl hsz)
  · rw [hb]
    exact store_section_oob st _ x (by rw [h.wf.sectionLen]; exact b2 hb) (h.oob hl hsz)

theorem post_overflow {st : FileConfig} {loc : Locals} (h : Inv st loc)
    (hs : loc.readStep = .KeyName ∨ loc.readStep = .SectionName ∨ loc.readStep = .Equal
      ∨ loc.readStep = .Value ∨ loc.readStep = .SectionEnd) :
    Post false { store st loc.buffer st.lineLength 0 with atEnd := true } := by
  have hw := h.wf.store loc.buffer st.lineLength 0
  refine ⟨⟨hw.lineLen, hw.sectionLen, hw.lineSizeLe, hw.sectionSizeLe⟩, ?_, ?_, ?_⟩
  · intro hl hsz
    simp only [store_lineSize, store_sectionSize] at hl hsz
    exact h.store_oob hs hl hsz 0
  · intro hl hsz
    simp only [store_lineSize, store_sectionSize] at hl hsz
    simp only [store_lineSize, store_sectionSize, store_lineLength]
    exact (h.lenBound hl hsz).2.2.2
  · intro hh; cases hh

theorem push_line_line (st : FileConfig) (x : Nat) :
    (push st .line x).line = st.line.set st.lineLength x := rfl

theorem push_line_oob (st : FileConfig) (x : Nat) (h : st.lineLength < st.line.length)
    (ho : st.outOfBounds = false) : (push st .line x).outOfBounds = false :=
  store_line_oob st _ x h ho

theorem push_section_oob (st : FileConfig) (x : Nat) (h : st.lineLength < st.section_.length)
    (ho : st.outOfBounds = false) : (push st .section_ x).outOfBounds = false :=
  store_section_oob st _ x h ho

theorem push_lineSize (st : FileConfig) (buf : Buffer) (x : Nat) :
    (push st buf x).lineSize = st.lineSize := by cases buf <;> rfl

theorem push_sectionSize (st : FileConfig) (buf : Buffer) (x : Nat) :
    (push st buf x).sectionSize = st.sectionSize := by cases buf <;> rfl

theorem push_lineLength_eq (st : FileConfig) (buf : Buffer) (x : Nat) :
    (push st buf x).lineLength = (st.lineLength + 1) % 256 := by cases buf <;> rfl

theorem charStep_ok_first (c : Nat) {st : FileConfig} {loc : Locals} (h : Inv st loc)
    (hr : loc.readStep = .FirstANChar) : StepOK (charStep c st loc) := by
  obtain ⟨buf, bsz, isSec, rs⟩ := loc
  simp only at hr; subst hr
  have hL := h.first (Or.inl rfl)
  have hw := h.wf
  unfold charStep
  simp only [reduceCtorEq, or_self, if_false, if_true]
  split_ifs with h1 h2 h3 h4
  · exact Inv.mkComment _ _ _ _ hw hL h.oob
  · exact Inv.mkFirst _ _ _ _ hw hL h.oob
  · exact Inv.mkFirst _ _ _ _ hw hL h.oob
  · have hlen : (push st .section_ c).lineLength = 1 := by
      rw [push_lineLength_eq, hL]
    refine Inv.mkSect (push st .section_ c) _ (hw.push _ _) (by omega)
      (Or.inr hlen) ?_
    intro hl hs
    rw [push_lineSize] at hl; rw [push_sectionSize] at hs
    exact push_section_oob st c (by rw [hw.sectionLen, hL]; omega) (h.oob hl hs)
  · have hlen : (push st .line c).lineLength = 1 := by
      rw [push_lineLength_eq, hL]
    refine Inv.mkKey (push st .line c) _ (hw.push _ _) (by omega)
      (Or.inr hlen) ?_
    intro hl hs
    rw [push_lineSize] at hl; rw [push_sectionSize] at hs
    exact push_line_oob st c (by rw [hw.lineLen, hL]; omega) (h.oob hl hs)

theorem charStep_ok_skip (c : Nat) {st : FileConfig} {loc : Locals} (h : Inv st loc)
    (hr : loc.readStep = .Comment ∨ loc.readStep = .BadFormat) :
    StepOK (charStep c st loc) := by
  obtain ⟨buf, bsz, isSec, rs⟩ := loc
  rcases hr with hr | hr <;> simp only at hr <;> subst hr <;> exact h

theorem charStep_ok_sectEnd (c : Nat) {st : FileConfig} {loc : Locals} (h : Inv st loc)
    (hr : loc.readStep = .SectionEnd) : StepOK (charStep c st loc) := by
  obtain ⟨buf, bsz, isSec, rs⟩ := loc
  simp only at hr; subst hr
  obtain ⟨hb, -, h2⟩ := h.sectEnd rfl
  simp only at hb; subst hb
  exact Inv.mkBad _ _ _ _ h.wf (Or.inr ⟨rfl, h2⟩) h.oob

theorem push_line_facts (st : FileConfig) (x : Nat) (hw : Wf st)
    (hroom : st.lineLength + 2 ≤ st.lineSize) :
    (push st .line x).lineLength = st.lineLength + 1 ∧
      (push st .line x).line[st.lineLength]? = some x ∧
      (∀ j, j ≠ st.lineLength → (push st .line x).line[j]? = st.line[j]?) ∧
      (2 ≤ st.lineSize → 2 ≤ st.sectionSize → st.outOfBounds = false →
        (push st .line x).outOfBounds = false) := by
  have h255 := hw.lineSizeLe
  refine ⟨?_, ?_, ?_, ?_⟩
  · rw [push_lineLength_eq]; omega
  · rw [push_line_line]
    exact getElem?_set_self_of_lt _ _ _ (by rw [hw.lineLen]; omega)
  · intro j hj
    rw [push_line_line]
    exact getElem?_set_of_ne _ _ _ _ (fun hh => hj hh.symm)
  · intro _ _ ho
    exact push_line_oob st x (by rw [hw.lineLen]; omega) ho

theorem charStep_ok_key (c : Nat) {st : FileConfig} {loc : Locals} (h : Inv st loc)
    (hr : loc.readStep = .KeyName) : StepOK (charStep c st loc) := by
  obtain ⟨buf, bsz, isSec, rs⟩ := loc
  simp only at hr; subst hr
  obtain ⟨hb, hbs, h1, h2⟩ := h.key rfl
  simp only at hb hbs; subst hb; subst hbs
  have hw := h.wf
  by_cases hov : (st.lineLength : Int) ≥ (st.lineSize : Int) - 1
  · have : charStep c st ⟨.line, st.lineSize, isSec, .KeyName⟩
        = .ret false { store st .line st.lineLength 0 with atEnd := true } := by
      unfold charStep
      simp only [true_or, if_true]
      rw [if_pos hov]
    rw [this]
    exact post_overflow h (Or.inl rfl)
  · have hroom : st.lineLength + 2 ≤ st.lineSize := by omega
    unfold charStep
    simp only [true_or, if_true]
    rw [if_neg hov]
    by_cases hc1 : c = SP ∨ c = TAB
    · rw [if_pos hc1]
      obtain ⟨f1, f2, f3, f4⟩ := push_line_facts st 0 hw hroom
      refine Inv.mkEqual (push st .line 0) _ (hw.push _ _) (by omega)
        (by rw [f1, push_lineSize]; omega) (by rw [f1]; exact f2) ?_
      intro hl hs
      exact f4 hl hs (h.oob hl hs)
    · rw [if_neg hc1]
      by_cases hc2 : c = EQ
      · rw [if_pos hc2]
        obtain ⟨f1, f2, f3, f4⟩ := push_line_facts st 0 hw hroom
        refine Inv.mkValue
          { push st .line 0 with valueIndex := toInt8 (push st .line 0).lineLength }
          _ ⟨(hw.push _ _).lineLen, (hw.push _ _).sectionLen, (hw.push _ _).lineSizeLe,
            (hw.push _ _).sectionSizeLe⟩ ?_ ⟨st.lineLength + 1, by omega, ?_, ?_, ?_⟩ ?_
        · show (push st .line 0).lineLength + 1 ≤ st.lineSize
          rw [f1]; omega
        · show st.lineLength + 1 ≤ (push st .line 0).lineLength
          rw [f1]
        · show toInt8 (push st .line 0).lineLength = toInt8 (st.lineLength + 1)
          rw [f1]
        · show (push st .line 0).line[st.lineLength + 1 - 1]? = some 0
          exact f2
        · intro hl hs
          exact f4 hl hs (h.oob hl hs)
      · rw [if_neg hc2]
        obtain ⟨f1, f2, f3, f4⟩ := push_line_facts st c hw hroom
        refine Inv.mkKey (push st .line c) _ (hw.push _ _) (by omega)
          (Or.inl (by rw [f1, push_lineSize]; omega)) ?_
        intro hl hs
        exact f4 hl hs (h.oob hl hs)

theorem charStep_ok_value (c : Nat) {st : FileConfig} {loc : Locals} (h : Inv st loc)
    (hr : loc.readStep = .Value) : StepOK (charStep c st loc) := by
  obtain ⟨buf, bsz, isSec, rs⟩ := loc
  simp only at hr; subst hr
  obtain ⟨hb, hbs, h1, vi, v1, v2, v3, v4⟩ := h.value rfl
  simp only at hb hbs; subst hb; subst hbs
  have hw := h.wf
  by_cases hov : (st.lineLength : Int) ≥ (st.lineSize : Int) - 1
  · have : charStep c st ⟨.line, st.lineSize, isSec, .Value⟩
        = .ret false { store st .line st.lineLength 0 with atEnd := true } := by
      unfold charStep
      simp only [or_true, if_true]
      rw [if_pos hov]
    rw [this]
    exact post_overflow h (Or.inr (Or.inr (Or.inr (Or.inl rfl))))
  · have hroom : st.lineLength + 2 ≤ st.lineSize := by omega
    unfold charStep
    simp only [or_true, if_true, reduceCtorEq, if_false, false_and]
    rw [if_neg hov]
    obtain ⟨f1, f2, f3, f4⟩ := push_line_facts st c hw hroom
    refine Inv.mkValue (push st .line c) _ (hw.push _ _)
      (by rw [f1, push_lineSize]; omega) ⟨vi, v1, by rw [f1]; omega, ?_, ?_⟩ ?_
    · rw [push_valueIndex]; exact v3
    · rw [f3 _ (by omega)]; exact v4
    · intro hl hs
      exact f4 hl hs (h.oob hl hs)

theorem charStep_ok_equal (c : Nat) {st : FileConfig} {loc : Locals} (h : Inv st loc)
    (hr : loc.readStep = .Equal) : StepOK (charStep c st loc) := by
  obtain ⟨buf, bsz, isSec, rs⟩ := loc
  simp only at hr; subst hr
  obtain ⟨hb, hbs, h1, h2, h3⟩ := h.equal rfl
  simp only at hb hbs; subst hb; subst hbs
  have hw := h.wf
  by_cases hov : (st.lineLength : Int) ≥ (st.lineSize : Int) - 1
  · have : charStep c st ⟨.line, st.lineSize, isSec, .Equal⟩
        = .ret false { store st .line st.lineLength 0 with atEnd := true } := by
      unfold charStep
      simp only [or_true, true_or, if_true]
      rw [if_pos hov]
    rw [this]
    exact post_overflow h (Or.inr (Or.inr (Or.inl rfl)))
  · unfold charStep
    simp only [or_true, true_or, if_true, reduceCtorEq, if_false, false_and]
    rw [if_neg hov]
    by_cases hc1 : c = EQ
    · rw [if_pos hc1]
      exact Inv.mkValue ({ st with valueIndex := toInt8 st.lineLength }) _
        ⟨hw.lineLen, hw.sectionLen, hw.lineSizeLe, hw.sectionSizeLe⟩ h2
        ⟨st.lineLength, h1, le_refl _, rfl, h3⟩ h.oob
    · rw [if_neg hc1]
      by_cases hc2 : c ≠ SP ∧ c ≠ TAB
      · rw [if_pos hc2]
        exact Inv.mkBad _ _ _ _ hw (Or.inl ⟨rfl, h2⟩) h.oob
      · rw [if_neg hc2]
        exact h

theorem push_section_facts (st : FileConfig) (x : Nat) (hw : Wf st)
    (hroom : st.lineLength + 2 ≤ st.sectionSize) :
    (push st .section_ x).lineLength = st.lineLength + 1 ∧
      (2 ≤ st.lineSize → 2 ≤ st.sectionSize → st.outOfBounds = false →
        (push st .section_ x).outOfBounds = false) := by
  have h255 := hw.sectionSizeLe
  refine ⟨?_, ?_⟩
  · rw [push_lineLength_eq]; omega
  · intro _ _ ho
    exact push_section_oob st x (by rw [hw.sectionLen]; omega) ho

theorem charStep_ok_section (c : Nat) {st : FileConfig} {loc : Locals} (h : Inv st loc)
    (hr : loc.readStep = .SectionName) : StepOK (charStep c st loc) := by
  obtain ⟨buf, bsz, isSec, rs⟩ := loc
  simp only at hr; subst hr
  obtain ⟨hb, hbs, h1, h2⟩ := h.sect rfl
  simp only at hb hbs; subst hb; subst hbs
  have hw := h.wf
  by_cases hov : (st.lineLength : Int) ≥ (st.sectionSize : Int) - 1
  · have : charStep c st ⟨.section_, st.sectionSize, isSec, .SectionName⟩
        = .ret false { store st .section_ st.lineLength 0 with atEnd := true } := by
      unfold charStep
      simp only [or_true, true_or, if_true]
      rw [if_pos hov]
    rw [this]
    exact post_overflow h (Or.inr (Or.inl rfl))
  · have hroom : st.lineLength + 2 ≤ st.sectionSize := by omega
    unfold charStep
    simp only [or_true, true_or, if_true, reduceCtorEq, if_false, true_and]
    rw [if_neg hov]
    by_cases hc1 : c = RBRACK
    · rw [if_pos hc1]
      obtain ⟨f1, f4⟩ := push_section_facts st 0 hw hroom
      refine Inv.mkSectEnd (push st .section_ 0) _ (hw.push _ _)
        (by rw [f1, push_sectionSize]; omega) ?_
      intro hl hs
      exact f4 hl hs (h.oob hl hs)
    · rw [if_neg hc1]
      obtain ⟨f1, f4⟩ := push_section_facts st c hw hroom
      refine Inv.mkSect (push st .section_ c) _ (hw.push _ _) (by omega)
        (Or.inl (by rw [f1, push_sectionSize]; omega)) ?_
      intro hl hs
      exact f4 hl hs (h.oob hl hs)

/-- One pass through the body of the inner loop keeps the invariant. -/
theorem charStep_ok (c : Nat) {st : FileConfig} {loc : Locals} (h : Inv st loc) :
    StepOK (charStep c st loc) := by
  cases hr : loc.readStep
  · exact charStep_ok_first c h hr
  · exact charStep_ok_skip c h (Or.inl hr)
  · exact charStep_ok_section c h hr
  · exact charStep_ok_sectEnd c h hr
  · exact charStep_ok_key c h hr
  · exact charStep_ok_equal c h hr
  · exact charStep_ok_value c h hr
  · exact charStep_ok_skip c h (Or.inr hr)

theorem Inv.toPost {st : FileConfig} {loc : Locals} (h : Inv st loc) : Post false st :=
  { wf := h.wf
    oob := h.oob
    len := fun hl hs => (h.lenBound hl hs).2.2.2
    decoded := by intro hh; cases hh }

theorem Post.putAtEnd {b : Bool} {st : FileConfig} (h : Post b st) (v : Bool) :
    Post b { st with atEnd := v } :=
  { wf := ⟨h.wf.lineLen, h.wf.sectionLen, h.wf.lineSizeLe, h.wf.sectionSizeLe⟩
    oob := h.oob
    len := h.len
    decoded := h.decoded }

theorem Post.putFile {b : Bool} {st : FileConfig} (h : Post b st) (v : List Nat) :
    Post b { st with file := v } :=
  { wf := ⟨h.wf.lineLen, h.wf.sectionLen, h.wf.lineSizeLe, h.wf.sectionSizeLe⟩
    oob := h.oob
    len := h.len
    decoded := h.decoded }

theorem Inv.keepAtEnd {st : FileConfig} {loc : Locals} (h : Inv st loc) (v : Bool) :
    Inv { st with atEnd := v } loc :=
  { wf := ⟨h.wf.lineLen, h.wf.sectionLen, h.wf.lineSizeLe, h.wf.sectionSizeLe⟩
    first := h.first, key := h.key, equal := h.equal, value := h.value, sect := h.sect
    sectEnd := h.sectEnd, bad := h.bad, oob := h.oob }

theorem Inv.keepLineCounter {st : FileConfig} {loc : Locals} (h : Inv st loc) (v : Nat) :
    Inv { st with lineCounter := v } loc :=
  { wf := ⟨h.wf.lineLen, h.wf.sectionLen, h.wf.lineSizeLe, h.wf.sectionSizeLe⟩
    first := h.first, key := h.key, equal := h.equal, value := h.value, sect := h.sect
    sectEnd := h.sectEnd, bad := h.bad, oob := h.oob }

/-- The `switch` after the inner loop keeps the return condition. -/
theorem lineSwitch_ok {st : FileConfig} {loc : Locals} (h : Inv st loc) :
    SwitchOK (lineSwitch st loc) := by
  obtain ⟨buf, bsz, isSec, rs⟩ := loc
  cases rs
  · exact h.toPost
  · exact h.toPost
  · show SwitchOK (if !st.ignoreError then .ret false { st with atEnd := true }
      else .done false st)
    split_ifs
    · exact h.toPost.putAtEnd true
    · exact h.toPost
  · obtain ⟨hb, -, h2⟩ := h.sectEnd rfl
    simp only at hb; subst hb
    have hw := h.wf.store .section_ st.lineLength 0
    exact
      { wf := ⟨hw.lineLen, hw.sectionLen, hw.lineSizeLe, hw.sectionSizeLe⟩
        oob := fun hl hs => h.store_oob (Or.inr (Or.inr (Or.inr (Or.inr rfl)))) hl hs 0
        len := fun hl hs => (h.lenBound hl hs).2.2.2
        decoded := by intro hh; cases hh }
  · show SwitchOK (if !st.ignoreError then .ret false { st with atEnd := true }
      else .done false st)
    split_ifs
    · exact h.toPost.putAtEnd true
    · exact h.toPost
  · show SwitchOK (if !st.ignoreError then .ret false { st with atEnd := true }
      else .done false st)
    split_ifs
    · exact h.toPost.putAtEnd true
    · exact h.toPost
  · obtain ⟨hb, -, h2, vi, v1, v2, v3, v4⟩ := h.value rfl
    simp only at hb; subst hb
    have hw := h.wf.store .line st.lineLength 0
    have hlt : st.lineLength < st.line.length := by rw [h.wf.lineLen]; omega
    exact
      { wf := hw
        oob := fun hl hs => h.store_oob (Or.inr (Or.inr (Or.inr (Or.inl rfl)))) hl hs 0
        len := fun hl hs => (h.lenBound hl hs).2.2.2
        decoded := fun _ => ⟨h2, getElem?_set_self_of_lt _ _ _ hlt, vi, v1, v2, v3, by
          show (st.line.set st.lineLength 0)[vi - 1]? = some 0
          rw [getElem?_set_of_ne _ _ _ _ (by omega)]; exact v4⟩ }
  · show SwitchOK (if !st.ignoreError then .ret false { st with atEnd := true }
      else .done false st)
    split_ifs
    · exact h.toPost.putAtEnd true
    · exact h.toPost

theorem Post.toInv {b : Bool} {st : FileConfig} (h : Post b st) :
    Inv (resetLine st) initLocals :=
  Inv.mkFirst (resetLine st) _ _ _
    ⟨h.wf.lineLen, h.wf.sectionLen, h.wf.lineSizeLe, h.wf.sectionSizeLe⟩ rfl h.oob

/-- The two loops keep the return condition: whatever the unread bytes, a call that is in
the inner loop with the invariant returns with the return condition. -/
theorem lineLoop_post (f : List Nat) :
    ∀ (st : FileConfig) (loc : Locals), Inv st loc →
      Post (lineLoop f st loc).1 (lineLoop f st loc).2 := by
  induction f with
  | nil =>
    intro st loc h
    have := lineSwitch_ok (h.keepAtEnd true)
    unfold lineLoop
    cases hsw : lineSwitch { st with atEnd := true } loc with
    | ret b st1 => rw [hsw] at this; exact Post.putFile this []
    | done sf st1 => rw [hsw] at this; exact Post.putFile this []
  | cons c rest ih =>
    intro st loc h
    unfold lineLoop
    by_cases h1 : c = CR
    · rw [if_pos h1]
      have := lineSwitch_ok h
      cases hsw : lineSwitch st loc with
      | ret b st1 => rw [hsw] at this; exact Post.putFile this rest
      | done sf st1 =>
        rw [hsw] at this
        simp only
        split_ifs
        · exact Post.putFile this rest
        · exact ih _ _ this.toInv
    · rw [if_neg h1]
      by_cases h2 : c = LF
      · rw [if_pos h2]
        have := lineSwitch_ok (h.keepLineCounter ((st.lineCounter + 1) % 65536))
        cases hsw : lineSwitch { st with lineCounter := (st.lineCounter + 1) % 65536 } loc with
        | ret b st1 => rw [hsw] at this; exact Post.putFile this rest
        | done sf st1 =>
          rw [hsw] at this
          simp only
          split_ifs
          · exact Post.putFile this rest
          · exact ih _ _ this.toInv
      · rw [if_neg h2]
        have := charStep_ok c h
        cases hcs : charStep c st loc with
        | ret b st1 => rw [hcs] at this; exact Post.putFile this rest
        | next st1 loc1 => rw [hcs] at this; exact ih _ _ this

theorem Post.weaken {b : Bool} {st : FileConfig} (h : Post b st) : Post false st :=
  { wf := h.wf, oob := h.oob, len := h.len, decoded := by intro hh; cases hh }

/-- A call keeps the return condition. -/
theorem readNextSetting_post {b : Bool} {st : FileConfig} (h : Post b st) :
    Post (readNextSetting st).1 (readNextSetting st).2 := by
  unfold readNextSetting
  split_ifs
  · exact h.weaken
  · exact lineLoop_post _ _ _ h.toInv

theorem afterCalls_post (n : Nat) :
    ∀ (st : FileConfig), Post false st → Post false (afterCalls n st) := by
  induction n with
  | zero => intro st h; exact h
  | succ n ih => intro st h; exact ih _ (readNextSetting_post h).weaken

/-- The state `begin` returns satisfies the return condition. -/
theorem begin_post (f : List Nat) (mll msl : Nat) (ic ie : Bool) (lm sm : Nat → Nat) :
    Post false (begin f mll msl ic ie lm sm) :=
  { wf :=
      ⟨begin_line_length f mll msl ic ie lm sm, begin_section_length f mll msl ic ie lm sm,
        by simp only [begin]; omega, by simp only [begin]; omega⟩
    oob := by
      intro _ hs
      simp only [begin] at hs ⊢
      exact decide_eq_false (by omega)
    len := by
      intro hl _
      simp only [begin] at hl ⊢
      exact Or.inl (by omega)
    decoded := by intro hh; cases hh }

theorem charStep_sizes (c : Nat) (st : FileConfig) (loc : Locals) :
    (∀ st1 loc1, charStep c st loc = .next st1 loc1 →
      st1.lineSize = st.lineSize ∧ st1.sectionSize = st.sectionSize) ∧
    (∀ b st1, charStep c st loc = .ret b st1 →
      st1.lineSize = st.lineSize ∧ st1.sectionSize = st.sectionSize) := by
  unfold charStep
  constructor
  · intro st1 loc1 h
    split_ifs at h <;> simp only [CharResult.next.injEq, reduceCtorEq] at h <;>
      obtain ⟨h1, -⟩ := h <;> subst h1 <;>
      first
        | exact ⟨rfl, rfl⟩
        | exact ⟨push_lineSize _ _ _, push_sectionSize _ _ _⟩
  · intro b st1 h
    split_ifs at h <;> simp only [CharResult.ret.injEq, reduceCtorEq] at h
    obtain ⟨-, h1⟩ := h
    subst h1
    exact ⟨store_lineSize _ _ _ _, store_sectionSize _ _ _ _⟩

theorem lineSwitch_sizes (st : FileConfig) (loc : Locals) :
    (∀ b st1, lineSwitch st loc = .ret b st1 →
      st1.lineSize = st.lineSize ∧ st1.sectionSize = st.sectionSize) ∧
    (∀ sf st1, lineSwitch st loc = .done sf st1 →
      st1.lineSize = st.lineSize ∧ st1.sectionSize = st.sectionSize) := by
  obtain ⟨buf, bsz, isSec, rs⟩ := loc
  constructor
  · intro b st1 h
    cases rs <;> simp only [lineSwitch, reduceCtorEq] at h <;>
      first
        | (split_ifs at h <;> simp only [LineResult.ret.injEq, reduceCtorEq] at h <;>
            obtain ⟨-, h1⟩ := h <;> subst h1 <;> exact ⟨rfl, rfl⟩)
  · intro sf st1 h
    cases rs <;> simp only [lineSwitch, reduceCtorEq, LineResult.done.injEq] at h <;>
      first
        | (obtain ⟨-, h1⟩ := h; subst h1
           first
             | exact ⟨rfl, rfl⟩
             | exact ⟨store_lineSize _ _ _ _, store_sectionSize _ _ _ _⟩)
        | (split_ifs at h <;> simp only [LineResult.done.injEq, reduceCtorEq] at h <;>
            obtain ⟨-, h1⟩ := h <;> subst h1 <;> exact ⟨rfl, rfl⟩)

theorem lineLoop_sizes (f : List Nat) :
    ∀ (st : FileConfig) (loc : Locals),
      (lineLoop f st loc).2.lineSize = st.lineSize ∧
        (lineLoop f st loc).2.sectionSize = st.sectionSize := by
  induction f with
  | nil =>
    intro st loc
    unfold lineLoop
    cases hsw : lineSwitch { st with atEnd := true } loc with
    | ret b st1 =>
      have := (lineSwitch_sizes { st with atEnd := true } loc).1 b st1 hsw
      exact this
    | done sf st1 =>
      have := (lineSwitch_sizes { st with atEnd := true } loc).2 sf st1 hsw
      exact this
  | cons c rest ih =>
    intro st loc
    unfold lineLoop
    by_cases h1 : c = CR
    · rw [if_pos h1]
      cases hsw : lineSwitch st loc with
      | ret b st1 =>
        have := (lineSwitch_sizes st loc).1 b st1 hsw
        exact this
      | done sf st1 =>
        have := (lineSwitch_sizes st loc).2 sf st1 hsw
        simp only
        split_ifs
        · exact this
        · have h2 := ih (resetLine st1) initLocals
          exact ⟨h2.1.trans this.1, h2.2.trans this.2⟩
    · rw [if_neg h1]
      by_cases h2 : c = LF
      · rw [if_pos h2]
        cases hsw : lineSwitch { st with lineCounter := (st.lineCounter + 1) % 65536 } loc with
        | ret b st1 =>
          have := (lineSwitch_sizes { st with lineCounter := (st.lineCounter + 1) % 65536 }
            loc).1 b st1 hsw
          exact this
        | done sf st1 =>
          have := (lineSwitch_sizes { st with lineCounter := (st.lineCounter + 1) % 65536 }
            loc).2 sf st1 hsw
          simp only
          split_ifs
          · exact this
          · have h2 := ih (resetLine st1) initLocals
            exact ⟨h2.1.trans this.1, h2.2.trans this.2⟩
      · rw [if_neg h2]
        cases hcs : charStep c st loc with
        | ret b st1 =>
          have := (charStep_sizes c st loc).2 b st1 hcs
          exact this
        | next st1 loc1 =>
          have := (charStep_sizes c st loc).1 st1 loc1 hcs
          have h2 := ih st1 loc1
          exact ⟨h2.1.trans this.1, h2.2.trans this.2⟩

theorem readNextSetting_sizes (st : FileConfig) :
    (readNextSetting st).2.lineSize = st.lineSize ∧
      (readNextSetting st).2.sectionSize = st.sectionSize := by
  unfold readNextSetting
  split_ifs
  · exact ⟨rfl, rfl⟩
  · exact lineLoop_sizes _ _ _

theorem afterCalls_sizes (n : Nat) :
    ∀ (st : FileConfig), (afterCalls n st).lineSize = st.lineSize ∧
      (afterCalls n st).sectionSize = st.sectionSize := by
  induction n with
  | zero => intro st; exact ⟨rfl, rfl⟩
  | succ n ih =>
    intro st
    have h1 := ih (readNextSetting st).2
    have h2 := readNextSetting_sizes st
    exact ⟨h1.1.trans h2.1, h1.2.trans h2.2⟩

/-! ## C19: every store stays inside its block -/

/-- C19: for 1 ≤ maxLineLength ≤ 254 and 1 ≤ maxSectionLength ≤ 254 and every stream, after
any number of `readNextSetting` calls no store has been made outside the block it was
aimed at (the flag `outOfBounds` that `store` raises at an index at or beyond the length
of the block is still false), and the two blocks still have their capacity of
`maxLineLength + 1` and `maxSectionLength + 1` bytes. -/
theorem stores_stay_inside_the_blocks (f : List Nat) (maxLineLength maxSectionLength : Nat)
    (ignoreCase ignoreError : Bool) (lineMem sectionMem : Nat → Nat) (n : Nat)
    (h1 : 1 ≤ maxLineLength) (h2 : maxLineLength ≤ 254)
    (h3 : 1 ≤ maxSectionLength) (h4 : maxSectionLength ≤ 254) :
    (afterCalls n (begin f maxLineLength maxSectionLength ignoreCase ignoreError
        lineMem sectionMem)).outOfBounds = false ∧
      (afterCalls n (begin f maxLineLength maxSectionLength ignoreCase ignoreError
        lineMem sectionMem)).line.length = maxLineLength + 1 ∧
      (afterCalls n (begin f maxLineLength maxSectionLength ignoreCase ignoreError
        lineMem sectionMem)).section_.length = maxSectionLength + 1 := by
  have hp := afterCalls_post n _
    (begin_post f maxLineLength maxSectionLength ignoreCase ignoreError lineMem sectionMem)
  have hs := afterCalls_sizes n
    (begin f maxLineLength maxSectionLength ignoreCase ignoreError lineMem sectionMem)
  have hl : (afterCalls n (begin f maxLineLength maxSectionLength ignoreCase ignoreError
      lineMem sectionMem)).lineSize = maxLineLength + 1 := by
    rw [hs.1]; exact begin_lineSize _ _ _ _ _ _ _ h2
  have hsz : (afterCalls n (begin f maxLineLength maxSectionLength ignoreCase ignoreError
      lineMem sectionMem)).sectionSize = maxSectionLength + 1 := by
    rw [hs.2]; exact begin_sectionSize _ _ _ _ _ _ _ h4
  refine ⟨hp.oob (by omega) (by omega), ?_, ?_⟩
  · rw [hp.wf.lineLen, hl]
  · rw [hp.wf.sectionLen, hsz]

theorem stores_stay_inside_the_blocks_witness :
    (1 ≤ 3 ∧ 3 ≤ 254 ∧ 1 ≤ 2 ∧ 2 ≤ 254) ∧
    ((afterCalls 2 (begin [91, 97, 98, 99, 93, 10, 107, 101, 121, 61, 118, 10] 3 2 false true
        (fun _ => 7) (fun _ => 7))).outOfBounds = false ∧
      (afterCalls 2 (begin [91, 97, 98, 99, 93, 10, 107, 101, 121, 61, 118, 10] 3 2 false true
        (fun _ => 7) (fun _ => 7))).line.length = 3 + 1 ∧
      (afterCalls 2 (begin [91, 97, 98, 99, 93, 10, 107, 101, 121, 61, 118, 10] 3 2 false true
        (fun _ => 7) (fun _ => 7))).section_.length = 2 + 1) :=
  ⟨by decide, stores_stay_inside_the_blocks _ 3 2 false true _ _ 2
    (by decide) (by decide) (by decide) (by decide)⟩

/-! ## C16: the line length and the capacity of the buffer in use -/

/-- The invariant holds at every read of the two loops. -/
theorem visited_inv (f : List Nat) :
    ∀ (st : FileConfig) (loc : Locals), Inv st loc →
      ∀ p ∈ visited f st loc, Inv p.1 p.2 := by
  induction f with
  | nil =>
    intro st loc h p hp
    simp only [visited, List.mem_singleton] at hp
    subst hp; exact h
  | cons c rest ih =>
    intro st loc h p hp
    unfold visited at hp
    rcases List.mem_cons.1 hp with hp | hp
    · subst hp; exact h
    · by_cases h1 : c = CR
      · rw [if_pos h1] at hp
        have := lineSwitch_ok h
        cases hsw : lineSwitch st loc with
        | ret b st1 => rw [hsw] at hp; simp at hp
        | done sf st1 =>
          rw [hsw] at hp this
          simp only at hp
          split_ifs at hp
          · simp at hp
          · exact ih _ _ this.toInv p hp
      · rw [if_neg h1] at hp
        by_cases h2 : c = LF
        · rw [if_pos h2] at hp
          have := lineSwitch_ok (h.keepLineCounter ((st.lineCounter + 1) % 65536))
          cases hsw : lineSwitch { st with lineCounter := (st.lineCounter + 1) % 65536 } loc with
          | ret b st1 => rw [hsw] at hp; simp at hp
          | done sf st1 =>
            rw [hsw] at hp this
            simp only at hp
            split_ifs at hp
            · simp at hp
            · exact ih _ _ this.toInv p hp
        · rw [if_neg h2] at hp
          have := charStep_ok c h
          cases hcs : charStep c st loc with
          | ret b st1 => rw [hcs] at hp; simp at hp
          | next st1 loc1 =>
            rw [hcs] at hp this
            exact ih _ _ this p hp

/-- The sizes of the two blocks at every read of the two loops are those at the start. -/
theorem visited_sizes (f : List Nat) :
    ∀ (st : FileConfig) (loc : Locals),
      ∀ p ∈ visited f st loc, p.1.lineSize = st.lineSize ∧ p.1.sectionSize = st.sectionSize := by
  induction f with
  | nil =>
    intro st loc p hp
    simp only [visited, List.mem_singleton] at hp
    subst hp; exact ⟨rfl, rfl⟩
  | cons c rest ih =>
    intro st loc p hp
    unfold visited at hp
    rcases List.mem_cons.1 hp with hp | hp
    · subst hp; exact ⟨rfl, rfl⟩
    · by_cases h1 : c = CR
      · rw [if_pos h1] at hp
        cases hsw : lineSwitch st loc with
        | ret b st1 => rw [hsw] at hp; simp at hp
        | done sf st1 =>
          have hz := (lineSwitch_sizes st loc).2 sf st1 hsw
          rw [hsw] at hp
          simp only at hp
          split_ifs at hp
          · simp at hp
          · have := ih _ _ p hp
            exact ⟨this.1.trans hz.1, this.2.trans hz.2⟩
      · rw [if_neg h1] at hp
        by_cases h2 : c = LF
        · rw [if_pos h2] at hp
          cases hsw : lineSwitch { st with lineCounter := (st.lineCounter + 1) % 65536 } loc with
          | ret b st1 => rw [hsw] at hp; simp at hp
          | done sf st1 =>
            have hz := (lineSwitch_sizes { st with lineCounter := (st.lineCounter + 1) % 65536 }
              loc).2 sf st1 hsw
            rw [hsw] at hp
            simp only at hp
            split_ifs at hp
            · simp at hp
            · have := ih _ _ p hp
              exact ⟨this.1.trans hz.1, this.2.trans hz.2⟩
        · rw [if_neg h2] at hp
          cases hcs : charStep c st loc with
          | ret b st1 => rw [hcs] at hp; simp at hp
          | next st1 loc1 =>
            have hz := (charStep_sizes c st loc).1 st1 loc1 hcs
            rw [hcs] at hp
            have := ih _ _ p hp
            exact ⟨this.1.trans hz.1, this.2.trans hz.2⟩

theorem Inv.lengthInBound {st : FileConfig} {loc : Locals} (h : Inv st loc)
    (hl : 2 ≤ st.lineSize) (hs : 2 ≤ st.sectionSize) : lengthInBound st loc = true := by
  obtain ⟨b1, b2, b3, -⟩ := h.lenBound hl hs
  unfold FileConfig.lengthInBound
  cases hb : loc.buffer
  · simp only [beq_iff_eq]; exact b3 hb
  · simp only [decide_eq_true_eq]; exact b2 hb
  · simp only [decide_eq_true_eq]; exact b1 hb

/-- In the four states that store, `bufferSize` is the size of the block `buffer` points to. -/
theorem Inv.bufferSize_eq {st : FileConfig} {loc : Locals} (h : Inv st loc)
    (hs : loc.readStep = .KeyName ∨ loc.readStep = .SectionName ∨ loc.readStep = .Equal
      ∨ loc.readStep = .Value) :
    (loc.buffer = .line ∧ loc.bufferSize = st.lineSize) ∨
      (loc.buffer = .section_ ∧ loc.bufferSize = st.sectionSize) := by
  rcases hs with hs | hs | hs | hs
  · exact Or.inl ⟨(h.key hs).1, (h.key hs).2.1⟩
  · exact Or.inr ⟨(h.sect hs).1, (h.sect hs).2.1⟩
  · exact Or.inl ⟨(h.equal hs).1, (h.equal hs).2.1⟩
  · exact Or.inl ⟨(h.value hs).1, (h.value hs).2.1⟩

/-- A byte read in a storing state with the buffer full ends the call: it returns false
with `_atEnd` set, and a null byte, not the byte read, is stored at `_lineLength`. -/
theorem lineLoop_overflow (c : Nat) (rest : List Nat) (st : FileConfig) (loc : Locals)
    (h1 : c ≠ CR) (h2 : c ≠ LF)
    (hrs : loc.readStep = .KeyName ∨ loc.readStep = .SectionName ∨ loc.readStep = .Equal
      ∨ loc.readStep = .Value)
    (hov : loc.bufferSize ≤ st.lineLength + 1) :
    lineLoop (c :: rest) st loc
      = (false, { store st loc.buffer st.lineLength 0 with atEnd := true, file := rest }) := by
  have hov2 : (st.lineLength : Int) ≥ (loc.bufferSize : Int) - 1 := by omega
  unfold lineLoop
  rw [if_neg h1, if_neg h2, charStep_overflow c st loc hrs hov2]

/-- C16, a header longer than the line buffer: with maxLineLength = 3 and
maxSectionLength = 10 the first call on `[abcdef]` / `k=v` returns true, and at one of its
reads `_lineLength` is at or above `_lineSize`. -/
theorem lineLength_reaches_lineSize_on_a_header :
    (readNextSetting (begin [91, 97, 98, 99, 100, 101, 102, 93, 10, 107, 61, 118, 10] 3 10
        false false (fun _ => 0) (fun _ => 0))).1 = true ∧
      ∃ p ∈ visitedCall (begin [91, 97, 98, 99, 100, 101, 102, 93, 10, 107, 61, 118, 10] 3 10
        false false (fun _ => 0) (fun _ => 0)), p.1.lineSize ≤ p.1.lineLength := by
  decide

/-- C16 as the code has it: for 1 ≤ maxLineLength ≤ 254 and 1 ≤ maxSectionLength ≤ 254, at
every read of every `readNextSetting` call the sizes are `maxLineLength + 1` and
`maxSectionLength + 1`, `_lineLength` is below the capacity of the block `buffer` points
to (and zero while `buffer` is `NULL`), in a storing state `bufferSize` is that capacity,
and a byte read there when `_lineLength + 1` has reached `bufferSize` makes the call
return false with `_atEnd` set, a null byte being stored in place of the byte. After every
call `_lineLength` is below one of the two capacities, and below `maxLineLength + 1`
after a call that returned true. -/
theorem lineLength_below_capacity_in_use (f : List Nat) (maxLineLength maxSectionLength : Nat)
    (ignoreCase ignoreError : Bool) (lineMem sectionMem : Nat → Nat) (n : Nat)
    (h1 : 1 ≤ maxLineLength) (h2 : maxLineLength ≤ 254)
    (h3 : 1 ≤ maxSectionLength) (h4 : maxSectionLength ≤ 254) :
    (∀ p ∈ visitedCall (afterCalls n (begin f maxLineLength maxSectionLength ignoreCase
          ignoreError lineMem sectionMem)),
        p.1.lineSize = maxLineLength + 1 ∧ p.1.sectionSize = maxSectionLength + 1 ∧
        lengthInBound p.1 p.2 = true ∧
        ((p.2.readStep = .KeyName ∨ p.2.readStep = .SectionName ∨ p.2.readStep = .Equal
            ∨ p.2.readStep = .Value) →
          ((p.2.buffer = .line ∧ p.2.bufferSize = maxLineLength + 1) ∨
            (p.2.buffer = .section_ ∧ p.2.bufferSize = maxSectionLength + 1)) ∧
          ∀ (c : Nat) (rest : List Nat), c ≠ CR → c ≠ LF →
            p.2.bufferSize ≤ p.1.lineLength + 1 →
            lineLoop (c :: rest) p.1 p.2
              = (false, { store p.1 p.2.buffer p.1.lineLength 0 with
                            atEnd := true, file := rest }))) ∧
      ((afterCalls n (begin f maxLineLength maxSectionLength ignoreCase ignoreError
            lineMem sectionMem)).lineLength < maxLineLength + 1 ∨
        (afterCalls n (begin f maxLineLength maxSectionLength ignoreCase ignoreError
            lineMem sectionMem)).lineLength < maxSectionLength + 1) ∧
      ((readNextSetting (afterCalls n (begin f maxLineLength maxSectionLength ignoreCase
            ignoreError lineMem sectionMem))).1 = true →
        (readNextSetting (afterCalls n (begin f maxLineLength maxSectionLength ignoreCase
            ignoreError lineMem sectionMem))).2.lineLength < maxLineLength + 1) := by
  have hp := afterCalls_post n _
    (begin_post f maxLineLength maxSectionLength ignoreCase ignoreError lineMem sectionMem)
  have hs := afterCalls_sizes n
    (begin f maxLineLength maxSectionLength ignoreCase ignoreError lineMem sectionMem)
  rw [begin_lineSize _ _ _ _ _ _ _ h2, begin_sectionSize _ _ _ _ _ _ _ h4] at hs
  generalize afterCalls n (begin f maxLineLength maxSectionLength ignoreCase ignoreError
    lineMem sectionMem) = st at hp hs
  obtain ⟨hl, hsz⟩ := hs
  refine ⟨?_, ?_, ?_⟩
  · intro p hmem
    unfold visitedCall at hmem
    split_ifs at hmem
    · simp at hmem
    · have hi := visited_inv _ _ _ hp.toInv p hmem
      have hz := visited_sizes _ _ _ p hmem
      have hz1 : p.1.lineSize = maxLineLength + 1 := hz.1.trans hl
      have hz2 : p.1.sectionSize = maxSectionLength + 1 := hz.2.trans hsz
      refine ⟨hz1, hz2, hi.lengthInBound (by omega) (by omega), ?_⟩
      intro hrs
      refine ⟨?_, fun c rest hc1 hc2 hov => lineLoop_overflow c rest p.1 p.2 hc1 hc2 hrs hov⟩
      rcases hi.bufferSize_eq hrs with ⟨hb, hbs⟩ | ⟨hb, hbs⟩
      · exact Or.inl ⟨hb, hbs.trans hz1⟩
      · exact Or.inr ⟨hb, hbs.trans hz2⟩
  · have := hp.len (by omega) (by omega)
    omega
  · intro hret
    have hq := readNextSetting_post hp
    have hz := readNextSetting_sizes st
    have := (hq.decoded hret).1
    omega

theorem lineLength_below_capacity_in_use_witness :
    (1 ≤ 3 ∧ 3 ≤ 254 ∧ 1 ≤ 10 ∧ 10 ≤ 254) ∧
    ((afterCalls 1 (begin [91, 97, 98, 99, 100, 101, 102, 93, 10, 107, 61, 118, 10] 3 10
          false false (fun _ => 0) (fun _ => 0))).lineLength < 3 + 1 ∨
      (afterCalls 1 (begin [91, 97, 98, 99, 100, 101, 102, 93, 10, 107, 61, 118, 10] 3 10
          false false (fun _ => 0) (fun _ => 0))).lineLength < 10 + 1) :=
  ⟨by decide, (lineLength_below_capacity_in_use _ 3 10 false false _ _ 1
    (by decide) (by decide) (by decide) (by decide)).2.1⟩


/-! ## Trimming: the two scans of `getValue(true)` -/

theorem getD_drop_zero (l : List Nat) (s i : Nat) : (l.drop s).getD i 0 = l.getD (s + i) 0 := by
  simp [List.getD_eq_getElem?_getD, List.getElem?_drop]

theorem getD_set_of_ne (l : List Nat) (i j x : Nat) (h : i ≠ j) :
    (l.set i x).getD j 0 = l.getD j 0 := by
  simp [List.getD_eq_getElem?_getD, List.getElem?_set, h]

theorem getD_set_self (l : List Nat) (i x : Nat) (h : i < l.length) :
    (l.set i x).getD i 0 = x := by
  simp [List.getD_eq_getElem?_getD, List.getElem?_set, h]

theorem getD_of_getElem? (l : List Nat) (i x : Nat) (h : l[i]? = some x) : l.getD i 0 = x := by
  simp [List.getD_eq_getElem?_getD, h]

theorem lt_length_of_getD_ne (l : List Nat) (i : Nat) (h : l.getD i 0 ≠ 0) : i < l.length := by
  by_contra hc
  exact h (by simp [List.getD_eq_getElem?_getD, List.getElem?_eq_none (Nat.le_of_not_lt hc)])

/-- The forward scan stops at the first byte that is no white space. -/
theorem skipSpaces_spec (xs : List Nat) :
    (∀ i, i < skipSpaces xs → isspace (xs.getD i 0) = true) ∧
      isspace (xs.getD (skipSpaces xs) 0) = false := by
  induction xs with
  | nil => exact ⟨fun i hi => by simp [skipSpaces] at hi, by decide⟩
  | cons c rest ih =>
    by_cases hc : isspace c = true
    · have hs : skipSpaces (c :: rest) = skipSpaces rest + 1 := by
        simp [skipSpaces, hc]
      rw [hs]
      refine ⟨?_, ?_⟩
      · intro i hi
        cases i with
        | zero => simpa using hc
        | succ j => simpa using ih.1 j (by omega)
      · simpa using ih.2
    · have hs : skipSpaces (c :: rest) = 0 := by
        simp [skipSpaces, hc]
      rw [hs]
      exact ⟨fun i hi => by omega, by simpa using hc⟩

/-- The backward scan stops at the last byte before `n` that is no white space. -/
theorem scanBack_spec (buf : List Nat) :
    ∀ (n e : Nat), e < n → isspace (buf.getD e 0) = false →
      ∃ b, scanBack buf n = some b ∧ e ≤ b ∧ b < n ∧ isspace (buf.getD b 0) = false ∧
        ∀ i, b < i → i < n → isspace (buf.getD i 0) = true := by
  intro n
  induction n with
  | zero => intro e he; omega
  | succ n ih =>
    intro e he hne
    by_cases hn : isspace (buf.getD n 0) = true
    · have hen : e < n := by
        rcases Nat.lt_or_ge e n with h | h
        · exact h
        · have : e = n := by omega
          subst this; rw [hn] at hne; cases hne
      obtain ⟨b, hb1, hb2, hb3, hb4, hb5⟩ := ih e hen hne
      refine ⟨b, ?_, hb2, by omega, hb4, ?_⟩
      · show (if isspace (buf.getD n 0) = true then scanBack buf n else some n) = some b
        rw [if_pos hn]; exact hb1
      · intro i hi1 hi2
        rcases Nat.lt_or_ge i n with h | h
        · exact hb5 i hi1 h
        · have : i = n := by omega
          subst this; exact hn
    · refine ⟨n, ?_, by omega, by omega, by simpa using hn, fun i h1 h2 => by omega⟩
      show (if isspace (buf.getD n 0) = true then scanBack buf n else some n) = some n
      rw [if_neg hn]

/-- The string at offset `s` when the first null byte at or after `s` is at `z`. -/
theorem cstr_eq_take (l : List Nat) (s z : Nat) (hsz : s ≤ z)
    (hnz : ∀ i, s ≤ i → i < z → l.getD i 0 ≠ 0) (hz : l.getD z 0 = 0) :
    cstr l s = (l.drop s).take (z - s) := by
  unfold cstr
  generalize hxs : l.drop s = xs
  have h1 : ∀ i, i < z - s → xs.getD i 0 ≠ 0 := by
    intro i hi
    rw [← hxs, getD_drop_zero]
    exact hnz _ (by omega) (by omega)
  have h2 : xs.getD (z - s) 0 = 0 := by
    rw [← hxs, getD_drop_zero]
    have : s + (z - s) = z := by omega
    rw [this]; exact hz
  generalize z - s = k at h1 h2
  clear hxs hnz hz hsz
  induction k generalizing xs with
  | zero =>
    cases xs with
    | nil => rfl
    | cons x xs =>
      have : x = 0 := by simpa using h2
      subst this
      simp
  | succ k ih =>
    cases xs with
    | nil => exact absurd rfl (h1 0 (by omega))
    | cons x xs =>
      have hx : x ≠ 0 := by simpa using h1 0 (by omega)
      rw [List.takeWhile_cons_of_pos (by simpa using hx), List.take_succ_cons]
      congr 1
      exact ih xs (fun i hi => by simpa using h1 (i + 1) (by omega)) (by simpa using h2)

theorem ValueAt.cond {st : FileConfig} {vi z : Nat} (h : ValueAt st vi z) :
    ¬ ((st.lineLength : Int) ≤ 0 ∨ st.valueIndex ≤ 1) := by
  have := h.len
  have := h.vi2
  rw [h.idx]
  omega

/-- The value is empty: `getValue(true)` returns the empty string and writes nothing. -/
theorem getValue_true_empty {st : FileConfig} {vi : Nat} (h : ValueAt st vi vi) :
    getValue st true = (some [], st) := by
  have h0 : st.line.getD vi 0 = 0 := h.zero
  have hc : cstr st.line vi = [] := by
    rw [cstr_eq_take st.line vi vi (le_refl _) (fun i h1 h2 => by omega) h0]
    simp
  unfold getValue
  rw [if_neg h.cond]
  simp only [h.idx, Int.toNat_ofNat, h0, if_true, hc]

/-- The value is not empty: where the two scans of `getValue(true)` stop, and what the
call returns and leaves behind. -/
theorem getValue_true_scans {st : FileConfig} {vi z : Nat} (h : ValueAt st vi z)
    (hlt : vi < z) :
    ∃ a b, vi ≤ a ∧ a ≤ z ∧ vi - 1 ≤ b ∧ b < z ∧
      isspace (st.line.getD a 0) = false ∧ isspace (st.line.getD b 0) = false ∧
      (∀ i, vi ≤ i → i < a → isspace (st.line.getD i 0) = true) ∧
      (∀ i, b < i → i < z → isspace (st.line.getD i 0) = true) ∧
      a = vi + skipSpaces (st.line.drop vi) ∧
      a + (cstr st.line a).length = z ∧
      scanBack st.line z = some b ∧
      getValue st true = (some (cstr (st.line.set (b + 1) 0) a), store st .line (b + 1) 0) := by
  have hsk := skipSpaces_spec (st.line.drop vi)
  have ha1 : ∀ i, vi ≤ i → i < vi + skipSpaces (st.line.drop vi) →
      isspace (st.line.getD i 0) = true := by
    intro i h1 h2
    have := hsk.1 (i - vi) (by omega)
    rw [getD_drop_zero] at this
    have e : vi + (i - vi) = i := by omega
    rw [e] at this; exact this
  have ha2 : isspace (st.line.getD (vi + skipSpaces (st.line.drop vi)) 0) = false := by
    have := hsk.2
    rw [getD_drop_zero] at this; exact this
  have haz : vi + skipSpaces (st.line.drop vi) ≤ z := by
    by_contra hc
    have := ha1 z h.le (by omega)
    rw [h.zero] at this
    exact absurd this (by decide)
  have hcs : cstr st.line (vi + skipSpaces (st.line.drop vi))
      = (st.line.drop (vi + skipSpaces (st.line.drop vi))).take
          (z - (vi + skipSpaces (st.line.drop vi))) :=
    cstr_eq_take _ _ _ haz (fun i h1 h2 => h.nonzero i (by omega) h2) h.zero
  have hlen : vi + skipSpaces (st.line.drop vi)
      + (cstr st.line (vi + skipSpaces (st.line.drop vi))).length = z := by
    rw [hcs, List.length_take, List.length_drop]
    have := h.lt
    omega
  obtain ⟨b, hb1, hb2, hb3, hb4, hb5⟩ :=
    scanBack_spec st.line z (vi - 1) (by have := h.vi2; omega) (by rw [h.keyEnd]; decide)
  refine ⟨_, b, Nat.le_add_right _ _, haz, hb2, hb3, ha2, hb4, ha1, hb5, rfl, hlen, hb1, ?_⟩
  have hne0 : ¬ (st.line.getD vi 0 = 0) := h.nonzero vi (le_refl _) hlt
  unfold getValue
  rw [if_neg h.cond]
  simp only [h.idx, Int.toNat_ofNat, hne0, if_false, Bool.not_true, Bool.false_eq_true, hlen,
    hb1]
  rfl

theorem store_line_valueAt {st : FileConfig} {vi z : Nat} (h : ValueAt st vi z) (b : Nat)
    (hb1 : vi ≤ b + 1) (hb2 : b < z) :
    ValueAt (store st .line (b + 1) 0) vi (b + 1) :=
  { len := h.len
    vi2 := h.vi2
    idx := h.idx
    keyEnd := by
      show (st.line.set (b + 1) 0).getD (vi - 1) 0 = 0
      rw [getD_set_of_ne _ _ _ _ (by have := h.vi2; omega)]; exact h.keyEnd
    le := hb1
    lt := by
      show b + 1 < (st.line.set (b + 1) 0).length
      rw [List.length_set]; have := h.lt; omega
    zero := by
      show (st.line.set (b + 1) 0).getD (b + 1) 0 = 0
      exact getD_set_self _ _ _ (by have := h.lt; omega)
    nonzero := by
      intro i h1 h2
      show (st.line.set (b + 1) 0).getD i 0 ≠ 0
      rw [getD_set_of_ne _ _ _ _ (by omega)]
      exact h.nonzero i h1 (by omega) }

theorem set_of_getD_zero (l : List Nat) (i : Nat) (h : l.getD i 0 = 0) : l.set i 0 = l := by
  apply List.ext_getElem?
  intro j
  by_cases hj : i = j
  · subst hj
    by_cases hl : i < l.length
    · rw [getElem?_set_self_of_lt _ _ _ hl]
      have : l.getD i 0 = l[i] := by simp [List.getD_eq_getElem?_getD, hl]
      rw [List.getElem?_eq_getElem hl, ← this, h]
    · rw [List.getElem?_eq_none (by rw [List.length_set]; omega),
        List.getElem?_eq_none (by omega)]
  · exact getElem?_set_of_ne _ _ _ _ hj

/-- The string `getName` returns is not touched by a null byte stored at or after
`_valueIndex`. -/
theorem getName_store_of_valueAt {st : FileConfig} {vi z : Nat} (h : ValueAt st vi z) (j : Nat)
    (hj : vi ≤ j) : getName (store st .line j 0) = getName st := by
  have hvi := h.vi2
  -- the first null byte of the line is at or before `vi - 1`
  have hz : ∃ z0, z0 ≤ vi - 1 ∧ st.line.getD z0 0 = 0 ∧
      ∀ i, i < z0 → st.line.getD i 0 ≠ 0 := by
    have hex : ∃ z0, st.line.getD z0 0 = 0 := ⟨vi - 1, h.keyEnd⟩
    classical
    refine ⟨Nat.find hex, Nat.find_min' hex h.keyEnd, Nat.find_spec hex, ?_⟩
    intro i hi
    exact Nat.find_min hex hi
  obtain ⟨z0, hz1, hz2, hz3⟩ := hz
  have e1 : cstr st.line 0 = (st.line.drop 0).take (z0 - 0) :=
    cstr_eq_take _ _ _ (Nat.zero_le _) (fun i _ h2 => hz3 i h2) hz2
  have e2 : cstr (st.line.set j 0) 0 = ((st.line.set j 0).drop 0).take (z0 - 0) :=
    cstr_eq_take _ _ _ (Nat.zero_le _)
      (fun i _ h2 => by rw [getD_set_of_ne _ _ _ _ (by omega)]; exact hz3 i h2)
      (by rw [getD_set_of_ne _ _ _ _ (by omega)]; exact hz2)
  have e3 : ((st.line.set j 0).drop 0).take (z0 - 0) = (st.line.drop 0).take (z0 - 0) := by
    simp only [List.drop_zero, Nat.sub_zero]
    rw [List.take_set_of_lt _ _ (by omega)]
  show (if ((store st .line j 0).lineLength : Int) ≤ 0 ∨ (store st .line j 0).valueIndex ≤ 1
      then none else some (cstr (st.line.set j 0) 0)) = getName st
  unfold getName
  rw [e2, e3, ← e1]
  rfl

theorem getValue_true_empty_of_eq {st : FileConfig} {vi z : Nat} (h : ValueAt st vi z)
    (e : vi = z) : getValue st true = (some [], st) := by
  subst e; exact getValue_true_empty h

/-- A value of white space only: the backward scan stops on the null byte that ends the
key, a null byte is stored at `_valueIndex`, and the empty string is returned, by the
first call and by a second one. -/
theorem getValue_true_blank {st : FileConfig} {vi z : Nat} (h : ValueAt st vi z)
    (hlt : vi < z) (hws : ∀ i, vi ≤ i → i < z → isspace (st.line.getD i 0) = true) :
    scanBack st.line (vi + skipSpaces (st.line.drop vi)
        + (cstr st.line (vi + skipSpaces (st.line.drop vi))).length) = some (vi - 1) ∧
      getValue st true = (some [], store st .line vi 0) ∧
      getValue (store st .line vi 0) true = (some [], store st .line vi 0) := by
  obtain ⟨a, b, ha0, haz, hb0, hbz, ha2, hb4, ha1, hb5, hadef, hlen, hscan, hget⟩ :=
    getValue_true_scans h hlt
  have hvi := h.vi2
  have haz2 : a = z := by
    by_contra hne
    have := hws a ha0 (by omega)
    rw [this] at ha2; cases ha2
  have hbv : b = vi - 1 := by
    by_contra hne
    have := hws b (by omega) hbz
    rw [this] at hb4; cases hb4
  have hb1 : b + 1 = vi := by omega
  rw [← hadef, hlen, hscan, hbv]
  refine ⟨rfl, ?_, ?_⟩
  · rw [hget, hb1, haz2]
    have : cstr (st.line.set vi 0) z = [] := by
      rw [cstr_eq_take _ z z (le_refl _) (fun i h1 h2 => by omega)
        (by rw [getD_set_of_ne _ _ _ _ (by omega)]; exact h.zero)]
      simp
    rw [this]
  · have h' := store_line_valueAt h b (by omega) hbz
    rw [hb1] at h'
    exact getValue_true_empty h'

theorem head?_take_drop (l : List Nat) (a k c : Nat)
    (h : ((l.drop a).take k).head? = some c) : c = l.getD a 0 := by
  rw [List.head?_eq_getElem?, List.getElem?_take] at h
  split_ifs at h
  rw [List.getElem?_drop, Nat.add_zero] at h
  simp [List.getD_eq_getElem?_getD, h]

theorem getLast?_take_drop (l : List Nat) (a k c : Nat) (hk0 : 0 < k) (hk : a + k ≤ l.length)
    (h : ((l.drop a).take k).getLast? = some c) : c = l.getD (a + k - 1) 0 := by
  have hl : ((l.drop a).take k).length = k := by
    rw [List.length_take, List.length_drop]; omega
  rw [List.getLast?_eq_getElem?, hl, List.getElem?_take] at h
  rw [if_pos (by omega), List.getElem?_drop] at h
  have e : a + (k - 1) = a + k - 1 := by omega
  rw [e] at h
  simp [List.getD_eq_getElem?_getD, h]

/-- Trimming twice: the second `getValue(true)` returns the bytes the first one returned,
and they neither start nor end with white space. -/
theorem getValue_true_twice {st : FileConfig} {vi z : Nat} (h : ValueAt st vi z) :
    ∃ w, (getValue st true).1 = some w ∧
      (getValue (getValue st true).2 true).1 = some w ∧
      (∀ c, w.head? = some c → isspace c = false) ∧
      (∀ c, w.getLast? = some c → isspace c = false) ∧
      getName (getValue st true).2 = getName st := by
  have hvi := h.vi2
  rcases Nat.eq_or_lt_of_le h.le with he | hlt
  · rw [getValue_true_empty_of_eq h he]
    refine ⟨[], rfl, ?_, (by intro c hc; cases hc), (by intro c hc; cases hc), rfl⟩
    show (getValue st true).1 = some []
    rw [getValue_true_empty_of_eq h he]
  · by_cases hws : ∀ i, vi ≤ i → i < z → isspace (st.line.getD i 0) = true
    · obtain ⟨-, h1, h2⟩ := getValue_true_blank h hlt hws
      rw [h1]
      refine ⟨[], rfl, ?_, (by intro c hc; cases hc), (by intro c hc; cases hc), ?_⟩
      · show (getValue (store st .line vi 0) true).1 = some []
        rw [h2]
      · exact getName_store_of_valueAt h vi (le_refl _)
    · push_neg at hws
      obtain ⟨i0, hi1, hi2, hi3⟩ := hws
      obtain ⟨a, b, ha0, haz, hb0, hbz, ha2, hb4, ha1, hb5, -, -, hscan, hget⟩ :=
        getValue_true_scans h hlt
      have hai : a ≤ i0 := by
        by_contra hc
        exact hi3 (ha1 i0 hi1 (by omega))
      have hbi : i0 ≤ b := by
        by_contra hc
        exact hi3 (hb5 i0 (by omega) hi2)
      have h' := store_line_valueAt h b (by omega) hbz
      have hagree : ∀ i, i ≤ b → (store st .line (b + 1) 0).line.getD i 0 = st.line.getD i 0 := by
        intro i hi
        exact getD_set_of_ne _ _ _ _ (by omega)
      obtain ⟨a', b', ha0', haz', hb0', hbz', ha2', hb4', ha1', hb5', -, -, -, hget'⟩ :=
        getValue_true_scans h' (by omega)
      have haa : a' = a := by
        rcases Nat.lt_trichotomy a' a with hlt' | heq | hgt
        · have := ha1 a' ha0' hlt'
          rw [← hagree a' (by omega), ha2'] at this; cases this
        · exact heq
        · have := ha1' a ha0 hgt
          rw [hagree a (by omega), ha2] at this; cases this
      have hbb : b' = b := by
        rcases Nat.lt_trichotomy b' b with hlt' | heq | hgt
        · have := hb5' b hlt' (by omega)
          rw [hagree b (le_refl _), hb4] at this; cases this
        · exact heq
        · omega
      have hset : (store st .line (b + 1) 0).line.set (b + 1) 0 = (store st .line (b + 1) 0).line :=
        set_of_getD_zero _ _ h'.zero
      have hw : cstr (st.line.set (b + 1) 0) a
          = ((st.line.set (b + 1) 0).drop a).take (b + 1 - a) :=
        cstr_eq_take _ a (b + 1) (by omega) (fun i h1 h2 => h'.nonzero i (by omega) h2) h'.zero
      have hlen' : a + (b + 1 - a) ≤ (st.line.set (b + 1) 0).length := by
        have := h'.lt
        have e : (store st .line (b + 1) 0).line = st.line.set (b + 1) 0 := rfl
        rw [e] at this
        omega
      rw [hget]
      refine ⟨_, rfl, ?_, ?_, ?_, getName_store_of_valueAt h (b + 1) (by omega)⟩
      · show (getValue (store st .line (b + 1) 0) true).1 = _
        rw [hget', hbb, haa, hset]
        rfl
      · intro c hc
        rw [hw] at hc
        have := head?_take_drop _ _ _ _ hc
        rw [this]
        have e := hagree a (by omega)
        rw [← ha2, ← e]
        rfl
      · intro c hc
        rw [hw] at hc
        have := getLast?_take_drop _ _ _ _ (by omega) hlen' hc
        rw [this]
        have e := hagree b (le_refl _)
        have e2 : a + (b + 1 - a) - 1 = b := by omega
        rw [e2, ← hb4, ← e]
        rfl

/-- After a call that returned true and left a `_valueIndex` above 1, the line buffer holds
the key, a null byte, the value and a null byte. -/
theorem Post.valueAt {st : FileConfig} (h : Post true st) (hv : 1 < st.valueIndex) :
    ∃ vi z, ValueAt st vi z := by
  obtain ⟨h1, h2, vi, v1, v2, v3, v4⟩ := h.decoded rfl
  have h255 := h.wf.lineSizeLe
  have hvi : vi < 128 := by
    rw [v3] at hv
    unfold toInt8 at hv
    have e : vi % 256 = vi := Nat.mod_eq_of_lt (by omega)
    rw [e] at hv
    split_ifs at hv with hlt
    · exact hlt
    · omega
  have hex : ∃ z, vi ≤ z ∧ st.line.getD z 0 = 0 :=
    ⟨st.lineLength, v2, getD_of_getElem? _ _ _ h2⟩
  classical
  have hz1 := Nat.find_spec hex
  have hz2 : Nat.find hex ≤ st.lineLength :=
    Nat.find_min' hex ⟨v2, getD_of_getElem? _ _ _ h2⟩
  refine ⟨vi, Nat.find hex,
    { len := by omega
      vi2 := v1
      idx := by rw [v3]; exact toInt8_small vi hvi
      keyEnd := getD_of_getElem? _ _ _ v4
      le := hz1.1
      lt := by rw [h.wf.lineLen]; omega
      zero := hz1.2
      nonzero := ?_ }⟩
  intro i hi1 hi2 hi3
  exact Nat.find_min hex hi2 ⟨hi1, hi3⟩

theorem afterCalls_readNextSetting_post (f : List Nat) (mll msl : Nat) (ic ie : Bool)
    (lm sm : Nat → Nat) (n : Nat) :
    Post (readNextSetting (afterCalls n (begin f mll msl ic ie lm sm))).1
      (readNextSetting (afterCalls n (begin f mll msl ic ie lm sm))).2 :=
  readNextSetting_post (afterCalls_post n _ (begin_post f mll msl ic ie lm sm))

/-! ## C12: trimming twice -/

/-- C12: with maxLineLength ≤ 127, after any call of `readNextSetting` that returned true
(leaving the state `st`), `getValue(true)` returns a string `w`, a second `getValue(true)`
returns the same bytes `w`, and `w` neither starts nor ends with a white-space
character. -/
theorem trimming_is_idempotent (f : List Nat) (maxLineLength maxSectionLength : Nat)
    (ignoreCase ignoreError : Bool) (lineMem sectionMem : Nat → Nat) (n : Nat)
    (st : FileConfig) (h127 : maxLineLength ≤ 127)
    (hst : readNextSetting (afterCalls n (begin f maxLineLength maxSectionLength ignoreCase
      ignoreError lineMem sectionMem)) = (true, st)) :
    ∃ w,
      (getValue st true).1 = some w ∧
      (getValue (getValue st true).2 true).1 = some w ∧
      (∀ c, w.head? = some c → isspace c = false) ∧
      (∀ c, w.getLast? = some c → isspace c = false) := by
  have hp := afterCalls_readNextSetting_post f maxLineLength maxSectionLength ignoreCase
    ignoreError lineMem sectionMem n
  have hs1 := readNextSetting_sizes (afterCalls n (begin f maxLineLength maxSectionLength
    ignoreCase ignoreError lineMem sectionMem))
  have hs2 := afterCalls_sizes n (begin f maxLineLength maxSectionLength
    ignoreCase ignoreError lineMem sectionMem)
  have hsz := hs1.1.trans (hs2.1.trans (begin_lineSize f maxLineLength maxSectionLength
    ignoreCase ignoreError lineMem sectionMem (by omega)))
  rw [hst] at hp hsz
  simp only at hp hsz
  obtain ⟨h1, -, vi, v1, v2, v3, -⟩ := hp.decoded rfl
  have hv : 1 < st.valueIndex := by
    rw [v3, toInt8_small vi (by omega)]
    omega
  obtain ⟨vi', z, hva⟩ := hp.valueAt hv
  obtain ⟨w, hw1, hw2, hw3, hw4, -⟩ := getValue_true_twice hva
  exact ⟨w, hw1, hw2, hw3, hw4⟩

theorem trimming_is_idempotent_witness :
    (20 ≤ 127 ∧
      readNextSetting (afterCalls 0 (begin [107, 61, 32, 97, 32, 98, 32, 10] 20 10 false false
          (fun _ => 7) (fun _ => 7)))
        = (true, (readNextSetting (afterCalls 0 (begin [107, 61, 32, 97, 32, 98, 32, 10] 20 10
          false false (fun _ => 7) (fun _ => 7)))).2)) ∧
    ∃ w,
      (getValue (readNextSetting (afterCalls 0 (begin [107, 61, 32, 97, 32, 98, 32, 10] 20 10
        false false (fun _ => 7) (fun _ => 7)))).2 true).1 = some w ∧
      (getValue (getValue (readNextSetting (afterCalls 0 (begin
        [107, 61, 32, 97, 32, 98, 32, 10] 20 10 false false (fun _ => 7)
        (fun _ => 7)))).2 true).2 true).1 = some w ∧
      (∀ c, w.head? = some c → isspace c = false) ∧
      (∀ c, w.getLast? = some c → isspace c = false) :=
  ⟨⟨by decide, Prod.ext (by decide) rfl⟩,
    trimming_is_idempotent _ 20 10 false false _ _ 0 _ (by decide)
      (Prod.ext (by decide) rfl)⟩

/-! ## C13: a value of white space only -/

/-- C13: after any call of `readNextSetting` that returned true (leaving the state `st`),
when the raw value `getValue(false)` is a non-empty string `v` of spaces, tabs, vertical
tabs and form feeds, `getValue(true)` returns the empty string (not `NULL`); the backward
scan of that call, started where the code starts it (at the end of the string that follows
the leading white space), stops at the index before `_valueIndex`, which holds the null
byte that ends the key; and `getName()` returns the same key, not `NULL`, after the call
as before. -/
theorem blank_value_trims_to_empty (f : List Nat) (maxLineLength maxSectionLength : Nat)
    (ignoreCase ignoreError : Bool) (lineMem sectionMem : Nat → Nat) (n : Nat)
    (st : FileConfig) (v : List Nat)
    (hst : readNextSetting (afterCalls n (begin f maxLineLength maxSectionLength ignoreCase
      ignoreError lineMem sectionMem)) = (true, st))
    (hraw : (getValue st false).1 = some v)
    (hne : v ≠ [])
    (hws : ∀ c ∈ v, c = SP ∨ c = TAB ∨ c = 11 ∨ c = 12) :
    (getValue st true).1 = some [] ∧
      scanBack st.line
          (st.valueIndex.toNat + skipSpaces (st.line.drop st.valueIndex.toNat)
            + (cstr st.line (st.valueIndex.toNat
                + skipSpaces (st.line.drop st.valueIndex.toNat))).length)
        = some (st.valueIndex.toNat - 1) ∧
      st.line.getD (st.valueIndex.toNat - 1) 0 = 0 ∧
      getName (getValue st true).2 = getName st ∧
      getName st ≠ none := by
  have hp := afterCalls_readNextSetting_post f maxLineLength maxSectionLength ignoreCase
    ignoreError lineMem sectionMem n
  rw [hst] at hp
  simp only at hp
  rw [getValue_false_fst] at hraw
  have hcond : ¬ ((st.lineLength : Int) ≤ 0 ∨ st.valueIndex ≤ 1) := by
    intro hc
    rw [if_pos hc] at hraw
    cases hraw
  rw [if_neg hcond] at hraw
  have hv : 1 < st.valueIndex := by omega
  obtain ⟨vi, z, hva⟩ := hp.valueAt hv
  have htn : st.valueIndex.toNat = vi := by rw [hva.idx]; exact Int.toNat_ofNat vi
  rw [htn] at hraw ⊢
  have hveq : v = (st.line.drop vi).take (z - vi) := by
    have := cstr_eq_take st.line vi z hva.le hva.nonzero hva.zero
    rw [this] at hraw
    exact (Option.some.inj hraw).symm
  have hvlen : v.length = z - vi := by
    rw [hveq, List.length_take, List.length_drop]
    have := hva.lt
    omega
  have hlt : vi < z := by
    have : 0 < v.length := List.length_pos.mpr hne
    omega
  have hsp : ∀ i, vi ≤ i → i < z → isspace (st.line.getD i 0) = true := by
    intro i h1 h2
    have hil : i < st.line.length := by have := hva.lt; omega
    have hmem : st.line.getD i 0 ∈ v := by
      rw [hveq]
      apply List.mem_iff_getElem?.mpr
      refine ⟨i - vi, ?_⟩
      rw [List.getElem?_take, if_pos (by omega), List.getElem?_drop]
      have e : vi + (i - vi) = i := by omega
      rw [e, List.getElem?_eq_getElem hil]
      simp [List.getD_eq_getElem?_getD, hil]
    rcases hws _ hmem with h | h | h | h <;> rw [h] <;> decide
  obtain ⟨b1, b2, -⟩ := getValue_true_blank hva hlt hsp
  refine ⟨by rw [b2], b1, hva.keyEnd, ?_, ?_⟩
  · rw [b2]
    exact getName_store_of_valueAt hva vi (le_refl _)
  · unfold getName
    rw [if_neg hcond]
    exact Option.some_ne_none _

theorem blank_value_trims_to_empty_witness :
    (readNextSetting (afterCalls 0 (begin [107, 61, 32, 9, 10] 20 10 false false
          (fun _ => 7) (fun _ => 7)))
        = (true, (readNextSetting (afterCalls 0 (begin [107, 61, 32, 9, 10] 20 10 false false
          (fun _ => 7) (fun _ => 7)))).2) ∧
      (getValue (readNextSetting (afterCalls 0 (begin [107, 61, 32, 9, 10] 20 10 false false
          (fun _ => 7) (fun _ => 7)))).2 false).1 = some [32, 9] ∧
      [32, 9] ≠ [] ∧ ∀ c ∈ [32, 9], c = SP ∨ c = TAB ∨ c = 11 ∨ c = 12) ∧
    (getValue (readNextSetting (afterCalls 0 (begin [107, 61, 32, 9, 10] 20 10 false false
        (fun _ => 7) (fun _ => 7)))).2 true).1 = some [] :=
  ⟨⟨Prod.ext (by decide) rfl, by decide, by decide, by decide⟩,
    (blank_value_trims_to_empty _ 20 10 false false _ _ 0 _ [32, 9]
      (Prod.ext (by decide) rfl) (by decide) (by decide) (by decide)).1⟩


/-! ## C11: CR LF line ends -/

theorem store_lineCounter (st : FileConfig) (buf : Buffer) (i x : Nat) :
    (store st buf i x).lineCounter = st.lineCounter := by cases buf <;> rfl

theorem push_lineCounter (st : FileConfig) (buf : Buffer) (x : Nat) :
    (push st buf x).lineCounter = st.lineCounter := by cases buf <;> rfl

theorem charStep_lineCounter (c : Nat) (st : FileConfig) (loc : Locals) :
    (∀ st1 loc1, charStep c st loc = .next st1 loc1 → st1.lineCounter = st.lineCounter) ∧
    (∀ b st1, charStep c st loc = .ret b st1 → st1.lineCounter = st.lineCounter) := by
  unfold charStep
  constructor
  · intro st1 loc1 h
    split_ifs at h <;> simp only [CharResult.next.injEq, reduceCtorEq] at h <;>
      obtain ⟨h1, -⟩ := h <;> subst h1 <;>
      first
        | rfl
        | exact push_lineCounter _ _ _
  · intro b st1 h
    split_ifs at h <;> simp only [CharResult.ret.injEq, reduceCtorEq] at h
    obtain ⟨-, h1⟩ := h
    subst h1
    exact store_lineCounter _ _ _ _

theorem lineSwitch_lineCounter (st : FileConfig) (loc : Locals) :
    (∀ b st1, lineSwitch st loc = .ret b st1 → st1.lineCounter = st.lineCounter) ∧
    (∀ sf st1, lineSwitch st loc = .done sf st1 → st1.lineCounter = st.lineCounter) := by
  obtain ⟨buf, bsz, isSec, rs⟩ := loc
  constructor
  · intro b st1 h
    cases rs <;> simp only [lineSwitch, reduceCtorEq] at h <;>
      first
        | (split_ifs at h <;> simp only [LineResult.ret.injEq, reduceCtorEq] at h <;>
            obtain ⟨-, h1⟩ := h <;> subst h1 <;> rfl)
  · intro sf st1 h
    cases rs <;> simp only [lineSwitch, reduceCtorEq, LineResult.done.injEq] at h <;>
      first
        | (obtain ⟨-, h1⟩ := h; subst h1
           first
             | rfl
             | exact store_lineCounter _ _ _ _)
        | (split_ifs at h <;> simp only [LineResult.done.injEq, reduceCtorEq] at h <;>
            obtain ⟨-, h1⟩ := h <;> subst h1 <;> rfl)

theorem crlf_cons_LF (r : List Nat) : crlf (LF :: r) = CR :: LF :: crlf r := by
  simp [crlf]

theorem crlf_cons_of_ne (c : Nat) (r : List Nat) (h : c ≠ LF) : crlf (c :: r) = c :: crlf r := by
  simp [crlf, h]

theorem crlf_ret {a1 b1 : FileConfig} (bret : Bool) (hs : Sim a1 b1)
    (hrec : bret = true → record a1 = record b1) (fa fb : List Nat)
    (hrel : (fa = crlf fb ∧ a1.lineCounter = b1.lineCounter) ∨
      (fa = LF :: crlf fb ∧ b1.lineCounter = (a1.lineCounter + 1) % 65536))
    (hcr : ∀ c ∈ fb, c ≠ CR) :
    SameResult (bret, { a1 with file := fa }) (bret, { b1 with file := fb }) ∧
      CrlfRel { a1 with file := fa } { b1 with file := fb } ∧
      ∀ c ∈ ({ b1 with file := fb } : FileConfig).file, c ≠ CR := by
  refine ⟨⟨rfl, hs.setFile _ _, fun hb => ?_⟩, hrel, hcr⟩
  show record { a1 with file := fa } = record { b1 with file := fb }
  rw [record_setFile a1, record_setFile b1]
  exact hrec hb

theorem lineLoop_cons_CR (rest : List Nat) (st : FileConfig) (loc : Locals) :
    lineLoop (CR :: rest) st loc
      = match lineSwitch st loc with
        | .ret b st1 => (b, { st1 with file := rest })
        | .done settingFound st1 =>
            if st1.atEnd || settingFound then (settingFound, { st1 with file := rest })
            else lineLoop rest (resetLine st1) initLocals := by
  conv_lhs => unfold lineLoop
  rw [if_pos rfl]

theorem lineLoop_cons_LF (rest : List Nat) (st : FileConfig) (loc : Locals) :
    lineLoop (LF :: rest) st loc
      = match lineSwitch { st with lineCounter := (st.lineCounter + 1) % 65536 } loc with
        | .ret b st1 => (b, { st1 with file := rest })
        | .done settingFound st1 =>
            if st1.atEnd || settingFound then (settingFound, { st1 with file := rest })
            else lineLoop rest (resetLine st1) initLocals := by
  conv_lhs => unfold lineLoop
  rw [if_neg (by decide), if_pos rfl]

theorem lineLoop_cons_char (c : Nat) (rest : List Nat) (st : FileConfig) (loc : Locals)
    (h1 : c ≠ CR) (h2 : c ≠ LF) :
    lineLoop (c :: rest) st loc
      = match charStep c st loc with
        | .ret b st1 => (b, { st1 with file := rest })
        | .next st1 loc1 => lineLoop rest st1 loc1 := by
  conv_lhs => unfold lineLoop
  rw [if_neg h1, if_neg h2]

theorem lineLoop_nil (st : FileConfig) (loc : Locals) :
    lineLoop [] st loc
      = match lineSwitch { st with atEnd := true } loc with
        | .ret b st1 => (b, { st1 with file := [] })
        | .done settingFound st1 => (settingFound, { st1 with file := [] }) := by
  conv_lhs => unfold lineLoop

/-- The run on `crlf t` and the run on `t`, from two states that decode the same and have
counted the same lines: the same result, and the unread texts and the counters related as
`CrlfRel` says. -/
theorem lineLoop_crlf (t : List Nat) :
    ∀ (a b : FileConfig) (loc : Locals), (∀ c ∈ t, c ≠ CR) → SimAt a b loc →
      a.lineCounter = b.lineCounter →
      SameResult (lineLoop (crlf t) a loc) (lineLoop t b loc) ∧
        CrlfRel (lineLoop (crlf t) a loc).2 (lineLoop t b loc).2 ∧
        ∀ c ∈ (lineLoop t b loc).2.file, c ≠ CR := by
  induction t with
  | nil =>
    intro a b loc _ h hlc
    have hcrlf : crlf [] = [] := rfl
    rw [hcrlf, lineLoop_nil, lineLoop_nil]
    rcases lineSwitch_sim (a := { a with atEnd := true }) (b := { b with atEnd := true })
      (h.sim.setAtEnd true) (fun hr => h.keyOK (Or.inr (Or.inr hr)))
      (fun hr => h.take (Or.inr (Or.inr hr))) (fun hr => h.valOK hr) with
      ⟨a1, b1, e1, e2, hs, _⟩ | ⟨sf, a1, b1, e1, e2, hs, hae, hrec⟩
    · have l1 := (lineSwitch_lineCounter { a with atEnd := true } loc).1 _ _ e1
      have l2 := (lineSwitch_lineCounter { b with atEnd := true } loc).1 _ _ e2
      rw [e1, e2]
      exact crlf_ret false hs (by simp) [] []
        (Or.inl ⟨rfl, l1.trans (hlc.trans l2.symm)⟩) (by simp)
    · have l1 := (lineSwitch_lineCounter { a with atEnd := true } loc).2 _ _ e1
      have l2 := (lineSwitch_lineCounter { b with atEnd := true } loc).2 _ _ e2
      rw [e1, e2]
      exact crlf_ret sf hs hrec [] []
        (Or.inl ⟨rfl, l1.trans (hlc.trans l2.symm)⟩) (by simp)
  | cons c rest ih =>
    intro a b loc hcr h hlc
    have hcr' : ∀ x ∈ rest, x ≠ CR := fun x hx => hcr x (List.mem_cons_of_mem _ hx)
    have hc1 : c ≠ CR := hcr c (List.mem_cons_self _ _)
    by_cases hc2 : c = LF
    · subst hc2
      rw [crlf_cons_LF, lineLoop_cons_CR, lineLoop_cons_LF]
      rcases lineSwitch_sim (a := a) (b := { b with lineCounter := (b.lineCounter + 1) % 65536 })
        (h.sim.setLineCounter a.lineCounter _) (fun hr => h.keyOK (Or.inr (Or.inr hr)))
        (fun hr => h.take (Or.inr (Or.inr hr))) (fun hr => h.valOK hr) with
        ⟨a1, b1, e1, e2, hs, _⟩ | ⟨sf, a1, b1, e1, e2, hs, hae, hrec⟩
      · have l1 := (lineSwitch_lineCounter a loc).1 _ _ e1
        have l2 : b1.lineCounter = (b.lineCounter + 1) % 65536 :=
          (lineSwitch_lineCounter { b with lineCounter := (b.lineCounter + 1) % 65536 }
            loc).1 _ _ e2
        rw [e1, e2]
        exact crlf_ret false hs (by simp) _ _ (Or.inr ⟨rfl, by rw [l2, l1, hlc]⟩) hcr'
      · have l1 := (lineSwitch_lineCounter a loc).2 _ _ e1
        have l2 : b1.lineCounter = (b.lineCounter + 1) % 65536 :=
          (lineSwitch_lineCounter { b with lineCounter := (b.lineCounter + 1) % 65536 }
            loc).2 _ _ e2
        have hae1 : a1.atEnd = false := hae.trans h.notEnd
        have hbe1 : b1.atEnd = false := by rw [← hs.atEnd]; exact hae1
        rw [e1, e2]
        simp only
        cases sf with
        | true =>
          rw [if_pos (by simp), if_pos (by simp)]
          exact crlf_ret true hs hrec _ _ (Or.inr ⟨rfl, by rw [l2, l1, hlc]⟩) hcr'
        | false =>
          rw [if_neg (by simp [hae1]), if_neg (by simp [hbe1])]
          have hblank := lineLoop_comment_or_blank [] (crlf rest) (resetLine a1) rfl hae1
          rw [List.nil_append] at hblank
          rw [hblank]
          have hsim : Sim
              (resetLine { resetLine a1 with
                lineCounter := ((resetLine a1).lineCounter + 1) % 65536 })
              (resetLine b1) :=
            ⟨hs.atEnd, hs.lineLen, hs.lineSize, rfl, rfl, hs.section_eq, rfl,
              hs.sectionSize, hs.ignoreCase, hs.ignoreError, hs.lineSizeLe, hs.sectionSizeLe⟩
          refine ih _ _ _ hcr' (simAt_of_reset hsim hae1) ?_
          show (a1.lineCounter + 1) % 65536 = b1.lineCounter
          rw [l2, l1, hlc]
    · rw [crlf_cons_of_ne c rest hc2, lineLoop_cons_char c _ a loc hc1 hc2,
        lineLoop_cons_char c _ b loc hc1 hc2]
      rcases charStep_sim c h with ⟨a1, b1, e1, e2, hs, _⟩ | ⟨a1, b1, loc1, e1, e2, hs⟩
      · have l1 := (charStep_lineCounter c a loc).2 _ _ e1
        have l2 := (charStep_lineCounter c b loc).2 _ _ e2
        rw [e1, e2]
        exact crlf_ret false hs (by simp) _ _ (Or.inl ⟨rfl, l1.trans (hlc.trans l2.symm)⟩) hcr'
      · have l1 := (charStep_lineCounter c a loc).1 _ _ e1
        have l2 := (charStep_lineCounter c b loc).1 _ _ e2
        rw [e1, e2]
        exact ih _ _ _ hcr' hs (l1.trans (hlc.trans l2.symm))

theorem readNextSetting_crlf {a b : FileConfig} (h : Sim a b) (hrel : CrlfRel a b)
    (hcr : ∀ c ∈ b.file, c ≠ CR) :
    SameResult (readNextSetting a) (readNextSetting b) ∧
      CrlfRel (readNextSetting a).2 (readNextSetting b).2 ∧
      ∀ c ∈ (readNextSetting b).2.file, c ≠ CR := by
  by_cases hend : a.atEnd = true
  · rw [readNextSetting_of_atEnd a hend,
      readNextSetting_of_atEnd b (by rw [← h.atEnd]; exact hend)]
    exact ⟨⟨rfl, h, fun hb => absurd hb (by simp)⟩, hrel, hcr⟩
  · have hend1 : a.atEnd = false := by simpa using hend
    rw [readNextSetting_eq_loopHead a hend1,
      readNextSetting_eq_loopHead b (by rw [← h.atEnd]; exact hend1)]
    unfold loopHead
    rcases hrel with ⟨hf, hlc⟩ | ⟨hf, hlc⟩
    · rw [hf]
      exact lineLoop_crlf b.file _ _ _ hcr (simAt_reset h hend1) hlc
    · rw [hf]
      have hblank := lineLoop_comment_or_blank [] (crlf b.file) (resetLine a) rfl hend1
      rw [List.nil_append] at hblank
      rw [hblank]
      have hsim : Sim
          (resetLine { resetLine a with lineCounter := ((resetLine a).lineCounter + 1) % 65536 })
          (resetLine b) :=
        ⟨h.atEnd, h.lineLen, h.lineSize, rfl, rfl, h.section_eq, rfl,
          h.sectionSize, h.ignoreCase, h.ignoreError, h.lineSizeLe, h.sectionSizeLe⟩
      exact lineLoop_crlf b.file _ _ _ hcr (simAt_of_reset hsim hend1) hlc.symm

theorem trace_crlf (n : Nat) :
    ∀ (a b : FileConfig), Sim a b → CrlfRel a b → (∀ c ∈ b.file, c ≠ CR) →
      trace n a = trace n b ∧ CrlfRel (afterCalls n a) (afterCalls n b) := by
  induction n with
  | zero => intro a b _ hrel _; exact ⟨rfl, hrel⟩
  | succ n ih =>
    intro a b h hrel hcr
    obtain ⟨⟨h1, h2, h3⟩, h4, h5⟩ := readNextSetting_crlf h hrel hcr
    obtain ⟨i1, i2⟩ := ih _ _ h2 h4 h5
    refine ⟨?_, i2⟩
    simp only [trace]
    rw [i1, ← h1]
    cases hr : (readNextSetting a).1
    · simp
    · simp [h3 hr]

/-- C11, the line counter at a fatal line: on `x` LF with `_ignoreError` false the only
call fails with `_lineCounter` = 2, on `x` CR LF it fails with `_lineCounter` = 1, since
the call returns after the CR, before the LF is read; both runs are then at their end. -/
theorem crlf_counter_is_behind_at_a_fatal_line :
    (∀ c ∈ [120, 10], c ≠ CR) ∧
      (readNextSetting (begin (crlf [120, 10]) 20 10 false false (fun _ => 0) (fun _ => 0))).1
        = false ∧
      (readNextSetting (begin [120, 10] 20 10 false false (fun _ => 0) (fun _ => 0))).1
        = false ∧
      (readNextSetting (begin (crlf [120, 10]) 20 10 false false (fun _ => 0)
        (fun _ => 0))).2.atEnd = true ∧
      (readNextSetting (begin [120, 10] 20 10 false false (fun _ => 0)
        (fun _ => 0))).2.atEnd = true ∧
      (readNextSetting (begin (crlf [120, 10]) 20 10 false false (fun _ => 0)
        (fun _ => 0))).2.lineCounter = 1 ∧
      (readNextSetting (begin [120, 10] 20 10 false false (fun _ => 0)
        (fun _ => 0))).2.lineCounter = 2 := by
  decide

/-- C11 as the code has it: for every text `t` without CR and every configuration, the
first `n` calls on `crlf t` return the same booleans and, where true, the same (section,
name, raw value) records as the first `n` calls on `t`. After them, either the run on
`crlf t` has the `crlf` of what the run on `t` has left unread and the two line counters
are equal, or it stopped between a CR and its LF and its counter is one behind; so the
counters are equal whenever the run on `crlf t` has read its whole input. -/
theorem crlf_gives_the_same_records (t : List Nat) (maxLineLength maxSectionLength : Nat)
    (ignoreCase ignoreError : Bool) (lineMem sectionMem : Nat → Nat) (n : Nat)
    (hcr : ∀ c ∈ t, c ≠ CR) :
    trace n (begin (crlf t) maxLineLength maxSectionLength ignoreCase ignoreError
        lineMem sectionMem)
      = trace n (begin t maxLineLength maxSectionLength ignoreCase ignoreError
        lineMem sectionMem) ∧
    (((afterCalls n (begin (crlf t) maxLineLength maxSectionLength ignoreCase ignoreError
          lineMem sectionMem)).file
        = crlf (afterCalls n (begin t maxLineLength maxSectionLength ignoreCase ignoreError
          lineMem sectionMem)).file ∧
      (afterCalls n (begin (crlf t) maxLineLength maxSectionLength ignoreCase ignoreError
          lineMem sectionMem)).lineCounter
        = (afterCalls n (begin t maxLineLength maxSectionLength ignoreCase ignoreError
          lineMem sectionMem)).lineCounter) ∨
     ((afterCalls n (begin (crlf t) maxLineLength maxSectionLength ignoreCase ignoreError
          lineMem sectionMem)).file
        = LF :: crlf (afterCalls n (begin t maxLineLength maxSectionLength ignoreCase
          ignoreError lineMem sectionMem)).file ∧
      (afterCalls n (begin t maxLineLength maxSectionLength ignoreCase ignoreError
          lineMem sectionMem)).lineCounter
        = ((afterCalls n (begin (crlf t) maxLineLength maxSectionLength ignoreCase ignoreError
          lineMem sectionMem)).lineCounter + 1) % 65536)) ∧
    ((afterCalls n (begin (crlf t) maxLineLength maxSectionLength ignoreCase ignoreError
        lineMem sectionMem)).file = [] →
      (afterCalls n (begin (crlf t) maxLineLength maxSectionLength ignoreCase ignoreError
          lineMem sectionMem)).lineCounter
        = (afterCalls n (begin t maxLineLength maxSectionLength ignoreCase ignoreError
          lineMem sectionMem)).lineCounter) := by
  obtain ⟨h1, h2⟩ := trace_crlf n _ _
    (begin_sim (crlf t) t maxLineLength maxSectionLength ignoreCase ignoreError
      lineMem sectionMem)
    (Or.inl ⟨rfl, rfl⟩) hcr
  refine ⟨h1, h2, ?_⟩
  intro hnil
  rcases h2 with ⟨-, hlc⟩ | ⟨hf, -⟩
  · exact hlc
  · rw [hnil] at hf; cases hf

theorem crlf_gives_the_same_records_witness :
    (∀ c ∈ [91, 115, 93, 10, 107, 61, 118, 10], c ≠ CR) ∧
    trace 3 (begin (crlf [91, 115, 93, 10, 107, 61, 118, 10]) 20 10 false false
        (fun _ => 0) (fun _ => 0))
      = trace 3 (begin [91, 115, 93, 10, 107, 61, 118, 10] 20 10 false false
        (fun _ => 0) (fun _ => 0)) :=
  ⟨by decide, (crlf_gives_the_same_records _ 20 10 false false _ _ 3 (by decide)).1⟩

end FileConfig
